import Mathlib

/-!
# gklib `aio/iosubmit`: request-slot pool, submission, drain and cancellation

Shallow embedding of `src/aio/iosubmit.c` / `src/aio/iosubmit.h`.

Modelling conventions.

* Pointers into `io_ctx->requests` (`struct io_req *`) are slot indices (`Nat`);
  `requests + i` is the index `i`, and `io_req - io_ctx->requests` is the index
  again.  Dereferencing an index outside the array, or writing `req_pool`
  outside the array, is undefined behaviour in C and is `none` here.  The
  address `requests + key` that `io_ctx_cancel` hands to `io_cancel` is the
  key itself (`Int`); it is dereferenced only when `io_cancel` returned 0.
* The results of `io_submit` and `io_cancel` are scripted integers.  The
  library returns from `io_submit` of one descriptor 1 or a negative error
  number, and from `io_cancel` 0 or a negative error number; statements about
  a refused operation take the result to be negative.
* Caller supplied pointers (buffers, `complete_cb`, `data_cb`) are opaque
  `Nat` values.  Invoking a completion callback is recorded in the trace; the
  callback is assumed not to re-enter the context.
* The operating system and the `wait_cb` hook are an explicit script: every
  external call consumes the next scripted response.  A script that ends, or
  whose next response belongs to another call, gives `none` (no execution).
* Every external call is recorded, with its arguments and results, in a
  chronological trace (oldest entry first).
* C integers are `Int`/`Nat`; the conversions of the `uint64_t` counters of
  `io_ctx_process` to `int` are explicit (`toInt32`, `% 2^64`), and the
  sequence counter is masked to 63 bits as in the source.
-/

namespace Aio

/-! ## External types (libaio) -/

/-- Operation codes of `libaio.h` used by the submit functions. -/
inductive io_iocb_cmd where
  | IO_CMD_PREAD
  | IO_CMD_PWRITE
  | IO_CMD_FSYNC
  | IO_CMD_FDSYNC
  | IO_CMD_PREADV
  | IO_CMD_PWRITEV
  deriving DecidableEq, Repr

/-- Member `u.c` of `struct iocb` (`struct io_iocb_common`). -/
structure io_iocb_common where
  buf : Nat
  nbytes : Nat
  offset : Int
  flags : Nat
  resfd : Int
  deriving DecidableEq, Repr

/-- Member `u.v` of `struct iocb` (`struct io_iocb_vector`). -/
structure io_iocb_vector where
  vec : Nat
  nr : Int
  offset : Int
  deriving DecidableEq, Repr

/-- The union `u` of `struct iocb`: a compound literal initialises one member;
when two members are designated (`.u.c = ..., .u.v = ...`) the later designator
overrides the earlier one, so the union holds the member designated last. -/
inductive iocb_u where
  | c (c : io_iocb_common)
  | v (v : io_iocb_vector)
  deriving DecidableEq, Repr

/-- The operation descriptor `struct iocb` of `libaio.h`.  `data` is the
`struct io_req *` stored by the submit functions (a slot index); `key` is an
`unsigned` (32 bit) field. -/
structure iocb where
  data : Nat
  key : Nat
  aio_lio_opcode : io_iocb_cmd
  aio_reqprio : Int
  aio_fildes : Int
  u : iocb_u
  deriving DecidableEq, Repr

/-- The completion record `struct io_event` of `libaio.h`: `data` is the
`data` field of the finished descriptor (a slot index), `res` the result code
as it reaches the `int result` parameter of the callback. -/
structure io_event where
  data : Nat
  res : Int
  deriving DecidableEq, Repr

/-! ## Data model (`iosubmit.h`) -/

/-- The request record `struct io_req`: descriptor, completion callback and
callback data. -/
structure io_req where
  iocb : iocb
  complete_cb : Nat
  data_cb : Nat
  deriving DecidableEq, Repr

/-- The context `struct io_ctx`.  `requests` is the slot storage, `req_pool`
the array of available requests (slot indices), `active` the count of active
requests. -/
structure io_ctx where
  ctx : Nat
  capacity : Int
  event_fd : Int
  wait_cb : Nat
  req_cnt : Int
  requests : List io_req
  req_pool : List Nat
  active : Int
  deriving DecidableEq, Repr

/-- A zero-filled `struct io_req`, as returned by `calloc`. -/
def io_req_zero : io_req :=
  { iocb := { data := 0, key := 0, aio_lio_opcode := io_iocb_cmd.IO_CMD_PREAD,
              aio_reqprio := 0, aio_fildes := 0,
              u := iocb_u.c { buf := 0, nbytes := 0, offset := 0, flags := 0, resfd := 0 } },
    complete_cb := 0, data_cb := 0 }

/-- A zero-filled `struct io_ctx`, as left by `memset(io_ctx, 0, sizeof(*io_ctx))`. -/
def io_ctx_zero : io_ctx :=
  { ctx := 0, capacity := 0, event_fd := 0, wait_cb := 0, req_cnt := 0,
    requests := [], req_pool := [], active := 0 }

/-! ## The environment: scripted responses and the trace of external calls -/

/-- One scripted response of the environment to an external call.  `errno` is
the error number left by a failed call (error numbers are positive, so the
field is a natural number). -/
inductive OsResp where
  | eventfd (ret : Int) (errno : Nat)
  | io_setup (ret : Int) (ctx : Nat)
  | wait_cb (ret : Int)
  | read (ret : Int) (errno : Nat) (value : Nat)
  | io_getevents (ret : Int) (events : List io_event)
  | io_submit (ret : Int)
  | io_cancel (ret : Int) (event : io_event)
  deriving DecidableEq, Repr

/-- One entry of the trace: an external call made by the code, with the
arguments that matter and the result, or an invocation of a completion
callback.  `io_submit` records the slot handed to the OS together with the
contents of that slot at the time of the call; `io_cancel` records the key
whose descriptor address `requests + key` is handed to the OS. -/
inductive Ev where
  | eventfd (ret : Int)
  | io_setup (nr : Int) (ret : Int)
  | close (fd : Int)
  | wait_cb (fd : Int) (ret : Int)
  | read (fd : Int) (ret : Int) (errno : Nat) (value : Nat)
  | io_getevents (nr : Int) (ret : Int) (events : List io_event)
  | complete_cb (cb : Nat) (result : Int) (data : Nat)
  | io_submit (slot : Nat) (req : io_req) (ret : Int)
  | io_cancel (key : Int) (ret : Int) (event : io_event)
  | io_destroy (ctx : Nat)
  | free_requests
  | free_req_pool
  deriving DecidableEq, Repr

/-- The program state: the context structure and the trace so far. -/
structure State where
  ctx : io_ctx
  trace : List Ev
  deriving DecidableEq, Repr

/-- Append one entry to the trace. -/
def State.emit (st : State) (e : Ev) : State :=
  { st with trace := st.trace ++ [e] }

/-! ## Machine integers -/

/-- Conversion of an integer value to a 32 bit `int` (two's complement). -/
def toInt32 (n : Int) : Int :=
  (n + 2147483648) % 4294967296 - 2147483648

/-- The modulus of `uint64_t`. -/
def UINT64_MOD : Nat := 18446744073709551616

/-- Max count to finished requests fetch at once (`MAX_EVENT_CNT`). -/
def MAX_EVENT_CNT : Nat := 32

/-! ## The request pool -/

/-- Source `io_ctx_put_req`: put a request to the requests pool.
`req_pool[capacity - active] = io_req; --active`. -/
def io_ctx_put_req (c : io_ctx) (io_req : Nat) : Option io_ctx :=
  let idx := c.capacity - c.active
  if 0 ≤ idx ∧ idx.toNat < c.req_pool.length then
    some { c with req_pool := c.req_pool.set idx.toNat io_req, active := c.active - 1 }
  else
    none

/-- The `for` loop of `io_ctx_process`: for each fetched event, call the
completion callback of the request the event points to, then return the
request to the pool. -/
def io_ctx_process_dispatch : List io_event → State → Option State
  | [], st => some st
  | ev :: evs, st =>
    match st.ctx.requests[ev.data]? with
    | none => none
    | some r =>
      match io_ctx_put_req st.ctx ev.data with
      | none => none
      | some c =>
        io_ctx_process_dispatch evs
          { ctx := c, trace := st.trace ++ [Ev.complete_cb r.complete_cb ev.res r.data_cb] }

/-- The number of events requested from `io_getevents`:
`int count = finished - completed; if (count > MAX_EVENT_CNT) count = MAX_EVENT_CNT;`
(evaluated when `completed < finished`). -/
def fetch_count (finished completed : Nat) : Int :=
  let count := toInt32 (finished - completed : Nat)
  if count > MAX_EVENT_CNT then (MAX_EVENT_CNT : Int) else count

/-- The `while (completed < finished)` loop of `io_ctx_process`. -/
def io_ctx_process_loop (finished : Nat) : List OsResp → Nat → State →
    Option (Int × State × List OsResp)
  | [], completed, st =>
    if completed < finished then none else some (toInt32 completed, st, [])
  | r :: os, completed, st =>
    if completed < finished then
      match r with
      | OsResp.io_getevents processed events =>
        let st1 := st.emit (Ev.io_getevents (fetch_count finished completed) processed events)
        if processed < 0 then
          some (if completed > 0 then toInt32 completed else processed, st1, os)
        else if MAX_EVENT_CNT < processed.toNat ∨ events.length < processed.toNat then
          none
        else
          match io_ctx_process_dispatch (events.take processed.toNat) st1 with
          | none => none
          | some st2 =>
            io_ctx_process_loop finished os ((completed + processed.toNat) % UINT64_MOD) st2
      | _ => none
    else
      some (toInt32 completed, st, r :: os)

/-- Source `io_ctx_process`: wait on the eventfd, read the count of finished
requests, fetch them in batches and call the completion callbacks. -/
def io_ctx_process : List OsResp → State → Option (Int × State × List OsResp)
  | OsResp.wait_cb w :: os, st =>
    let st1 := st.emit (Ev.wait_cb st.ctx.event_fd w)
    if w < 0 then
      some (0, st1, os)
    else
      match os with
      | OsResp.read r errno value :: os2 =>
        let st2 := st1.emit (Ev.read st.ctx.event_fd r errno value)
        if r < 0 then
          some (-(errno : Int), st2, os2)
        else
          io_ctx_process_loop (value % UINT64_MOD) os2 0 st2
      | _ => none
  | _, _ => none

/-- The `while (io_ctx->active == io_ctx->capacity)` loop of `io_ctx_get_req`:
while the pool is empty, process completions; a negative result of
`io_ctx_process` is returned at once.  The result `0` means the loop was left
with a request available.  The first argument bounds the number of iterations;
`io_ctx_get_req` supplies a bound that is never reached
(`io_ctx_get_req_wait_fuel`). -/
def io_ctx_get_req_wait : Nat → List OsResp → State → Option (Int × State × List OsResp)
  | 0, _, _ => none
  | fuel + 1, os, st =>
    if st.ctx.active = st.ctx.capacity then
      match io_ctx_process os st with
      | none => none
      | some (res, st1, os1) =>
        if res < 0 then some (res, st1, os1) else io_ctx_get_req_wait fuel os1 st1
    else
      some (0, st, os)

/-- Source `io_ctx_get_req`: get a request from the requests pool.  Returns
the result code and the request written to `*io_req` (meaningful only when the
result is `0`). -/
def io_ctx_get_req (os : List OsResp) (st : State) : Option (Int × Nat × State × List OsResp) :=
  match io_ctx_get_req_wait (os.length + 1) os st with
  | none => none
  | some (res, st1, os1) =>
    if res < 0 then
      some (res, 0, st1, os1)
    else
      let idx := st1.ctx.capacity - st1.ctx.active - 1
      if 0 ≤ idx then
        match st1.ctx.req_pool[idx.toNat]? with
        | none => none
        | some io_req =>
          some (0, io_req,
            { st1 with ctx := { st1.ctx with
                active := st1.ctx.active + 1,
                req_cnt := (st1.ctx.req_cnt + 1) % 9223372036854775808 } },
            os1)
      else
        none

/-! ## Submission -/

/-- The body shared, statement for statement, by the six submit functions:
get a request, store the callback and its data, build the descriptor
(`mk`, the compound literal of the function at hand), `io_submit` it; on
`res > 0` return `io_req - io_ctx->requests`, otherwise return the request to
the pool and return `res`. -/
def io_ctx_submit (mk : io_ctx → Nat → iocb) (complete_cb data_cb : Nat)
    (os : List OsResp) (st : State) : Option (Int × State × List OsResp) :=
  match io_ctx_get_req os st with
  | none => none
  | some (res, io_req, st1, os1) =>
    if res < 0 then
      some (res, st1, os1)
    else
      match st1.ctx.requests[io_req]? with
      | none => none
      | some _ =>
        let r : Aio.io_req :=
          { iocb := mk st1.ctx io_req, complete_cb := complete_cb, data_cb := data_cb }
        let c2 : io_ctx := { st1.ctx with requests := st1.ctx.requests.set io_req r }
        match os1 with
        | OsResp.io_submit res2 :: os2 =>
          let st2 : State := { ctx := c2, trace := st1.trace ++ [Ev.io_submit io_req r res2] }
          if res2 > 0 then
            some ((io_req : Int), st2, os2)
          else
            match io_ctx_put_req c2 io_req with
            | none => none
            | some c3 => some (res2, { st2 with ctx := c3 }, os2)
        | _ => none

/-- Conversion of the sequence counter to the `unsigned key` field. -/
def iocb_key (req_cnt : Int) : Nat :=
  (req_cnt % 4294967296).toNat

/-- Descriptor built by `io_ctx_write`. -/
def iocb_write (fd : Int) (data count : Nat) (offset : Int) (c : io_ctx) (io_req : Nat) : iocb :=
  { data := io_req, key := iocb_key c.req_cnt,
    aio_lio_opcode := io_iocb_cmd.IO_CMD_PWRITE, aio_reqprio := 0, aio_fildes := fd,
    u := iocb_u.c { buf := data, nbytes := count, offset := offset,
                    flags := 1, resfd := c.event_fd } }

/-- Descriptor built by `io_ctx_writev`: `.u.c` is designated first and `.u.v`
after it. -/
def iocb_writev (fd : Int) (iov : Nat) (iovcnt : Int) (offset : Int) (c : io_ctx)
    (io_req : Nat) : iocb :=
  { data := io_req, key := iocb_key c.req_cnt,
    aio_lio_opcode := io_iocb_cmd.IO_CMD_PWRITEV, aio_reqprio := 0, aio_fildes := fd,
    u := iocb_u.v { vec := iov, nr := iovcnt, offset := offset } }

/-- Descriptor built by `io_ctx_read`. -/
def iocb_read (fd : Int) (data count : Nat) (offset : Int) (c : io_ctx) (io_req : Nat) : iocb :=
  { data := io_req, key := iocb_key c.req_cnt,
    aio_lio_opcode := io_iocb_cmd.IO_CMD_PREAD, aio_reqprio := 0, aio_fildes := fd,
    u := iocb_u.c { buf := data, nbytes := count, offset := offset,
                    flags := 1, resfd := c.event_fd } }

/-- Descriptor built by `io_ctx_readv`: `.u.c` is designated first and `.u.v`
after it. -/
def iocb_readv (fd : Int) (iov : Nat) (iovcnt : Int) (offset : Int) (c : io_ctx)
    (io_req : Nat) : iocb :=
  { data := io_req, key := iocb_key c.req_cnt,
    aio_lio_opcode := io_iocb_cmd.IO_CMD_PREADV, aio_reqprio := 0, aio_fildes := fd,
    u := iocb_u.v { vec := iov, nr := iovcnt, offset := offset } }

/-- Descriptor built by `io_ctx_fsync`. -/
def iocb_fsync (fd : Int) (c : io_ctx) (io_req : Nat) : iocb :=
  { data := io_req, key := iocb_key c.req_cnt,
    aio_lio_opcode := io_iocb_cmd.IO_CMD_FSYNC, aio_reqprio := 0, aio_fildes := fd,
    u := iocb_u.c { buf := 0, nbytes := 0, offset := 0, flags := 1, resfd := c.event_fd } }

/-- Descriptor built by `io_ctx_fdsync` (the source writes `IO_CMD_FSYNC`). -/
def iocb_fdsync (fd : Int) (c : io_ctx) (io_req : Nat) : iocb :=
  { data := io_req, key := iocb_key c.req_cnt,
    aio_lio_opcode := io_iocb_cmd.IO_CMD_FSYNC, aio_reqprio := 0, aio_fildes := fd,
    u := iocb_u.c { buf := 0, nbytes := 0, offset := 0, flags := 1, resfd := c.event_fd } }

/-- Source `io_ctx_write`. -/
def io_ctx_write (fd : Int) (data count : Nat) (offset : Int) (complete_cb data_cb : Nat)
    (os : List OsResp) (st : State) : Option (Int × State × List OsResp) :=
  io_ctx_submit (iocb_write fd data count offset) complete_cb data_cb os st

/-- Source `io_ctx_writev`. -/
def io_ctx_writev (fd : Int) (iov : Nat) (iovcnt : Int) (offset : Int)
    (complete_cb data_cb : Nat)
    (os : List OsResp) (st : State) : Option (Int × State × List OsResp) :=
  io_ctx_submit (iocb_writev fd iov iovcnt offset) complete_cb data_cb os st

/-- Source `io_ctx_read`. -/
def io_ctx_read (fd : Int) (data count : Nat) (offset : Int) (complete_cb data_cb : Nat)
    (os : List OsResp) (st : State) : Option (Int × State × List OsResp) :=
  io_ctx_submit (iocb_read fd data count offset) complete_cb data_cb os st

/-- Source `io_ctx_readv`. -/
def io_ctx_readv (fd : Int) (iov : Nat) (iovcnt : Int) (offset : Int)
    (complete_cb data_cb : Nat)
    (os : List OsResp) (st : State) : Option (Int × State × List OsResp) :=
  io_ctx_submit (iocb_readv fd iov iovcnt offset) complete_cb data_cb os st

/-- Source `io_ctx_fsync`. -/
def io_ctx_fsync (fd : Int) (complete_cb data_cb : Nat)
    (os : List OsResp) (st : State) : Option (Int × State × List OsResp) :=
  io_ctx_submit (iocb_fsync fd) complete_cb data_cb os st

/-- Source `io_ctx_fdsync`. -/
def io_ctx_fdsync (fd : Int) (complete_cb data_cb : Nat)
    (os : List OsResp) (st : State) : Option (Int × State × List OsResp) :=
  io_ctx_submit (iocb_fdsync fd) complete_cb data_cb os st

/-! ## Cancellation -/

/-- Source `io_ctx_cancel`: `io_req = requests + key` only forms an address,
which `io_cancel` receives; on `0` the slot is read: call the completion
callback with the result reported by the OS and return the request to the
pool; otherwise return the result of `io_cancel`. -/
def io_ctx_cancel (key : Int) (os : List OsResp) (st : State) :
    Option (Int × State × List OsResp) :=
  match os with
  | OsResp.io_cancel res event :: os1 =>
    let st1 := st.emit (Ev.io_cancel key res event)
    if res = 0 then
      if 0 ≤ key then
        match st1.ctx.requests[key.toNat]? with
        | none => none
        | some r =>
          match io_ctx_put_req st1.ctx key.toNat with
          | none => none
          | some c =>
            some (0, { ctx := c,
                       trace := st1.trace ++ [Ev.complete_cb r.complete_cb event.res r.data_cb] },
                  os1)
      else
        none
    else
      some (res, st1, os1)
  | _ => none

/-! ## Creation and teardown -/

/-- Source `io_ctx_create`.  The trace starts empty; `calloc` is assumed to
succeed. -/
def io_ctx_create (capacity : Int) (wait_cb : Nat) :
    List OsResp → Option (Int × State × List OsResp)
  | OsResp.eventfd fd errno :: os =>
    let c0 : io_ctx := { io_ctx_zero with event_fd := fd }
    if fd < 0 then
      some (-(errno : Int), { ctx := c0, trace := [Ev.eventfd fd] }, os)
    else
      match os with
      | OsResp.io_setup res ctx :: os2 =>
        if res < 0 then
          some (res, { ctx := c0,
                       trace := [Ev.eventfd fd, Ev.io_setup capacity res, Ev.close fd] }, os2)
        else
          some (0, { ctx := { ctx := ctx, capacity := capacity, event_fd := fd,
                              wait_cb := wait_cb, req_cnt := 0,
                              requests := List.replicate capacity.toNat io_req_zero,
                              req_pool := List.range capacity.toNat,
                              active := 0 },
                     trace := [Ev.eventfd fd, Ev.io_setup capacity res] }, os2)
      | _ => none
  | _ => none

/-- The loop `while (io_ctx->active && io_ctx_process(io_ctx) >= 0);` of
`io_ctx_destroy`.  The first argument bounds the number of iterations. -/
def io_ctx_destroy_wait : Nat → List OsResp → State → Option (State × List OsResp)
  | 0, _, _ => none
  | fuel + 1, os, st =>
    if st.ctx.active ≠ 0 then
      match io_ctx_process os st with
      | none => none
      | some (res, st1, os1) =>
        if res ≥ 0 then io_ctx_destroy_wait fuel os1 st1 else some (st1, os1)
    else
      some (st, os)

/-- Source `io_ctx_destroy`: wait until all requests are done, then release
the OS queue, the slot storage, the pool and the eventfd. -/
def io_ctx_destroy (os : List OsResp) (st : State) : Option (State × List OsResp) :=
  match io_ctx_destroy_wait (os.length + 1) os st with
  | none => none
  | some (st1, os1) =>
    some ({ st1 with trace := st1.trace ++
              [Ev.io_destroy st1.ctx.ctx, Ev.free_requests, Ev.free_req_pool,
               Ev.close st1.ctx.event_fd] }, os1)

/-! ## Calls of the public interface and their sequencing -/

/-- The six submit operations with their arguments (the completion callback
and its data are passed separately). -/
inductive SubmitOp where
  | write (fd : Int) (data count : Nat) (offset : Int)
  | writev (fd : Int) (iov : Nat) (iovcnt : Int) (offset : Int)
  | read (fd : Int) (data count : Nat) (offset : Int)
  | readv (fd : Int) (iov : Nat) (iovcnt : Int) (offset : Int)
  | fsync (fd : Int)
  | fdsync (fd : Int)
  deriving DecidableEq, Repr

/-- Run one submit operation: the corresponding source function. -/
def SubmitOp.exec (op : SubmitOp) (complete_cb data_cb : Nat) (os : List OsResp) (st : State) :
    Option (Int × State × List OsResp) :=
  match op with
  | SubmitOp.write fd data count offset => io_ctx_write fd data count offset complete_cb data_cb os st
  | SubmitOp.writev fd iov iovcnt offset =>
    io_ctx_writev fd iov iovcnt offset complete_cb data_cb os st
  | SubmitOp.read fd data count offset => io_ctx_read fd data count offset complete_cb data_cb os st
  | SubmitOp.readv fd iov iovcnt offset =>
    io_ctx_readv fd iov iovcnt offset complete_cb data_cb os st
  | SubmitOp.fsync fd => io_ctx_fsync fd complete_cb data_cb os st
  | SubmitOp.fdsync fd => io_ctx_fdsync fd complete_cb data_cb os st

/-- The descriptor (compound literal) of a submit operation. -/
def SubmitOp.descriptor (op : SubmitOp) : io_ctx → Nat → iocb :=
  match op with
  | SubmitOp.write fd data count offset => iocb_write fd data count offset
  | SubmitOp.writev fd iov iovcnt offset => iocb_writev fd iov iovcnt offset
  | SubmitOp.read fd data count offset => iocb_read fd data count offset
  | SubmitOp.readv fd iov iovcnt offset => iocb_readv fd iov iovcnt offset
  | SubmitOp.fsync fd => iocb_fsync fd
  | SubmitOp.fdsync fd => iocb_fdsync fd

/-- One call of the interface on an existing context. -/
inductive Call where
  | submit (op : SubmitOp) (complete_cb data_cb : Nat)
  | process
  | cancel (key : Int)
  deriving DecidableEq, Repr

/-- Run one call. -/
def Call.exec (c : Call) (os : List OsResp) (st : State) : Option (Int × State × List OsResp) :=
  match c with
  | Call.submit op complete_cb data_cb => op.exec complete_cb data_cb os st
  | Call.process => io_ctx_process os st
  | Call.cancel key => io_ctx_cancel key os st

/-- Run a sequence of calls, one after the other, against one script. -/
def run : List Call → List OsResp → State → Option (State × List OsResp)
  | [], os, st => some (st, os)
  | c :: cs, os, st =>
    match c.exec os st with
    | none => none
    | some (_, st1, os1) => run cs os1 st1

/-! ## Specification vocabulary: outstanding operations, read off the trace -/

/-- An operation the OS has accepted and not yet reported as finished: the
slot handed to `io_submit` and the callback and data stored in it then. -/
structure PendingOp where
  slot : Nat
  complete_cb : Nat
  data_cb : Nat
  deriving DecidableEq, Repr

/-- Remove the outstanding operation of a slot. -/
def removeSlot (s : Nat) (ops : List PendingOp) : List PendingOp :=
  ops.eraseP (fun p => decide (p.slot = s))

/-- Remove the operations reported by a batch of events, in order. -/
def reportAll : List io_event → List PendingOp → List PendingOp
  | [], ops => ops
  | e :: es, ops => reportAll es (removeSlot e.data ops)

/-- The events a call of `io_getevents` delivered: the first `ret` entries of
the buffer, none when the call failed. -/
def delivered (ret : Int) (events : List io_event) : List io_event :=
  if ret < 0 then [] else events.take ret.toNat

/-- Effect of one trace entry on the outstanding operations: an accepted
`io_submit` adds one, delivered events and a confirmed `io_cancel` remove
theirs. -/
def pendingStep (ops : List PendingOp) : Ev → List PendingOp
  | Ev.io_submit slot req ret =>
    if 0 < ret then { slot := slot, complete_cb := req.complete_cb, data_cb := req.data_cb } :: ops
    else ops
  | Ev.io_getevents _ ret events => reportAll (delivered ret events) ops
  | Ev.io_cancel key ret _ => if ret = 0 then removeSlot key.toNat ops else ops
  | _ => ops

/-- Outstanding operations after a trace that started with the operations `ops`. -/
def pendingFrom (ops : List PendingOp) (tr : List Ev) : List PendingOp :=
  tr.foldl pendingStep ops

/-- Outstanding operations after a trace. -/
def pending (tr : List Ev) : List PendingOp :=
  pendingFrom [] tr

/-- Slots of the outstanding operations after a trace. -/
def outstanding (tr : List Ev) : List Nat :=
  (pending tr).map PendingOp.slot

/-- A batch of events reports outstanding operations only, each at most once. -/
def reportOk : List io_event → List PendingOp → Prop
  | [], _ => True
  | e :: es, ops => e.data ∈ ops.map PendingOp.slot ∧ reportOk es (removeSlot e.data ops)

/-- Assumption on the environment for one trace entry: `io_getevents` only
delivers completions of operations that are outstanding, and `io_cancel` is
only called for the key of an outstanding operation. -/
def evOk (ops : List PendingOp) : Ev → Prop
  | Ev.io_getevents _ ret events => reportOk (delivered ret events) ops
  | Ev.io_cancel key _ _ => 0 ≤ key ∧ key.toNat ∈ ops.map PendingOp.slot
  | _ => True

/-- The environment assumption along a trace that starts with the outstanding
operations `ops`. -/
def EnvOkFrom : List PendingOp → List Ev → Prop
  | _, [] => True
  | ops, e :: tr => evOk ops e ∧ EnvOkFrom (pendingStep ops e) tr

/-- The environment assumption along a whole trace. -/
def EnvOk (tr : List Ev) : Prop :=
  EnvOkFrom [] tr

/-- Decision procedure for `reportOk`. -/
instance reportOk_decidable : ∀ (es : List io_event) (ops : List PendingOp),
    Decidable (reportOk es ops)
  | [], _ => isTrue trivial
  | e :: es, ops =>
    match (inferInstance : Decidable (e.data ∈ ops.map PendingOp.slot)),
          reportOk_decidable es (removeSlot e.data ops) with
    | isTrue h1, isTrue h2 => isTrue ⟨h1, h2⟩
    | isFalse h1, _ => isFalse (fun h => h1 h.1)
    | _, isFalse h2 => isFalse (fun h => h2 h.2)

/-- Decision procedure for `evOk`. -/
instance evOk_decidable (ops : List PendingOp) : ∀ e : Ev, Decidable (evOk ops e)
  | Ev.io_getevents _ ret events => reportOk_decidable (delivered ret events) ops
  | Ev.io_cancel key _ _ =>
    (inferInstance : Decidable (0 ≤ key ∧ key.toNat ∈ ops.map PendingOp.slot))
  | Ev.eventfd _ => isTrue trivial
  | Ev.io_setup _ _ => isTrue trivial
  | Ev.close _ => isTrue trivial
  | Ev.wait_cb _ _ => isTrue trivial
  | Ev.read _ _ _ _ => isTrue trivial
  | Ev.complete_cb _ _ _ => isTrue trivial
  | Ev.io_submit _ _ _ => isTrue trivial
  | Ev.io_destroy _ => isTrue trivial
  | Ev.free_requests => isTrue trivial
  | Ev.free_req_pool => isTrue trivial

/-- Decision procedure for `EnvOkFrom`. -/
instance EnvOkFrom_decidable : ∀ (ops : List PendingOp) (tr : List Ev),
    Decidable (EnvOkFrom ops tr)
  | _, [] => isTrue trivial
  | ops, e :: tr =>
    match evOk_decidable ops e, EnvOkFrom_decidable (pendingStep ops e) tr with
    | isTrue h1, isTrue h2 => isTrue ⟨h1, h2⟩
    | isFalse h1, _ => isFalse (fun h => h1 h.1)
    | _, isFalse h2 => isFalse (fun h => h2 h.2)

/-- Decision procedure for `EnvOk`. -/
instance EnvOk_decidable (tr : List Ev) : Decidable (EnvOk tr) :=
  EnvOkFrom_decidable [] tr

/-- Whether a trace entry is a completion callback invocation. -/
def isCallback : Ev → Bool
  | Ev.complete_cb _ _ _ => true
  | _ => false

/-- The completion callback invocations of a trace, in order. -/
def callbacksOf (tr : List Ev) : List Ev :=
  tr.filter isCallback

/-- The events delivered by the `io_getevents` calls of a trace, in order. -/
def fetchedOf : List Ev → List io_event
  | [] => []
  | Ev.io_getevents _ ret events :: tr => delivered ret events ++ fetchedOf tr
  | _ :: tr => fetchedOf tr

/-- The callback invocations a batch of events calls for: for each event the
callback and data of the outstanding operation of its slot, with the result of
the event. -/
def expectedFor : List io_event → List PendingOp → List Ev
  | [], _ => []
  | e :: es, ops =>
    match ops.find? (fun p => decide (p.slot = e.data)) with
    | none => expectedFor es ops
    | some p =>
      Ev.complete_cb p.complete_cb e.res p.data_cb :: expectedFor es (removeSlot e.data ops)

/-- The callback invocations one trace entry calls for. -/
def expectedStep (ops : List PendingOp) : Ev → List Ev
  | Ev.io_getevents _ ret events => expectedFor (delivered ret events) ops
  | Ev.io_cancel key ret event =>
    if ret = 0 then expectedFor [{ data := key.toNat, res := event.res }] ops else []
  | _ => []

/-- The callback invocations a trace calls for: one per operation reported by
the OS, in the order of the reports. -/
def expectedFrom : List PendingOp → List Ev → List Ev
  | _, [] => []
  | ops, e :: tr => expectedStep ops e ++ expectedFrom (pendingStep ops e) tr

/-- Whether a trace entry is an invocation of callback `cb` with data `d`. -/
def isCallbackOf (cb d : Nat) : Ev → Bool
  | Ev.complete_cb c _ x => decide (c = cb) && decide (x = d)
  | _ => false

/-- Whether an operation was submitted with callback `cb` and data `d`. -/
def isOpOf (cb d : Nat) (p : PendingOp) : Bool :=
  decide (p.complete_cb = cb) && decide (p.data_cb = d)

/-- Whether a trace entry is an `io_submit` call. -/
def isSubmit : Ev → Bool
  | Ev.io_submit _ _ _ => true
  | _ => false

/-- The operations accepted by the OS along a trace, oldest first. -/
def acceptedOf : List Ev → List PendingOp
  | [] => []
  | Ev.io_submit slot req ret :: tr =>
    if 0 < ret then
      { slot := slot, complete_cb := req.complete_cb, data_cb := req.data_cb } :: acceptedOf tr
    else acceptedOf tr
  | _ :: tr => acceptedOf tr

/-- The callback invocation the source makes for a fetched event, given the
slot storage: callback and data of the slot the event points to, result of the
event. -/
def callbackFor (reqs : List io_req) (e : io_event) : Option Ev :=
  (reqs[e.data]?).map (fun r => Ev.complete_cb r.complete_cb e.res r.data_cb)

/-- The error code of a trace entry that is a failed `io_getevents` call. -/
def failedFetch : Ev → Option Int
  | Ev.io_getevents _ ret _ => if ret < 0 then some ret else none
  | _ => none

/-- The available requests: `req_pool[0 .. capacity - active)`. -/
def free_list (c : io_ctx) : List Nat :=
  c.req_pool.take (c.capacity - c.active).toNat

/-- Shape of a context: both arrays have `capacity` entries, the count of
active requests is within bounds and the available requests are distinct
slots. -/
structure PoolShape (c : io_ctx) : Prop where
  requests_len : c.requests.length = c.capacity.toNat
  pool_len : c.req_pool.length = c.capacity.toNat
  active_nonneg : 0 ≤ c.active
  active_le : c.active ≤ c.capacity
  free_nodup : (free_list c).Nodup
  free_lt : ∀ s ∈ free_list c, s < c.capacity.toNat

/-- The pool agrees with the outstanding operations `ops`: a slot is available
exactly when no operation is outstanding on it, `active` counts the
outstanding operations, and the slot of each outstanding operation holds its
callback and data. -/
structure PoolOk (c : io_ctx) (ops : List PendingOp) : Prop where
  shape : PoolShape c
  free_not_pending : ∀ s ∈ free_list c, s ∉ ops.map PendingOp.slot
  pending_nodup : (ops.map PendingOp.slot).Nodup
  pending_lt : ∀ s ∈ ops.map PendingOp.slot, s < c.capacity.toNat
  cover : ∀ s, s < c.capacity.toNat → s ∈ free_list c ∨ s ∈ ops.map PendingOp.slot
  active_eq : c.active = ops.length
  stored : ∀ p ∈ ops, ∃ r, c.requests[p.slot]? = some r ∧
    r.complete_cb = p.complete_cb ∧ r.data_cb = p.data_cb

/-- A step from context `c` to context `c1` that added `seg` to the trace
preserves the agreement between pool and outstanding operations and invokes
exactly the callbacks called for, whenever the environment assumption holds
along `seg`. -/
def Preserves (c c1 : io_ctx) (seg : List Ev) : Prop :=
  ∀ ops, EnvOkFrom ops seg → PoolOk c ops →
    PoolOk c1 (pendingFrom ops seg) ∧ callbacksOf seg = expectedFrom ops seg

/-- Repeated draining under backpressure: a chain of `io_ctx_process` calls,
each made while the pool is empty (`active == capacity`) and each returning a
non-negative value. -/
inductive Drains : List OsResp → State → List OsResp → State → Prop where
  | done (os : List OsResp) (st : State) : Drains os st os st
  | step (os os1 os2 : List OsResp) (st st1 st2 : State) (r : Int) :
      st.ctx.active = st.ctx.capacity →
      io_ctx_process os st = some (r, st1, os1) →
      0 ≤ r →
      Drains os1 st1 os2 st2 →
      Drains os st os2 st2

/-- The context after `io_ctx_get_req` took a request: `++active` and the
sequence counter advanced. -/
def ctx_acquired (c : io_ctx) : io_ctx :=
  { c with active := c.active + 1, req_cnt := (c.req_cnt + 1) % 9223372036854775808 }

/-- The request record a submit function writes into the slot it acquired. -/
def req_filled (mk : io_ctx → Nat → iocb) (complete_cb data_cb : Nat) (c : io_ctx)
    (slot : Nat) : io_req :=
  { iocb := mk (ctx_acquired c) slot, complete_cb := complete_cb, data_cb := data_cb }

/-- The state in which a submit function calls `io_submit`, with the call
recorded: the slot is acquired and filled. -/
def st_submitted (mk : io_ctx → Nat → iocb) (complete_cb data_cb : Nat) (st : State)
    (slot : Nat) (ret : Int) : State :=
  { ctx := { ctx_acquired st.ctx with
      requests := st.ctx.requests.set slot (req_filled mk complete_cb data_cb st.ctx slot) },
    trace := st.trace ++ [Ev.io_submit slot (req_filled mk complete_cb data_cb st.ctx slot) ret] }

/-! ## Example states and scripts -/

/-- Script of a successful `io_ctx_create`: eventfd 3, queue handle 1. -/
def demo_create_script : List OsResp :=
  [OsResp.eventfd 3 0, OsResp.io_setup 0 1]

/-- The context left by `io_ctx_create 2 1` on `demo_create_script`. -/
def demo_fresh : State :=
  { ctx := { ctx := 1, capacity := 2, event_fd := 3, wait_cb := 1, req_cnt := 0,
             requests := [io_req_zero, io_req_zero], req_pool := [0, 1], active := 0 },
    trace := [Ev.eventfd 3, Ev.io_setup 2 0] }

/-- Two accepted writes: A (callback 11, data 21) and B (callback 12, data 22). -/
def demo_calls_AB : List Call :=
  [Call.submit (SubmitOp.write 5 100 10 0) 11 21, Call.submit (SubmitOp.write 5 200 10 512) 12 22]

/-- The state after two accepted writes on `demo_fresh`: the pool is empty. -/
def demo_full : State :=
  match run demo_calls_AB [OsResp.io_submit 1, OsResp.io_submit 1] demo_fresh with
  | some (st, _) => st
  | none => demo_fresh

/-- A drain script in which both operations have finished: A with result 10,
B with result 10. -/
def demo_drain_script : List OsResp :=
  [OsResp.wait_cb 0, OsResp.read 8 0 2,
   OsResp.io_getevents 2 [{ data := 1, res := 10 }, { data := 0, res := 10 }]]

/-- The state after `io_ctx_process` on `demo_full` with `demo_drain_script`. -/
def demo_drained : State :=
  match io_ctx_process demo_drain_script demo_full with
  | some (_, st, _) => st
  | none => demo_full

/-- A drain script in which the first `io_getevents` call fails. -/
def demo_fetch_fail_script : List OsResp :=
  [OsResp.wait_cb 0, OsResp.read 8 0 2, OsResp.io_getevents (-4) []]

/-- The state after `io_ctx_process` on `demo_full` with `demo_fetch_fail_script`. -/
def demo_fetch_failed : State :=
  match io_ctx_process demo_fetch_fail_script demo_full with
  | some (_, st, _) => st
  | none => demo_full

/-- A script for a third write C on `demo_full`: one operation (A, slot 1) has
finished; then `io_submit` accepts C. -/
def demo_third_script : List OsResp :=
  [OsResp.wait_cb 0, OsResp.read 8 0 1, OsResp.io_getevents 1 [{ data := 1, res := 10 }],
   OsResp.io_submit 1]

/-- The state after the third write C (callback 13, data 23) on `demo_full`
with `demo_third_script`. -/
def demo_third : State :=
  match (SubmitOp.write 5 300 10 1024).exec 13 23 demo_third_script demo_full with
  | some (_, st, _) => st
  | none => demo_full

/-- A script for a third write on `demo_full` that needs two drains: in the
first `wait_cb` reports that nothing is ready, in the second A has finished;
then `io_submit` accepts. -/
def demo_two_drain_script : List OsResp :=
  [OsResp.wait_cb (-1),
   OsResp.wait_cb 0, OsResp.read 8 0 1, OsResp.io_getevents 1 [{ data := 1, res := 10 }],
   OsResp.io_submit 1]

/-- The state after the first drain of `demo_two_drain_script` on `demo_full`. -/
def demo_waited : State :=
  match io_ctx_process demo_two_drain_script demo_full with
  | some (_, st, _) => st
  | none => demo_full

/-- The state after the second drain of `demo_two_drain_script`. -/
def demo_one_freed : State :=
  match io_ctx_process (demo_two_drain_script.drop 1) demo_waited with
  | some (_, st, _) => st
  | none => demo_waited

/-- A session on the fresh context: writes A and B are accepted, write C
drains A and is accepted on its slot, B is cancelled (confirmed by the OS), and
a last drain delivers C. -/
def demo_session_calls : List Call :=
  [Call.submit (SubmitOp.write 5 100 10 0) 11 21,
   Call.submit (SubmitOp.write 5 200 10 512) 12 22,
   Call.submit (SubmitOp.write 5 300 10 1024) 13 23,
   Call.cancel 0,
   Call.process]

/-- The responses of the environment during `demo_session_calls`. -/
def demo_session_script : List OsResp :=
  [OsResp.io_submit 1, OsResp.io_submit 1,
   OsResp.wait_cb 0, OsResp.read 8 0 1, OsResp.io_getevents 1 [{ data := 1, res := 10 }],
   OsResp.io_submit 1,
   OsResp.io_cancel 0 { data := 0, res := -125 },
   OsResp.wait_cb 0, OsResp.read 8 0 1, OsResp.io_getevents 1 [{ data := 1, res := 10 }]]

/-- The state at the end of the session. -/
def demo_session_end : State :=
  match run demo_session_calls demo_session_script demo_fresh with
  | some (st, _) => st
  | none => demo_fresh

/-- The request record of write C as handed to `io_submit` in `demo_third`. -/
def demo_req_C : io_req :=
  { iocb := { data := 1, key := 3, aio_lio_opcode := io_iocb_cmd.IO_CMD_PWRITE,
              aio_reqprio := 0, aio_fildes := 5,
              u := iocb_u.c { buf := 300, nbytes := 10, offset := 1024, flags := 1, resfd := 3 } },
    complete_cb := 13, data_cb := 23 }

/-- A drain script in which one event (A, slot 1) is fetched and the second
fetch fails. -/
def demo_partial_script : List OsResp :=
  [OsResp.wait_cb 0, OsResp.read 8 0 2,
   OsResp.io_getevents 1 [{ data := 1, res := 10 }], OsResp.io_getevents (-4) []]

/-- The state after `io_ctx_process` on `demo_full` with `demo_partial_script`. -/
def demo_partial : State :=
  match io_ctx_process demo_partial_script demo_full with
  | some (_, st, _) => st
  | none => demo_full

/-- A later drain script delivering the remaining operation (B, slot 0). -/
def demo_retry_script : List OsResp :=
  [OsResp.wait_cb 0, OsResp.read 8 0 1, OsResp.io_getevents 1 [{ data := 0, res := 10 }]]

/-- The state after the retry on `demo_partial`. -/
def demo_retried : State :=
  match io_ctx_process demo_retry_script demo_partial with
  | some (_, st, _) => st
  | none => demo_partial

/-! ## Reading a descriptor -/

/-- The event-notification flag `u.c.flags` of a descriptor, when the union
holds the member `c`; a descriptor whose union holds `v` has no value given to
this field by its initialiser. -/
def iocb.flags (d : iocb) : Option Nat :=
  match d.u with
  | iocb_u.c c => some c.flags
  | iocb_u.v _ => none

/-- The field `u.c.resfd` of a descriptor, when the union holds the member `c`. -/
def iocb.resfd (d : iocb) : Option Int :=
  match d.u with
  | iocb_u.c c => some c.resfd
  | iocb_u.v _ => none

/-- The member `u.v` of a descriptor, when the union holds it. -/
def iocb.vector (d : iocb) : Option io_iocb_vector :=
  match d.u with
  | iocb_u.c _ => none
  | iocb_u.v v => some v

/-- The state after an accepted `io_ctx_writev` on `demo_fresh`. -/
def demo_writev : State :=
  match io_ctx_writev 5 700 2 64 11 21 [OsResp.io_submit 1] demo_fresh with
  | some (_, st, _) => st
  | none => demo_fresh

/-- The state after an accepted `io_ctx_fdsync` on `demo_fresh`. -/
def demo_fdsync : State :=
  match io_ctx_fdsync 5 11 21 [OsResp.io_submit 1] demo_fresh with
  | some (_, st, _) => st
  | none => demo_fresh

/-! ## Vocabulary for batched retrieval -/

/-- A sequence of batches delivered by successive `io_getevents` calls fits a
finished count `f`, starting from `completed` events: every batch is delivered
while `completed < f`, holds at most `min (f - completed) MAX_EVENT_CNT`
events (it may hold fewer), and the batches add up to `f`. -/
def BatchesFit (f : Nat) : Nat → List (List io_event) → Prop
  | completed, [] => completed = f
  | completed, b :: bs =>
    completed < f ∧ b.length ≤ min (f - completed) MAX_EVENT_CNT ∧
      BatchesFit f (completed + b.length) bs

/-- Decision procedure for `BatchesFit`. -/
instance BatchesFit_decidable (f : Nat) : ∀ (completed : Nat) (bs : List (List io_event)),
    Decidable (BatchesFit f completed bs)
  | completed, [] => (inferInstance : Decidable (completed = f))
  | completed, b :: bs =>
    match (inferInstance : Decidable (completed < f)),
          (inferInstance : Decidable (b.length ≤ min (f - completed) MAX_EVENT_CNT)),
          BatchesFit_decidable f (completed + b.length) bs with
    | isTrue h1, isTrue h2, isTrue h3 => isTrue ⟨h1, h2, h3⟩
    | isFalse h1, _, _ => isFalse (fun h => h1 h.1)
    | _, isFalse h2, _ => isFalse (fun h => h2 h.2.1)
    | _, _, isFalse h3 => isFalse (fun h => h3 h.2.2)

/-- The scripted responses of successful `io_getevents` calls delivering the
given batches. -/
def batch_script (batches : List (List io_event)) : List OsResp :=
  batches.map (fun b => OsResp.io_getevents (b.length : Int) b)

/-- Along a trace, every `io_getevents` call is made while `completed < f`
and requests exactly `min (f - completed) MAX_EVENT_CNT` events, where
`completed` counts the events delivered by the calls before it. -/
def batchRequests (f : Nat) : Nat → List Ev → Prop
  | _, [] => True
  | completed, Ev.io_getevents nr ret _ :: tr =>
    completed < f ∧ nr = ((min (f - completed) MAX_EVENT_CNT : Nat) : Int) ∧
      batchRequests f (completed + ret.toNat) tr
  | completed, _ :: tr => batchRequests f completed tr

/-- A drain of `demo_full` in two batches of one event each. -/
def demo_two_batches : List (List io_event) :=
  [[{ data := 1, res := 10 }], [{ data := 0, res := 10 }]]

/-! ## Vocabulary for sequences of submissions -/

/-- One submission attempt: the operation, the callback and its data, and the
result `io_submit` gives it. -/
structure Attempt where
  op : SubmitOp
  complete_cb : Nat
  data_cb : Nat
  ret : Int
  deriving DecidableEq, Repr

/-- The calls of a sequence of submission attempts. -/
def attempt_calls (as : List Attempt) : List Call :=
  as.map (fun a => Call.submit a.op a.complete_cb a.data_cb)

/-- The scripted `io_submit` results of a sequence of submission attempts. -/
def attempt_script (as : List Attempt) : List OsResp :=
  as.map (fun a => OsResp.io_submit a.ret)

/-- Run a sequence of calls like `run`, collecting the returned values. -/
def run_rets : List Call → List OsResp → State → Option (List Int × State × List OsResp)
  | [], os, st => some ([], st, os)
  | c :: cs, os, st =>
    match c.exec os st with
    | none => none
    | some (r, st1, os1) =>
      match run_rets cs os1 st1 with
      | none => none
      | some (rs, st2, os2) => some (r :: rs, st2, os2)

/-- The number of attempts the OS accepts (`io_submit` returns a positive
value). -/
def accepted_count : List Attempt → Nat
  | [] => 0
  | a :: as => if 0 < a.ret then accepted_count as + 1 else accepted_count as

/-- The values returned to the accepted attempts, given the values returned to
all attempts. -/
def accepted_keys : List Attempt → List Int → List Int
  | a :: as, r :: rs => if 0 < a.ret then r :: accepted_keys as rs else accepted_keys as rs
  | _, _ => []

/-- No attempt of the sequence is made on an empty pool, so none of them
drains: `j` requests are active when the sequence starts, and every accepted
attempt takes one more. -/
def NoDrain (capacity : Int) : Nat → List Attempt → Prop
  | _, [] => True
  | j, a :: as => (j : Int) < capacity ∧ NoDrain capacity (if 0 < a.ret then j + 1 else j) as

/-- Decision procedure for `NoDrain`. -/
instance NoDrain_decidable (capacity : Int) :
    (j : Nat) → (as : List Attempt) → Decidable (NoDrain capacity j as)
  | _, [] => isTrue trivial
  | j, a :: as =>
    have := NoDrain_decidable capacity (if 0 < a.ret then j + 1 else j) as
    inferInstanceAs (Decidable ((j : Int) < capacity ∧
      NoDrain capacity (if 0 < a.ret then j + 1 else j) as))

/-- Two accepted writes interleaved with a rejected one. -/
def demo_attempts : List Attempt :=
  [{ op := SubmitOp.write 5 100 10 0, complete_cb := 11, data_cb := 21, ret := 1 },
   { op := SubmitOp.fsync 5, complete_cb := 14, data_cb := 24, ret := -9 },
   { op := SubmitOp.write 5 200 10 512, complete_cb := 12, data_cb := 22, ret := 1 }]

/-- The request `k` is on top of the pool: the pool is not empty and
`req_pool[capacity - active - 1]` is `k`, a valid slot. -/
def TopIs (c : io_ctx) (k : Nat) : Prop :=
  c.active ≠ c.capacity ∧ 0 ≤ c.capacity - c.active - 1 ∧
  c.req_pool[(c.capacity - c.active - 1).toNat]? = some k ∧ k < c.requests.length

/-- The state after cancelling B (key 0) on `demo_full`, confirmed by the OS. -/
def demo_cancelled : State :=
  match io_ctx_cancel 0 [OsResp.io_cancel 0 { data := 0, res := -125 }] demo_full with
  | some (_, st, _) => st
  | none => demo_full

/-- One rejected submission attempt. -/
def demo_rejects : List Attempt :=
  [{ op := SubmitOp.fsync 5, complete_cb := 14, data_cb := 24, ret := -9 }]

/-- A write the OS rejects with `-EAGAIN`. -/
def demo_reject : Attempt :=
  { op := SubmitOp.write 5 100 10 0, complete_cb := 11, data_cb := 21, ret := -11 }

/-! ## Vocabulary for teardown -/

/-- The release sequence of `io_ctx_destroy`, recorded in the trace:
`io_destroy`, the two `free` calls and `close` of the eventfd. -/
def st_released (st : State) : State :=
  { st with trace := st.trace ++
      [Ev.io_destroy st.ctx.ctx, Ev.free_requests, Ev.free_req_pool, Ev.close st.ctx.event_fd] }

/-- Repeated draining at teardown: a chain of `io_ctx_process` calls, each made
while `active != 0` and each returning a non-negative value. -/
inductive Teardown : List OsResp → State → List OsResp → State → Prop where
  | done (os : List OsResp) (st : State) : Teardown os st os st
  | step (os os1 os2 : List OsResp) (st st1 st2 : State) (r : Int) :
      st.ctx.active ≠ 0 →
      io_ctx_process os st = some (r, st1, os1) →
      0 ≤ r →
      Teardown os1 st1 os2 st2 →
      Teardown os st os2 st2

/-- A drain script on `demo_full` in which reading the eventfd fails. -/
def demo_read_fail_script : List OsResp :=
  [OsResp.wait_cb 0, OsResp.read (-1) 9 0]

/-- The state after `io_ctx_destroy` on `demo_full` with `demo_read_fail_script`. -/
def demo_torn : State :=
  match io_ctx_destroy demo_read_fail_script demo_full with
  | some (st, _) => st
  | none => demo_full

/-- The state after `io_ctx_destroy` on `demo_full` with `demo_drain_script`. -/
def demo_destroyed : State :=
  match io_ctx_destroy demo_drain_script demo_full with
  | some (st, _) => st
  | none => demo_full

/-! ## Basic facts about the pool operations -/

theorem toInt32_of_lt (n : Int) (h0 : 0 ≤ n) (h1 : n < 2147483648) : toInt32 n = n := by
  unfold toInt32
  omega

theorem toInt32_neg (n : Int) (h0 : n < 0) (h1 : -2147483648 ≤ n) : toInt32 n = n := by
  unfold toInt32
  omega

theorem io_ctx_put_req_eq_some (c c1 : io_ctx) (s : Nat) (h : io_ctx_put_req c s = some c1) :
    0 ≤ c.capacity - c.active ∧ (c.capacity - c.active).toNat < c.req_pool.length ∧
    c1 = { c with req_pool := c.req_pool.set (c.capacity - c.active).toNat s,
                  active := c.active - 1 } := by
  unfold io_ctx_put_req at h
  simp only at h
  split at h
  · rename_i hc
    simp only [Option.some.injEq] at h
    exact ⟨hc.1, hc.2, h.symm⟩
  · simp at h

theorem free_list_put (c : io_ctx) (s : Nat) (h0 : 0 ≤ c.capacity - c.active)
    (h1 : (c.capacity - c.active).toNat < c.req_pool.length) :
    free_list { c with req_pool := c.req_pool.set (c.capacity - c.active).toNat s,
                       active := c.active - 1 } = free_list c ++ [s] := by
  unfold free_list
  simp only
  have e : (c.capacity - (c.active - 1)).toNat = (c.capacity - c.active).toNat + 1 := by omega
  rw [e]
  generalize (c.capacity - c.active).toNat = n at h1
  generalize c.req_pool = l at h1
  induction l generalizing n with
  | nil => simp at h1
  | cons a l ih =>
    cases n with
    | zero => simp
    | succ n =>
      simp only [List.length_cons, Nat.add_lt_add_iff_right] at h1
      simp [List.set, List.take, ih n h1]

/-- C8: when `wait_cb` returns a negative value, `io_ctx_process` returns 0;
the only external call made is `wait_cb` itself (no read of the eventfd, no
`io_getevents`, no callback: the trace grows by the `wait_cb` entry alone and no
further response is consumed), and the context, hence `active` and the pool,
is unchanged. -/
theorem process_wait_cb_negative (w : Int) (os : List OsResp) (st : State) (hw : w < 0) :
    io_ctx_process (OsResp.wait_cb w :: os) st =
      some (0, { ctx := st.ctx, trace := st.trace ++ [Ev.wait_cb st.ctx.event_fd w] }, os) := by
  simp [io_ctx_process, State.emit, hw]

theorem callbacksOf_append (a b : List Ev) : callbacksOf (a ++ b) = callbacksOf a ++ callbacksOf b := by
  simp [callbacksOf]

theorem fetchedOf_append (a b : List Ev) : fetchedOf (a ++ b) = fetchedOf a ++ fetchedOf b := by
  induction a with
  | nil => simp [fetchedOf]
  | cons e a ih => cases e <;> simp [fetchedOf, ih]

/-- The dispatch loop: what a successful run of the `for` loop does. -/
theorem dispatch_spec (evs : List io_event) (st st1 : State)
    (h : io_ctx_process_dispatch evs st = some st1) :
    st1.ctx = { st.ctx with req_pool := st1.ctx.req_pool, active := st1.ctx.active } ∧
    st1.ctx.active = st.ctx.active - evs.length ∧
    st1.ctx.req_pool.length = st.ctx.req_pool.length ∧
    (evs ≠ [] → 0 ≤ st.ctx.capacity - st.ctx.active ∧
      (st.ctx.capacity - st.ctx.active).toNat + evs.length ≤ st.ctx.req_pool.length) ∧
    free_list st1.ctx = free_list st.ctx ++ evs.map io_event.data ∧
    ∃ cbs, st1.trace = st.trace ++ cbs ∧
      cbs.map some = evs.map (callbackFor st.ctx.requests) ∧
      callbacksOf cbs = cbs ∧ fetchedOf cbs = [] := by
  induction evs generalizing st with
  | nil =>
    simp only [io_ctx_process_dispatch, Option.some.injEq] at h
    subst h
    simp [callbacksOf, fetchedOf]
  | cons ev evs ih =>
    simp only [io_ctx_process_dispatch] at h
    cases hr : st.ctx.requests[ev.data]? with
    | none => simp [hr] at h
    | some r =>
      simp only [hr] at h
      cases hp : io_ctx_put_req st.ctx ev.data with
      | none => simp [hp] at h
      | some c =>
        simp only [hp] at h
        obtain ⟨h0, h1, hc⟩ := io_ctx_put_req_eq_some _ _ _ hp
        obtain ⟨i1, i2, i3, i4, i5, cbs, i6, i7, i8, i9⟩ := ih _ h
        have hfl := free_list_put st.ctx ev.data h0 h1
        rw [← hc] at hfl
        simp only at i1 i2 i3 i4 i5 i6 i7
        subst hc
        simp only [List.length_set] at i3
        simp only at i2 i4 i5 i7
        refine ⟨?_, ?_, i3, ?_, ?_, ?_⟩
        · rw [i1]
        · rw [i2]; simp only [List.length_cons]; push_cast; ring
        · intro _
          refine ⟨h0, ?_⟩
          by_cases he : evs = []
          · subst he; simp only [List.length_cons, List.length_nil]; omega
          · have := (i4 he).2
            simp only [List.length_set, List.length_cons] at this ⊢
            omega
        · rw [i5, hfl]; simp
        · refine ⟨Ev.complete_cb r.complete_cb ev.res r.data_cb :: cbs, ?_, ?_, ?_, ?_⟩
          · rw [i6]; simp
          · simp [i7, callbackFor, hr]
          · simp only [callbacksOf] at i8 ⊢
            simp [List.filter, isCallback, i8]
          · simp [fetchedOf, i9]

theorem delivered_length (ret : Int) (events : List io_event) (h0 : ¬ ret < 0)
    (h1 : ¬ events.length < ret.toNat) : (delivered ret events).length = ret.toNat := by
  simp only [delivered, h0, if_false, List.length_take]
  omega

/-- The fetch loop: what a run of the `while (completed < finished)` loop that
returns does. -/
theorem process_loop_spec (finished : Nat) (os : List OsResp) (completed : Nat) (st : State)
    (r : Int) (st1 : State) (os1 : List OsResp) (hc : completed < UINT64_MOD)
    (h : io_ctx_process_loop finished os completed st = some (r, st1, os1)) :
    ∃ seg, st1.trace = st.trace ++ seg ∧
      st1.ctx = { st.ctx with req_pool := st1.ctx.req_pool, active := st1.ctx.active } ∧
      st1.ctx.active = st.ctx.active - (fetchedOf seg).length ∧
      st1.ctx.req_pool.length = st.ctx.req_pool.length ∧
      (fetchedOf seg ≠ [] → 0 ≤ st.ctx.capacity - st.ctx.active ∧
        (st.ctx.capacity - st.ctx.active).toNat + (fetchedOf seg).length
          ≤ st.ctx.req_pool.length) ∧
      free_list st1.ctx = free_list st.ctx ++ (fetchedOf seg).map io_event.data ∧
      (callbacksOf seg).map some = (fetchedOf seg).map (callbackFor st.ctx.requests) ∧
      ((r = toInt32 (((completed + (fetchedOf seg).length) % UINT64_MOD : Nat) : Int) ∧
          ∀ e, seg.getLast? = some e → failedFetch e = none) ∨
       (∃ e code, seg.getLast? = some e ∧ failedFetch e = some code ∧
          r = (if (completed + (fetchedOf seg).length) % UINT64_MOD > 0
              then toInt32 (((completed + (fetchedOf seg).length) % UINT64_MOD : Nat) : Int)
              else code))) := by
  induction os generalizing completed st with
  | nil =>
    simp only [io_ctx_process_loop] at h
    split at h
    · simp at h
    · simp only [Option.some.injEq, Prod.mk.injEq] at h
      obtain ⟨h1, h2, h3⟩ := h
      subst h1 h2 h3
      refine ⟨[], by simp, rfl, by simp [fetchedOf], rfl, by simp [fetchedOf], by simp [fetchedOf],
        by simp [fetchedOf, callbacksOf], Or.inl ⟨?_, by simp⟩⟩
      simp [fetchedOf, Nat.mod_eq_of_lt hc]
  | cons x os ih =>
    simp only [io_ctx_process_loop] at h
    split at h
    · cases x with
      | io_getevents processed events =>
        simp only at h
        split at h
        · -- the fetch failed
          rename_i hneg
          simp only [Option.some.injEq, Prod.mk.injEq] at h
          obtain ⟨h1, h2, h3⟩ := h
          subst h2 h3
          clear ih
          refine ⟨[Ev.io_getevents (fetch_count finished completed) processed events],
            by simp [State.emit], rfl,
            by simp [fetchedOf, delivered, hneg, State.emit], by simp [State.emit],
            by simp [fetchedOf, delivered, hneg],
            by simp [fetchedOf, delivered, hneg, State.emit, free_list],
            by simp [fetchedOf, delivered, hneg, callbacksOf, isCallback],
            Or.inr ⟨Ev.io_getevents (fetch_count finished completed) processed events,
              processed, by simp, by simp [failedFetch, hneg], ?_⟩⟩
          simp only [fetchedOf, delivered, hneg, if_true, List.append_nil, List.length_nil,
            Nat.add_zero, Nat.mod_eq_of_lt hc]
          rw [← h1]
        · rename_i hnn
          split at h
          · simp at h
          · rename_i hlen
            cases hd : io_ctx_process_dispatch (List.take processed.toNat events)
                (st.emit (Ev.io_getevents (fetch_count finished completed) processed events)) with
            | none => simp [hd] at h
            | some st2 =>
              simp only [hd] at h
              have hc2 : (completed + processed.toNat) % UINT64_MOD < UINT64_MOD :=
                Nat.mod_lt _ (by decide)
              obtain ⟨seg, j1, j2, j3, j4, j5, j6, j7, j8⟩ := ih _ _ hc2 h
              obtain ⟨d1, d2, d3, d4, d5, cbs, d6, d7, d8, d9⟩ := dispatch_spec _ _ _ hd
              have hdel : delivered processed events = List.take processed.toNat events := by
                simp [delivered, hnn]
              have hlen2 : (List.take processed.toNat events).length = processed.toNat := by
                simp only [List.length_take]; omega
              simp only [State.emit] at d1 d2 d3 d4 d5 d6 d7
              have hreq : st2.ctx.requests = st.ctx.requests := by rw [d1]
              have hcap : st2.ctx.capacity = st.ctx.capacity := by rw [d1]
              have hF : fetchedOf (Ev.io_getevents (fetch_count finished completed) processed events
                  :: (cbs ++ seg)) = List.take processed.toNat events ++ fetchedOf seg := by
                simp [fetchedOf, fetchedOf_append, d9, hdel]
              refine ⟨Ev.io_getevents (fetch_count finished completed) processed events
                  :: (cbs ++ seg), ?_, ?_, ?_, ?_, ?_, ?_, ?_, ?_⟩
              · rw [j1, d6]; simp
              · rw [j2, d1]
              · rw [hF, j3, d2]; simp only [List.length_append]; push_cast; ring
              · rw [j4, d3]
              · rw [hF]
                intro hne
                by_cases ht : List.take processed.toNat events = []
                · have hs : fetchedOf seg ≠ [] := by
                    intro hs; apply hne; simp [ht, hs]
                  have := j5 hs
                  rw [ht] at d2 hlen2 ⊢
                  simp only [List.length_nil, Nat.cast_zero, sub_zero] at d2
                  rw [hcap, d2, d3] at this
                  simpa using this
                · have b1 := d4 ht
                  refine ⟨b1.1, ?_⟩
                  by_cases hs : fetchedOf seg = []
                  · rw [hs]; simpa using b1.2
                  · have b2 := j5 hs
                    rw [hcap, d2, d3] at b2
                    simp only [List.length_append]
                    omega
              · rw [hF, j6, d5]; simp
              · have hcbs : callbacksOf (Ev.io_getevents (fetch_count finished completed)
                    processed events :: (cbs ++ seg)) = cbs ++ callbacksOf seg := by
                  have h2 := callbacksOf_append cbs seg
                  rw [d8] at h2
                  simp only [callbacksOf] at h2 ⊢
                  rw [List.filter_cons]
                  simp only [isCallback, Bool.false_eq_true, if_false]
                  exact h2
                rw [hF, hcbs, List.map_append, List.map_append, j7, hreq, d7]
              · have hmod : ((completed + processed.toNat) % UINT64_MOD + (fetchedOf seg).length)
                    % UINT64_MOD = (completed + (List.take processed.toNat events
                      ++ fetchedOf seg).length) % UINT64_MOD := by
                  rw [List.length_append, hlen2, ← Nat.add_assoc]
                  exact Nat.mod_add_mod _ _ _
                rw [hF, ← hmod]
                have hcb : ∀ e, cbs.getLast? = some e → failedFetch e = none := by
                  intro e he
                  have hm : e ∈ callbacksOf cbs := by
                    rw [d8]; exact List.mem_of_getLast?_eq_some he
                  simp only [callbacksOf, List.mem_filter] at hm
                  have hm2 := hm.2
                  cases e <;> first | rfl | (simp [isCallback] at hm2)
                rcases j8 with ⟨k1, k2⟩ | ⟨e, code, k1, k2, k3⟩
                · left
                  refine ⟨k1, ?_⟩
                  intro e he
                  rw [List.getLast?_cons, List.getLast?_append] at he
                  cases hsl : seg.getLast? with
                  | some e2 =>
                    simp only [hsl, Option.or_some, Option.getD_some, Option.some.injEq] at he
                    subst he; exact k2 _ hsl
                  | none =>
                    simp only [hsl, Option.none_or] at he
                    cases hcl : cbs.getLast? with
                    | some e3 =>
                      simp only [hcl, Option.getD_some, Option.some.injEq] at he
                      subst he; exact hcb _ hcl
                    | none =>
                      simp only [hcl, Option.getD_none, Option.some.injEq] at he
                      subst he; simp [failedFetch, hnn]
                · right
                  refine ⟨e, code, ?_, k2, k3⟩
                  rw [List.getLast?_cons, List.getLast?_append, k1]
                  simp
      | _ => simp at h
    · simp only [Option.some.injEq, Prod.mk.injEq] at h
      obtain ⟨h1, h2, h3⟩ := h
      subst h1 h2 h3
      refine ⟨[], by simp, rfl, by simp [fetchedOf], rfl, by simp [fetchedOf], by simp [fetchedOf],
        by simp [fetchedOf, callbacksOf], Or.inl ⟨?_, by simp⟩⟩
      simp [fetchedOf, Nat.mod_eq_of_lt hc]

/-- What a call of `io_ctx_process` that returns does: the new part of the
trace, the frame, the pool, the callbacks, and the returned value in each of
the ways the function returns. -/
theorem process_spec (os : List OsResp) (st : State) (r : Int) (st1 : State)
    (os1 : List OsResp) (h : io_ctx_process os st = some (r, st1, os1)) :
    ∃ seg, st1.trace = st.trace ++ seg ∧
      st1.ctx = { st.ctx with req_pool := st1.ctx.req_pool, active := st1.ctx.active } ∧
      st1.ctx.active = st.ctx.active - (fetchedOf seg).length ∧
      st1.ctx.req_pool.length = st.ctx.req_pool.length ∧
      (fetchedOf seg ≠ [] → 0 ≤ st.ctx.capacity - st.ctx.active ∧
        (st.ctx.capacity - st.ctx.active).toNat + (fetchedOf seg).length
          ≤ st.ctx.req_pool.length) ∧
      free_list st1.ctx = free_list st.ctx ++ (fetchedOf seg).map io_event.data ∧
      (callbacksOf seg).map some = (fetchedOf seg).map (callbackFor st.ctx.requests) ∧
      ((∃ w, seg = [Ev.wait_cb st.ctx.event_fd w] ∧ w < 0 ∧ r = 0) ∨
       (∃ w ret errno v, seg = [Ev.wait_cb st.ctx.event_fd w, Ev.read st.ctx.event_fd ret errno v] ∧
          ¬ w < 0 ∧ ret < 0 ∧ r = -(errno : Int)) ∨
       (∃ w ret errno v seg2,
          seg = Ev.wait_cb st.ctx.event_fd w :: Ev.read st.ctx.event_fd ret errno v :: seg2 ∧
          ¬ w < 0 ∧ ¬ ret < 0 ∧
          ((r = toInt32 (((fetchedOf seg).length % UINT64_MOD : Nat) : Int) ∧
              ∀ e, seg2.getLast? = some e → failedFetch e = none) ∨
           (∃ e code, seg2.getLast? = some e ∧ failedFetch e = some code ∧
              r = (if (fetchedOf seg).length % UINT64_MOD > 0
                   then toInt32 (((fetchedOf seg).length % UINT64_MOD : Nat) : Int)
                   else code))))) := by
  cases os with
  | nil => simp [io_ctx_process] at h
  | cons x os =>
    cases x with
    | wait_cb w =>
      simp only [io_ctx_process] at h
      split at h
      · rename_i hw
        simp only [Option.some.injEq, Prod.mk.injEq] at h
        obtain ⟨h1, h2, h3⟩ := h
        subst h1 h2 h3
        exact ⟨[Ev.wait_cb st.ctx.event_fd w], by simp [State.emit], rfl,
          by simp [fetchedOf, State.emit], by simp [State.emit], by simp [fetchedOf],
          by simp [fetchedOf, State.emit, free_list], by simp [fetchedOf, callbacksOf, isCallback],
          Or.inl ⟨w, rfl, hw, rfl⟩⟩
      · rename_i hw
        cases os with
        | nil => simp at h
        | cons y os =>
          cases y with
          | read ret errno v =>
            simp only at h
            split at h
            · rename_i hret
              simp only [Option.some.injEq, Prod.mk.injEq] at h
              obtain ⟨h1, h2, h3⟩ := h
              subst h1 h2 h3
              exact ⟨[Ev.wait_cb st.ctx.event_fd w, Ev.read st.ctx.event_fd ret errno v],
                by simp [State.emit], rfl,
                by simp [fetchedOf, State.emit], by simp [State.emit], by simp [fetchedOf],
                by simp [fetchedOf, State.emit, free_list],
                by simp [fetchedOf, callbacksOf, isCallback],
                Or.inr (Or.inl ⟨w, ret, errno, v, rfl, hw, hret, rfl⟩)⟩
            · rename_i hret
              obtain ⟨seg, j1, j2, j3, j4, j5, j6, j7, j8⟩ :=
                process_loop_spec _ _ _ _ _ _ _ (by decide) h
              simp only [State.emit] at j1 j2 j3 j4 j5 j6 j7
              have hF : fetchedOf (Ev.wait_cb st.ctx.event_fd w ::
                  Ev.read st.ctx.event_fd ret errno v :: seg) = fetchedOf seg := by
                simp [fetchedOf]
              have hC : callbacksOf (Ev.wait_cb st.ctx.event_fd w ::
                  Ev.read st.ctx.event_fd ret errno v :: seg) = callbacksOf seg := by
                simp [callbacksOf, List.filter_cons, isCallback]
              refine ⟨Ev.wait_cb st.ctx.event_fd w :: Ev.read st.ctx.event_fd ret errno v :: seg,
                by rw [j1]; simp, j2, by rw [hF]; exact j3, j4, by rw [hF]; exact j5,
                by rw [hF]; exact j6, by rw [hF, hC]; exact j7,
                Or.inr (Or.inr ⟨w, ret, errno, v, seg, rfl, hw, hret, ?_⟩)⟩
              rw [hF]
              simpa using j8
          | _ => simp at h
    | _ => simp [io_ctx_process] at h

theorem failedFetch_eq_some (e : Ev) (code : Int) (h : failedFetch e = some code) :
    (∃ nr evs, e = Ev.io_getevents nr code evs) ∧ code < 0 := by
  cases e with
  | io_getevents nr ret evs =>
    simp only [failedFetch] at h
    split at h
    · simp only [Option.some.injEq] at h
      subst h
      exact ⟨⟨nr, evs, rfl⟩, by assumption⟩
    · simp at h
  | _ => simp [failedFetch] at h

/-- C7: a call of `io_ctx_process` that returns `n ≥ 0` invoked exactly `n`
callbacks, one per event delivered by `io_getevents` during the call and in
the same order, each with the result of its event and with the callback and
`data_cb` stored in the slot the event points to; the slots of these events
were appended to the available requests, and `active` decreased by `n`.
(`req_pool` has `capacity` entries and `capacity` is an `int`.) -/
theorem process_returns_dispatched_count (os : List OsResp) (st : State) (n : Int)
    (st1 : State) (os1 : List OsResp) (hpool : st.ctx.req_pool.length ≤ 2147483647)
    (h : io_ctx_process os st = some (n, st1, os1)) (hn : 0 ≤ n) :
    ∃ seg, st1.trace = st.trace ++ seg ∧
      ((callbacksOf seg).length : Int) = n ∧
      ((fetchedOf seg).length : Int) = n ∧
      (callbacksOf seg).map some = (fetchedOf seg).map (callbackFor st.ctx.requests) ∧
      st1.ctx.requests = st.ctx.requests ∧
      free_list st1.ctx = free_list st.ctx ++ (fetchedOf seg).map io_event.data ∧
      st1.ctx.active = st.ctx.active - n := by
  obtain ⟨seg, j1, j2, j3, j4, j5, j6, j7, j8⟩ := process_spec _ _ _ _ _ h
  have hlenF : (fetchedOf seg).length ≤ 2147483647 := by
    by_cases hF : fetchedOf seg = []
    · simp [hF]
    · have := (j5 hF).2
      omega
  have hmod : (fetchedOf seg).length % UINT64_MOD = (fetchedOf seg).length :=
    Nat.mod_eq_of_lt (by unfold UINT64_MOD; omega)
  have hto : toInt32 (((fetchedOf seg).length : Nat) : Int) = (fetchedOf seg).length :=
    toInt32_of_lt _ (by omega) (by omega)
  have hcl : (callbacksOf seg).length = (fetchedOf seg).length := by
    have := congrArg List.length j7
    simpa using this
  have key : ((fetchedOf seg).length : Int) = n := by
    rcases j8 with ⟨w, hs, _, hr⟩ | ⟨w, ret, errno, v, hs, _, _, hr⟩ |
        ⟨w, ret, errno, v, seg2, hs, _, _, hr⟩
    · subst hs; simp [fetchedOf, hr]
    · subst hs
      simp only [fetchedOf, List.length_nil, Nat.cast_zero]
      omega
    · rw [hmod, hto] at hr
      rcases hr with ⟨hr, _⟩ | ⟨e, code, _, hf, hr⟩
      · exact hr.symm
      · split at hr
        · exact hr.symm
        · rename_i hz
          have hcode : code < 0 := (failedFetch_eq_some e code hf).2
          omega
  refine ⟨seg, j1, ?_, key, j7, by rw [j2], j6, ?_⟩
  · rw [hcl]; exact key
  · rw [j3, key]

/-- Witness of `process_returns_dispatched_count`: both operations of
`demo_full` finish and the call returns 2. -/
theorem process_returns_dispatched_count_witness :
    demo_full.ctx.req_pool.length ≤ 2147483647 ∧
    io_ctx_process demo_drain_script demo_full = some (2, demo_drained, []) ∧
    (0 : Int) ≤ 2 ∧
    ∃ seg, demo_drained.trace = demo_full.trace ++ seg ∧
      ((callbacksOf seg).length : Int) = 2 ∧
      ((fetchedOf seg).length : Int) = 2 ∧
      (callbacksOf seg).map some = (fetchedOf seg).map (callbackFor demo_full.ctx.requests) ∧
      demo_drained.ctx.requests = demo_full.ctx.requests ∧
      free_list demo_drained.ctx = free_list demo_full.ctx ++ (fetchedOf seg).map io_event.data ∧
      demo_drained.ctx.active = demo_full.ctx.active - 2 :=
  ⟨by decide, by decide, by decide,
   process_returns_dispatched_count demo_drain_script demo_full 2 demo_drained []
     (by decide) (by decide) (by decide)⟩

/-- Witness of `process_wait_cb_negative` on `demo_full`. -/
theorem process_wait_cb_negative_witness :
    (-4 : Int) < 0 ∧
    io_ctx_process (OsResp.wait_cb (-4) :: demo_drain_script) demo_full =
      some (0, { ctx := demo_full.ctx,
                 trace := demo_full.trace ++ [Ev.wait_cb demo_full.ctx.event_fd (-4)] },
            demo_drain_script) :=
  ⟨by decide, process_wait_cb_negative (-4) demo_drain_script demo_full (by decide)⟩

/-- A call of `io_ctx_process` whose last external call is a failed
`io_getevents`: the returned value. -/
theorem process_failed_fetch (os : List OsResp) (st : State) (r : Int) (st1 : State)
    (os1 : List OsResp) (nr code : Int) (evs : List io_event)
    (h : io_ctx_process os st = some (r, st1, os1))
    (hlast : st1.trace.getLast? = some (Ev.io_getevents nr code evs)) (hcode : code < 0) :
    ∃ seg, st1.trace = st.trace ++ seg ∧
      st1.ctx = { st.ctx with req_pool := st1.ctx.req_pool, active := st1.ctx.active } ∧
      st1.ctx.active = st.ctx.active - (fetchedOf seg).length ∧
      (fetchedOf seg ≠ [] → 0 ≤ st.ctx.capacity - st.ctx.active ∧
        (st.ctx.capacity - st.ctx.active).toNat + (fetchedOf seg).length
          ≤ st.ctx.req_pool.length) ∧
      free_list st1.ctx = free_list st.ctx ++ (fetchedOf seg).map io_event.data ∧
      (callbacksOf seg).map some = (fetchedOf seg).map (callbackFor st.ctx.requests) ∧
      r = (if (fetchedOf seg).length % UINT64_MOD > 0
           then toInt32 (((fetchedOf seg).length % UINT64_MOD : Nat) : Int)
           else code) := by
  obtain ⟨seg, j1, j2, j3, j4, j5, j6, j7, j8⟩ := process_spec _ _ _ _ _ h
  refine ⟨seg, j1, j2, j3, j5, j6, j7, ?_⟩
  rw [j1] at hlast
  rcases j8 with ⟨w, hs, _, hr⟩ | ⟨w, ret, errno, v, hs, _, _, hr⟩ |
      ⟨w, ret, errno, v, seg2, hs, _, _, hr⟩
  · subst hs
    rw [List.getLast?_concat] at hlast
    simp at hlast
  · subst hs
    have : st.trace ++ [Ev.wait_cb st.ctx.event_fd w, Ev.read st.ctx.event_fd ret errno v]
        = (st.trace ++ [Ev.wait_cb st.ctx.event_fd w]) ++ [Ev.read st.ctx.event_fd ret errno v] := by
      simp
    rw [this, List.getLast?_concat] at hlast
    simp at hlast
  · have hl2 : seg2.getLast? = some (Ev.io_getevents nr code evs) := by
      subst hs
      have e1 : st.trace ++ Ev.wait_cb st.ctx.event_fd w ::
          Ev.read st.ctx.event_fd ret errno v :: seg2
          = (st.trace ++ [Ev.wait_cb st.ctx.event_fd w, Ev.read st.ctx.event_fd ret errno v])
            ++ seg2 := by simp
      rw [e1, List.getLast?_append] at hlast
      cases hs2 : seg2.getLast? with
      | some e => rw [hs2] at hlast; simpa using hlast
      | none =>
        rw [hs2] at hlast
        have e2 : st.trace ++ [Ev.wait_cb st.ctx.event_fd w, Ev.read st.ctx.event_fd ret errno v]
            = (st.trace ++ [Ev.wait_cb st.ctx.event_fd w])
              ++ [Ev.read st.ctx.event_fd ret errno v] := by simp
        rw [e2, Option.none_or, List.getLast?_concat] at hlast
        simp at hlast
    have hff : failedFetch (Ev.io_getevents nr code evs) = some code := by
      simp [failedFetch, hcode]
    rcases hr with ⟨_, hr⟩ | ⟨e, code2, hl, hf, hr⟩
    · have := hr _ hl2
      rw [hff] at this
      simp at this
    · rw [hl2] at hl
      simp only [Option.some.injEq] at hl
      subst hl
      rw [hff] at hf
      simp only [Option.some.injEq] at hf
      subst hf
      exact hr

/-- C10, counterexample: `wait_cb` fails (returns -4) with nothing dispatched,
and `io_ctx_process` returns 0, which is not negative. -/
theorem process_wait_failure_not_negative :
    io_ctx_process [OsResp.wait_cb (-4)] demo_full =
      some (0, { ctx := demo_full.ctx, trace := demo_full.trace ++ [Ev.wait_cb 3 (-4)] }, []) ∧
    ¬ ((0 : Int) < 0) := by
  decide

/-- C10, amended: when reading the eventfd fails (with error number
`errno > 0`) `io_ctx_process` returns `-errno`, a negative value; when a batch
retrieval fails and no callback has been invoked in the call, it returns the
negative code of `io_getevents`; when `wait_cb` fails it returns 0. -/
theorem process_failure_results :
    (∀ (w ret : Int) (errno v : Nat) (os : List OsResp) (st : State),
      ¬ w < 0 → ret < 0 → 0 < errno →
      (io_ctx_process (OsResp.wait_cb w :: OsResp.read ret errno v :: os) st).map Prod.fst
        = some (-(errno : Int)) ∧ -(errno : Int) < 0) ∧
    (∀ (os : List OsResp) (st : State) (r : Int) (st1 : State) (os1 : List OsResp)
       (nr code : Int) (evs : List io_event),
      io_ctx_process os st = some (r, st1, os1) →
      st1.trace.getLast? = some (Ev.io_getevents nr code evs) → code < 0 →
      callbacksOf (st1.trace.drop st.trace.length) = [] →
      r = code ∧ r < 0) ∧
    (∀ (w : Int) (os : List OsResp) (st : State), w < 0 →
      (io_ctx_process (OsResp.wait_cb w :: os) st).map Prod.fst = some 0) := by
  refine ⟨?_, ?_, ?_⟩
  · intro w ret errno v os st hw hret herr
    refine ⟨?_, by omega⟩
    simp [io_ctx_process, hw, hret]
  · intro os st r st1 os1 nr code evs h hlast hcode hcb
    obtain ⟨seg, j1, _, _, _, _, j7, j8⟩ := process_failed_fetch _ _ _ _ _ _ _ _ h hlast hcode
    rw [j1] at hcb
    simp only [List.drop_left] at hcb
    have hF : fetchedOf seg = [] := by
      have := congrArg List.length j7
      rw [hcb] at this
      simp only [List.map_nil, List.length_nil, List.length_map] at this
      exact List.length_eq_zero.mp this.symm
    rw [hF] at j8
    simp only [List.length_nil, Nat.zero_mod, gt_iff_lt, lt_self_iff_false, if_false] at j8
    exact ⟨j8, by omega⟩
  · intro w os st hw
    simp [io_ctx_process, hw]

/-- Witness of `process_failure_results`: a failed read (error number 9), a
failed first fetch (code -4) and a failed wait on `demo_full`. -/
theorem process_failure_results_witness :
    ((io_ctx_process (OsResp.wait_cb 0 :: OsResp.read (-1) 9 0 :: []) demo_full).map Prod.fst
        = some (-((9 : Nat) : Int)) ∧ -((9 : Nat) : Int) < 0) ∧
    (io_ctx_process demo_fetch_fail_script demo_full = some (-4, demo_fetch_failed, []) ∧
      ((-4 : Int) = -4 ∧ (-4 : Int) < 0)) ∧
    (io_ctx_process (OsResp.wait_cb (-4) :: []) demo_full).map Prod.fst = some 0 :=
  ⟨process_failure_results.1 0 (-1) 9 0 [] demo_full (by decide) (by decide) (by decide),
   ⟨by decide,
    process_failure_results.2.1 demo_fetch_fail_script demo_full (-4) demo_fetch_failed []
      2 (-4) [] (by decide) (by decide) (by decide) (by decide)⟩,
   process_failure_results.2.2 (-4) [] demo_full (by decide)⟩

/-! ## Acquiring a request and submitting -/

theorem set_of_getElem? (l : List Nat) (i : Nat) (a : Nat) (h : l[i]? = some a) :
    l.set i a = l := by
  induction l generalizing i with
  | nil => simp
  | cons b l ih =>
    cases i with
    | zero => simp at h; simp [h]
    | succ i => simp at h; simp [ih i h]

theorem get_req_wait_available (fuel : Nat) (os : List OsResp) (st : State)
    (h : st.ctx.active ≠ st.ctx.capacity) :
    io_ctx_get_req_wait (fuel + 1) os st = some (0, st, os) := by
  simp [io_ctx_get_req_wait, h]

/-- The top of the pool: the request `io_ctx_get_req` hands out. -/
theorem pool_top (c : io_ctx) (hs : PoolShape c) (hlt : c.active < c.capacity) :
    ∃ slot, c.req_pool[(c.capacity - c.active - 1).toNat]? = some slot ∧
      slot ∈ free_list c ∧ slot < c.requests.length ∧
      free_list { c with active := c.active + 1 } = (free_list c).dropLast ∧
      slot ∉ (free_list c).dropLast ∧
      free_list c = (free_list c).dropLast ++ [slot] := by
  have hnn := hs.active_nonneg
  have hidx : (c.capacity - c.active - 1).toNat < c.req_pool.length := by
    rw [hs.pool_len]; omega
  have hfl : (free_list c).length = (c.capacity - c.active).toNat := by
    unfold free_list
    rw [List.length_take, hs.pool_len]
    omega
  refine ⟨c.req_pool[(c.capacity - c.active - 1).toNat], List.getElem?_eq_getElem hidx, ?_⟩
  have e1 : (c.capacity - c.active).toNat = (c.capacity - c.active - 1).toNat + 1 := by omega
  have hsplit : free_list c = c.req_pool.take (c.capacity - c.active - 1).toNat
      ++ [c.req_pool[(c.capacity - c.active - 1).toNat]] := by
    unfold free_list
    rw [e1, List.take_succ, List.getElem?_eq_getElem hidx]
    rfl
  have hdl : (free_list c).dropLast = c.req_pool.take (c.capacity - c.active - 1).toNat := by
    rw [hsplit, List.dropLast_concat]
  have hmem : c.req_pool[(c.capacity - c.active - 1).toNat] ∈ free_list c := by
    rw [hsplit]; exact List.mem_append_right _ (List.mem_singleton.mpr rfl)
  refine ⟨hmem, ?_, ?_, ?_, ?_⟩
  · rw [hs.requests_len]; exact hs.free_lt _ hmem
  · rw [hdl]
    unfold free_list
    simp only
    congr 1
    omega
  · have hnd := hs.free_nodup
    rw [hsplit] at hnd
    rw [hdl]
    have := List.nodup_append.mp hnd
    intro hin
    exact this.2.2 hin (by simp)
  · rw [hdl]; exact hsplit

/-- The six submit functions, when the pool is not empty and the OS accepts the
operation. -/
theorem submit_accepted (mk : io_ctx → Nat → iocb) (complete_cb data_cb : Nat) (ret : Int)
    (os : List OsResp) (st : State) (hs : PoolShape st.ctx)
    (hlt : st.ctx.active < st.ctx.capacity) (hret : 0 < ret) :
    ∃ slot, st.ctx.req_pool[(st.ctx.capacity - st.ctx.active - 1).toNat]? = some slot ∧
      slot < st.ctx.requests.length ∧
      io_ctx_submit mk complete_cb data_cb (OsResp.io_submit ret :: os) st =
        some ((slot : Int),
          { ctx := { st.ctx with
              active := st.ctx.active + 1,
              req_cnt := (st.ctx.req_cnt + 1) % 9223372036854775808,
              requests := st.ctx.requests.set slot
                { iocb := mk { st.ctx with
                      active := st.ctx.active + 1,
                      req_cnt := (st.ctx.req_cnt + 1) % 9223372036854775808 } slot,
                  complete_cb := complete_cb, data_cb := data_cb } },
            trace := st.trace ++ [Ev.io_submit slot
                { iocb := mk { st.ctx with
                      active := st.ctx.active + 1,
                      req_cnt := (st.ctx.req_cnt + 1) % 9223372036854775808 } slot,
                  complete_cb := complete_cb, data_cb := data_cb } ret] },
          os) := by
  obtain ⟨slot, h1, h2, h3, _⟩ := pool_top st.ctx hs hlt
  refine ⟨slot, h1, h3, ?_⟩
  have hne : st.ctx.active ≠ st.ctx.capacity := by omega
  have hidx : 0 ≤ st.ctx.capacity - st.ctx.active - 1 := by omega
  have hget : st.ctx.requests[slot]? = some (st.ctx.requests[slot]) :=
    List.getElem?_eq_getElem h3
  simp only [io_ctx_submit, io_ctx_get_req, List.length_cons,
    get_req_wait_available _ _ _ hne, lt_self_iff_false, if_false, hidx, if_true, h1, hget,
    gt_iff_lt, hret]

theorem submit_accepted_facts (mk : io_ctx → Nat → iocb) (complete_cb data_cb : Nat) (ret : Int)
    (os : List OsResp) (st : State) (hs : PoolShape st.ctx)
    (hlt : st.ctx.active < st.ctx.capacity) (hret : 0 < ret) :
    ∃ (slot : Nat) (st1 : State),
      io_ctx_submit mk complete_cb data_cb (OsResp.io_submit ret :: os) st
        = some ((slot : Int), st1, os) ∧
      st.ctx.req_pool[(st.ctx.capacity - st.ctx.active - 1).toNat]? = some slot ∧
      (0 : Int) ≤ slot ∧ (slot : Int) < st.ctx.capacity ∧
      st1.ctx.active = st.ctx.active + 1 ∧
      slot ∈ free_list st.ctx ∧ slot ∉ free_list st1.ctx ∧
      free_list st1.ctx = (free_list st.ctx).dropLast ∧
      (∃ r, st1.ctx.requests[slot]? = some r ∧
        r.complete_cb = complete_cb ∧ r.data_cb = data_cb) ∧
      st1.ctx.capacity = st.ctx.capacity := by
  obtain ⟨slot, h1, h2, h3⟩ := submit_accepted mk complete_cb data_cb ret os st hs hlt hret
  obtain ⟨slot2, p1, p2, p3, p4, p5, p6⟩ := pool_top st.ctx hs hlt
  rw [h1] at p1
  simp only [Option.some.injEq] at p1
  subst p1
  refine ⟨slot, _, h3, h1, by omega, ?_, rfl, p2, ?_, ?_, ?_, rfl⟩
  · have := hs.free_lt _ p2
    have := hs.active_nonneg
    omega
  · show slot ∉ free_list { st.ctx with active := st.ctx.active + 1 }
    rw [p4]; exact p5
  · show free_list { st.ctx with active := st.ctx.active + 1 } = _
    exact p4
  · refine ⟨{ iocb := mk { st.ctx with
                      active := st.ctx.active + 1,
                      req_cnt := (st.ctx.req_cnt + 1) % 9223372036854775808 } slot,
                complete_cb := complete_cb, data_cb := data_cb }, ?_, rfl, rfl⟩
    simp only
    rw [List.getElem?_set_self]
    simp [h2]

/-- C3: for each of the six submit operations, when the pool is not empty
(`active < capacity`) and the OS accepts the operation (`io_submit` returns a
positive value), the call returns the index `slot` of the request just taken
from the top of the pool, `0 ≤ slot < capacity`, `active` has increased by
exactly one, the slot was available before and is not available after, and the
slot stores the caller's `complete_cb` and `data_cb`. -/
theorem submit_accepted_returns_key (op : SubmitOp) (complete_cb data_cb : Nat) (ret : Int)
    (os : List OsResp) (st : State) (hs : PoolShape st.ctx)
    (hlt : st.ctx.active < st.ctx.capacity) (hret : 0 < ret) :
    ∃ (slot : Nat) (st1 : State),
      op.exec complete_cb data_cb (OsResp.io_submit ret :: os) st
        = some ((slot : Int), st1, os) ∧
      st.ctx.req_pool[(st.ctx.capacity - st.ctx.active - 1).toNat]? = some slot ∧
      (0 : Int) ≤ slot ∧ (slot : Int) < st.ctx.capacity ∧
      st1.ctx.active = st.ctx.active + 1 ∧
      slot ∈ free_list st.ctx ∧ slot ∉ free_list st1.ctx ∧
      free_list st1.ctx = (free_list st.ctx).dropLast ∧
      (∃ r, st1.ctx.requests[slot]? = some r ∧
        r.complete_cb = complete_cb ∧ r.data_cb = data_cb) ∧
      st1.ctx.capacity = st.ctx.capacity := by
  cases op with
  | write fd data count offset =>
    exact submit_accepted_facts (iocb_write fd data count offset) _ _ ret os st hs hlt hret
  | writev fd iov iovcnt offset =>
    exact submit_accepted_facts (iocb_writev fd iov iovcnt offset) _ _ ret os st hs hlt hret
  | read fd data count offset =>
    exact submit_accepted_facts (iocb_read fd data count offset) _ _ ret os st hs hlt hret
  | readv fd iov iovcnt offset =>
    exact submit_accepted_facts (iocb_readv fd iov iovcnt offset) _ _ ret os st hs hlt hret
  | fsync fd => exact submit_accepted_facts (iocb_fsync fd) _ _ ret os st hs hlt hret
  | fdsync fd => exact submit_accepted_facts (iocb_fdsync fd) _ _ ret os st hs hlt hret

/-- Witness of `submit_accepted_returns_key`: a write on the fresh context of
capacity 2 is accepted and gets the key 1. -/
theorem submit_accepted_returns_key_witness :
    PoolShape demo_fresh.ctx ∧ demo_fresh.ctx.active < demo_fresh.ctx.capacity ∧ (0 : Int) < 1 ∧
    ∃ (slot : Nat) (st1 : State),
      (SubmitOp.write 5 100 10 0).exec 11 21 (OsResp.io_submit 1 :: []) demo_fresh
        = some ((slot : Int), st1, []) ∧
      demo_fresh.ctx.req_pool[(demo_fresh.ctx.capacity - demo_fresh.ctx.active - 1).toNat]?
        = some slot ∧
      (0 : Int) ≤ slot ∧ (slot : Int) < demo_fresh.ctx.capacity ∧
      st1.ctx.active = demo_fresh.ctx.active + 1 ∧
      slot ∈ free_list demo_fresh.ctx ∧ slot ∉ free_list st1.ctx ∧
      free_list st1.ctx = (free_list demo_fresh.ctx).dropLast ∧
      (∃ r, st1.ctx.requests[slot]? = some r ∧ r.complete_cb = 11 ∧ r.data_cb = 21) ∧
      st1.ctx.capacity = demo_fresh.ctx.capacity :=
  ⟨⟨by decide, by decide, by decide, by decide, by decide, by decide⟩, by decide, by decide,
   submit_accepted_returns_key (SubmitOp.write 5 100 10 0) 11 21 1 [] demo_fresh
     ⟨by decide, by decide, by decide, by decide, by decide, by decide⟩ (by decide) (by decide)⟩

/-- The six submit functions, when the pool is not empty and `io_submit` does
not accept the operation (`ret ≤ 0`): the request goes back to the pool, so
`active` and `req_pool` are what they were; the call returns `ret`; the only
trace entry is the `io_submit` call (no callback is invoked). -/
theorem submit_rejected (mk : io_ctx → Nat → iocb) (complete_cb data_cb : Nat) (ret : Int)
    (os : List OsResp) (st : State) (hs : PoolShape st.ctx)
    (hlt : st.ctx.active < st.ctx.capacity) (hret : ret ≤ 0) :
    ∃ (slot : Nat) (st1 : State),
      io_ctx_submit mk complete_cb data_cb (OsResp.io_submit ret :: os) st
        = some (ret, st1, os) ∧
      st1.ctx.active = st.ctx.active ∧ st1.ctx.req_pool = st.ctx.req_pool ∧
      free_list st1.ctx = free_list st.ctx ∧ slot ∈ free_list st1.ctx ∧
      st1.ctx.capacity = st.ctx.capacity ∧
      (∃ r, st1.trace = st.trace ++ [Ev.io_submit slot r ret]) := by
  obtain ⟨slot, h1, h2, h3, _⟩ := pool_top st.ctx hs hlt
  have hne : st.ctx.active ≠ st.ctx.capacity := by omega
  have hidx : 0 ≤ st.ctx.capacity - st.ctx.active - 1 := by omega
  have hget : st.ctx.requests[slot]? = some (st.ctx.requests[slot]) :=
    List.getElem?_eq_getElem h3
  have hnn := hs.active_nonneg
  have hput : 0 ≤ st.ctx.capacity - (st.ctx.active + 1) ∧
      (st.ctx.capacity - (st.ctx.active + 1)).toNat < st.ctx.req_pool.length := by
    rw [hs.pool_len]; omega
  have hset : st.ctx.req_pool.set (st.ctx.capacity - (st.ctx.active + 1)).toNat slot
      = st.ctx.req_pool := by
    apply set_of_getElem?
    rw [← h1]
    congr 1
    omega
  have hnr : ¬ ret > 0 := by omega
  refine ⟨slot,
    { ctx := { st.ctx with
        req_cnt := (st.ctx.req_cnt + 1) % 9223372036854775808,
        requests := st.ctx.requests.set slot
          { iocb := mk { st.ctx with
                active := st.ctx.active + 1,
                req_cnt := (st.ctx.req_cnt + 1) % 9223372036854775808 } slot,
            complete_cb := complete_cb, data_cb := data_cb } },
      trace := st.trace ++ [Ev.io_submit slot
          { iocb := mk { st.ctx with
                active := st.ctx.active + 1,
                req_cnt := (st.ctx.req_cnt + 1) % 9223372036854775808 } slot,
            complete_cb := complete_cb, data_cb := data_cb } ret] },
    ?_, rfl, rfl, rfl, h2, rfl, ⟨_, rfl⟩⟩
  simp only [io_ctx_submit, io_ctx_get_req, List.length_cons,
    get_req_wait_available _ _ _ hne, lt_self_iff_false, if_false, hidx, if_true, h1, hget,
    hnr, io_ctx_put_req, hput, and_self, hset, add_sub_cancel_right]

/-! ## Backpressure: the wait loop of `io_ctx_get_req` -/

theorem get_req_wait_spec (fuel : Nat) (os : List OsResp) (st : State) (res : Int)
    (st1 : State) (os1 : List OsResp)
    (h : io_ctx_get_req_wait fuel os st = some (res, st1, os1)) :
    ∃ os2 st2, Drains os st os2 st2 ∧
      ((res = 0 ∧ st2.ctx.active ≠ st2.ctx.capacity ∧ st1 = st2 ∧ os1 = os2) ∨
       (res < 0 ∧ st2.ctx.active = st2.ctx.capacity ∧
          io_ctx_process os2 st2 = some (res, st1, os1))) := by
  induction fuel generalizing os st with
  | zero => simp [io_ctx_get_req_wait] at h
  | succ fuel ih =>
    simp only [io_ctx_get_req_wait] at h
    split at h
    · rename_i hfull
      cases hp : io_ctx_process os st with
      | none => simp [hp] at h
      | some x =>
        obtain ⟨r, sta, osa⟩ := x
        simp only [hp] at h
        split at h
        · rename_i hr
          simp only [Option.some.injEq, Prod.mk.injEq] at h
          obtain ⟨h1, h2, h3⟩ := h
          subst h1 h2 h3
          exact ⟨os, st, Drains.done os st, Or.inr ⟨hr, hfull, hp⟩⟩
        · rename_i hr
          obtain ⟨os2, st2, hd, hres⟩ := ih _ _ h
          exact ⟨os2, st2, Drains.step os osa os2 st sta st2 r hfull hp (by omega) hd, hres⟩
    · rename_i hne
      simp only [Option.some.injEq, Prod.mk.injEq] at h
      obtain ⟨h1, h2, h3⟩ := h
      subst h1 h2 h3
      exact ⟨os, st, Drains.done os st, Or.inl ⟨rfl, hne, rfl, rfl⟩⟩

/-- What a chain of drains preserves: the frame of the context, and `active`
never grows; the trace only grows, by entries that are not `io_submit` calls. -/
theorem drains_frame (os : List OsResp) (st : State) (os2 : List OsResp) (st2 : State)
    (h : Drains os st os2 st2) :
    st2.ctx = { st.ctx with req_pool := st2.ctx.req_pool, active := st2.ctx.active } ∧
    st2.ctx.active ≤ st.ctx.active ∧
    st2.ctx.req_pool.length = st.ctx.req_pool.length ∧
    ∃ seg, st2.trace = st.trace ++ seg := by
  induction h with
  | done os st => exact ⟨rfl, le_refl _, rfl, [], by simp⟩
  | step os os1 os2 st st1 st2 r hfull hp hr _ ih =>
    obtain ⟨seg, j1, j2, j3, j4, _⟩ := process_spec _ _ _ _ _ hp
    obtain ⟨i1, i2, i3, seg2, i4⟩ := ih
    refine ⟨?_, ?_, ?_, seg ++ seg2, ?_⟩
    · rw [i1, j2]
    · rw [j3] at i2; omega
    · rw [i3, j4]
    · rw [i4, j1]; simp

/-- What a returning call of `io_ctx_get_req` does. -/
theorem get_req_spec (os : List OsResp) (st : State) (res : Int) (slot : Nat)
    (st1 : State) (os1 : List OsResp)
    (h : io_ctx_get_req os st = some (res, slot, st1, os1)) :
    ∃ os2 st2, Drains os st os2 st2 ∧
      ((res < 0 ∧ st2.ctx.active = st2.ctx.capacity ∧
          io_ctx_process os2 st2 = some (res, st1, os1)) ∨
       (res = 0 ∧ st2.ctx.active ≠ st2.ctx.capacity ∧ os1 = os2 ∧
          0 ≤ st2.ctx.capacity - st2.ctx.active - 1 ∧
          st2.ctx.req_pool[(st2.ctx.capacity - st2.ctx.active - 1).toNat]? = some slot ∧
          st1 = { st2 with ctx := { st2.ctx with
                    active := st2.ctx.active + 1,
                    req_cnt := (st2.ctx.req_cnt + 1) % 9223372036854775808 } })) := by
  unfold io_ctx_get_req at h
  cases hw : io_ctx_get_req_wait (os.length + 1) os st with
  | none => simp [hw] at h
  | some x =>
    obtain ⟨r, sta, osa⟩ := x
    simp only [hw] at h
    obtain ⟨os2, st2, hd, hres⟩ := get_req_wait_spec _ _ _ _ _ _ hw
    refine ⟨os2, st2, hd, ?_⟩
    split at h
    · rename_i hr
      simp only [Option.some.injEq, Prod.mk.injEq] at h
      obtain ⟨h1, _, h3, h4⟩ := h
      subst h1 h3 h4
      rcases hres with ⟨h0, _⟩ | ⟨_, hf, hp⟩
      · omega
      · exact Or.inl ⟨hr, hf, hp⟩
    · rename_i hr
      rcases hres with ⟨h0, hne, hst, hos⟩ | ⟨hneg, _⟩
      · subst hst hos
        split at h
        · rename_i hidx
          split at h
          · simp at h
          · rename_i s hg
            simp only [Option.some.injEq, Prod.mk.injEq] at h
            obtain ⟨h1, h2, h3, h4⟩ := h
            subst h1 h2 h3 h4
            refine Or.inr ⟨rfl, hne, rfl, hidx, ?_, rfl⟩
            exact hg
        · simp at h
      · omega

/-- What a returning call of a submit function does: drain while the pool is
empty; then either a drain failed and its negative result is returned, or a
request is taken from the top of the pool, filled, and handed to `io_submit`;
on acceptance the slot index is returned, otherwise the request is put back
and the result of `io_submit` is returned. -/
theorem submit_spec (mk : io_ctx → Nat → iocb) (complete_cb data_cb : Nat)
    (os : List OsResp) (st : State) (ret : Int) (st1 : State) (os1 : List OsResp)
    (h : io_ctx_submit mk complete_cb data_cb os st = some (ret, st1, os1)) :
    ∃ os2 st2, Drains os st os2 st2 ∧
      ((ret < 0 ∧ st2.ctx.active = st2.ctx.capacity ∧
          io_ctx_process os2 st2 = some (ret, st1, os1)) ∨
       (st2.ctx.active ≠ st2.ctx.capacity ∧
          ∃ (slot : Nat) (ret2 : Int), os2 = OsResp.io_submit ret2 :: os1 ∧
            0 ≤ st2.ctx.capacity - st2.ctx.active - 1 ∧
            st2.ctx.req_pool[(st2.ctx.capacity - st2.ctx.active - 1).toNat]? = some slot ∧
            slot < st2.ctx.requests.length ∧
            ((0 < ret2 ∧ ret = (slot : Int) ∧
                st1 = st_submitted mk complete_cb data_cb st2 slot ret2) ∨
             (ret2 ≤ 0 ∧ ret = ret2 ∧
                ∃ c3, io_ctx_put_req (st_submitted mk complete_cb data_cb st2 slot ret2).ctx slot
                    = some c3 ∧
                  st1 = { ctx := c3,
                          trace := (st_submitted mk complete_cb data_cb st2 slot ret2).trace })))) := by
  unfold io_ctx_submit at h
  cases hg : io_ctx_get_req os st with
  | none => simp [hg] at h
  | some x =>
    obtain ⟨res, slot, sta, osa⟩ := x
    simp only [hg] at h
    obtain ⟨os2, st2, hd, hres⟩ := get_req_spec _ _ _ _ _ _ hg
    refine ⟨os2, st2, hd, ?_⟩
    rcases hres with ⟨hneg, hfull, hp⟩ | ⟨h0, hne, hos, hidx, hpool, hsta⟩
    · simp only [hneg, if_true, Option.some.injEq, Prod.mk.injEq] at h
      obtain ⟨h1, h2, h3⟩ := h
      subst h1 h2 h3
      exact Or.inl ⟨hneg, hfull, hp⟩
    · subst h0 hos hsta
      simp only [lt_self_iff_false, if_false] at h
      refine Or.inr ⟨hne, ?_⟩
      cases hr : st2.ctx.requests[slot]? with
      | none => simp [hr] at h
      | some r0 =>
        simp only [hr] at h
        have hlt : slot < st2.ctx.requests.length := by
          by_contra hcon
          rw [List.getElem?_eq_none (by omega)] at hr
          simp at hr
        cases osa with
        | nil => simp at h
        | cons y osb =>
          cases y with
          | io_submit ret2 =>
            simp only at h
            split at h
            · rename_i hpos
              simp only [Option.some.injEq, Prod.mk.injEq] at h
              obtain ⟨h1, h2, h3⟩ := h
              subst h1 h2 h3
              exact ⟨slot, ret2, rfl, hidx, hpool, hlt, Or.inl ⟨hpos, rfl, rfl⟩⟩
            · rename_i hnpos
              split at h
              · simp at h
              · rename_i c3 hput
                simp only [Option.some.injEq, Prod.mk.injEq] at h
                obtain ⟨h1, h2, h3⟩ := h
                subst h1 h2 h3
                exact ⟨slot, ret2, rfl, hidx, hpool, hlt,
                  Or.inr ⟨by omega, rfl, c3, hput, rfl⟩⟩
          | _ => simp at h

theorem exec_eq_submit (op : SubmitOp) (complete_cb data_cb : Nat) (os : List OsResp)
    (st : State) :
    op.exec complete_cb data_cb os st = io_ctx_submit op.descriptor complete_cb data_cb os st := by
  cases op <;> rfl

/-! ## The iteration bound of the wait loops is never reached -/

theorem process_loop_consumes (finished : Nat) (os : List OsResp) (completed : Nat)
    (st : State) (r : Int) (st1 : State) (os1 : List OsResp)
    (h : io_ctx_process_loop finished os completed st = some (r, st1, os1)) :
    os1.length ≤ os.length := by
  induction os generalizing completed st with
  | nil =>
    simp only [io_ctx_process_loop] at h
    split at h
    · simp at h
    · simp only [Option.some.injEq, Prod.mk.injEq] at h
      rw [← h.2.2]
  | cons x os ih =>
    simp only [io_ctx_process_loop] at h
    split at h
    · cases x with
      | io_getevents processed events =>
        simp only at h
        split at h
        · simp only [Option.some.injEq, Prod.mk.injEq] at h
          rw [← h.2.2]; simp
        · split at h
          · simp at h
          · split at h
            · simp at h
            · have := ih _ _ h
              simp only [List.length_cons]
              omega
      | _ => simp at h
    · simp only [Option.some.injEq, Prod.mk.injEq] at h
      rw [← h.2.2]

/-- Every call of `io_ctx_process` consumes at least one scripted response. -/
theorem process_consumes (os : List OsResp) (st : State) (r : Int) (st1 : State)
    (os1 : List OsResp) (h : io_ctx_process os st = some (r, st1, os1)) :
    os1.length < os.length := by
  cases os with
  | nil => simp [io_ctx_process] at h
  | cons x os =>
    cases x with
    | wait_cb w =>
      simp only [io_ctx_process] at h
      split at h
      · simp only [Option.some.injEq, Prod.mk.injEq] at h
        rw [← h.2.2]; simp
      · cases os with
        | nil => simp at h
        | cons y os =>
          cases y with
          | read ret errno v =>
            simp only at h
            split at h
            · simp only [Option.some.injEq, Prod.mk.injEq] at h
              rw [← h.2.2]; simp only [List.length_cons]; omega
            · have := process_loop_consumes _ _ _ _ _ _ _ h
              simp only [List.length_cons]
              omega
          | _ => simp at h
    | _ => simp [io_ctx_process] at h

/-- The iteration bound `os.length + 1` used by `io_ctx_get_req` is never the
reason for the absence of a result: any larger bound gives the same outcome. -/
theorem io_ctx_get_req_wait_fuel (fuel1 fuel2 : Nat) (os : List OsResp) (st : State)
    (h1 : os.length < fuel1) (h2 : os.length < fuel2) :
    io_ctx_get_req_wait fuel1 os st = io_ctx_get_req_wait fuel2 os st := by
  induction fuel1 generalizing fuel2 os st with
  | zero => omega
  | succ f1 ih =>
    cases fuel2 with
    | zero => omega
    | succ f2 =>
      simp only [io_ctx_get_req_wait]
      split
      · cases hp : io_ctx_process os st with
        | none => rfl
        | some x =>
          obtain ⟨r, sta, osa⟩ := x
          simp only
          split
          · rfl
          · have := process_consumes _ _ _ _ _ hp
            exact ih f2 osa sta (by omega) (by omega)
      · rfl

/-- The iteration bound `os.length + 1` used by `io_ctx_destroy` is never the
reason for the absence of a result. -/
theorem io_ctx_destroy_wait_fuel (fuel1 fuel2 : Nat) (os : List OsResp) (st : State)
    (h1 : os.length < fuel1) (h2 : os.length < fuel2) :
    io_ctx_destroy_wait fuel1 os st = io_ctx_destroy_wait fuel2 os st := by
  induction fuel1 generalizing fuel2 os st with
  | zero => omega
  | succ f1 ih =>
    cases fuel2 with
    | zero => omega
    | succ f2 =>
      simp only [io_ctx_destroy_wait]
      split
      · cases hp : io_ctx_process os st with
        | none => rfl
        | some x =>
          obtain ⟨r, sta, osa⟩ := x
          simp only
          split
          · have := process_consumes _ _ _ _ _ hp
            exact ih f2 osa sta (by omega) (by omega)
          · rfl
      · rfl

/-! ## The specification vocabulary along a trace -/

theorem pendingFrom_append (ops : List PendingOp) (a b : List Ev) :
    pendingFrom ops (a ++ b) = pendingFrom (pendingFrom ops a) b := by
  simp [pendingFrom, List.foldl_append]

theorem pendingFrom_cons (ops : List PendingOp) (e : Ev) (tr : List Ev) :
    pendingFrom ops (e :: tr) = pendingFrom (pendingStep ops e) tr := rfl

theorem EnvOkFrom_append (ops : List PendingOp) (a b : List Ev) :
    EnvOkFrom ops (a ++ b) ↔ EnvOkFrom ops a ∧ EnvOkFrom (pendingFrom ops a) b := by
  induction a generalizing ops with
  | nil => simp [EnvOkFrom, pendingFrom]
  | cons e a ih =>
    show evOk ops e ∧ EnvOkFrom (pendingStep ops e) (a ++ b) ↔
      (evOk ops e ∧ EnvOkFrom (pendingStep ops e) a) ∧
        EnvOkFrom (pendingFrom (pendingStep ops e) a) b
    rw [ih, and_assoc]

theorem expectedFrom_append (ops : List PendingOp) (a b : List Ev) :
    expectedFrom ops (a ++ b) = expectedFrom ops a ++ expectedFrom (pendingFrom ops a) b := by
  induction a generalizing ops with
  | nil => simp [expectedFrom, pendingFrom]
  | cons e a ih =>
    show expectedStep ops e ++ expectedFrom (pendingStep ops e) (a ++ b) =
      (expectedStep ops e ++ expectedFrom (pendingStep ops e) a) ++
        expectedFrom (pendingFrom (pendingStep ops e) a) b
    rw [ih, List.append_assoc]

/-- Callback invocations are neutral for the outstanding operations, for the
environment assumption and for the callbacks called for. -/
theorem callbacks_neutral (ops : List PendingOp) (cbs : List Ev)
    (h : ∀ e ∈ cbs, isCallback e = true) :
    pendingFrom ops cbs = ops ∧ EnvOkFrom ops cbs ∧ expectedFrom ops cbs = [] ∧
    callbacksOf cbs = cbs := by
  induction cbs with
  | nil => simp [pendingFrom, EnvOkFrom, expectedFrom, callbacksOf]
  | cons e cbs ih =>
    have he := h e (List.mem_cons_self _ _)
    obtain ⟨i1, i2, i3, i4⟩ := ih (fun x hx => h x (List.mem_cons_of_mem _ hx))
    cases e with
    | complete_cb cb res d =>
      refine ⟨?_, ?_, ?_, ?_⟩
      · rw [pendingFrom_cons]; exact i1
      · exact ⟨trivial, i2⟩
      · simp only [expectedFrom, expectedStep, List.nil_append]; exact i3
      · simp only [callbacksOf] at i4 ⊢
        rw [List.filter_cons]
        simp [isCallback, i4]
    | _ => simp [isCallback] at he

theorem expectedFor_callbacks (evs : List io_event) (ops : List PendingOp) :
    ∀ e ∈ expectedFor evs ops, isCallback e = true := by
  induction evs generalizing ops with
  | nil => simp [expectedFor]
  | cons ev evs ih =>
    intro e he
    simp only [expectedFor] at he
    split at he
    · exact ih _ e he
    · rcases List.mem_cons.mp he with h1 | h1
      · subst h1; rfl
      · exact ih _ e h1

theorem removeSlot_slots (s : Nat) (ops : List PendingOp) :
    (removeSlot s ops).map PendingOp.slot = (ops.map PendingOp.slot).erase s := by
  induction ops with
  | nil => simp [removeSlot]
  | cons p ops ih =>
    unfold removeSlot at ih ⊢
    by_cases hp : p.slot = s
    · simp [List.eraseP_cons, hp]
    · have e1 : (p :: ops).eraseP (fun p => decide (p.slot = s))
          = p :: ops.eraseP (fun p => decide (p.slot = s)) :=
        List.eraseP_cons_of_neg (by simpa using hp)
      rw [e1, List.map_cons, List.map_cons, List.erase_cons_tail (by simpa using hp), ih]

theorem removeSlot_mem (s : Nat) (ops : List PendingOp) (p : PendingOp)
    (h : p ∈ removeSlot s ops) : p ∈ ops :=
  List.mem_of_mem_eraseP h

theorem removeSlot_length (s : Nat) (ops : List PendingOp)
    (h : s ∈ ops.map PendingOp.slot) : (removeSlot s ops).length + 1 = ops.length := by
  have h1 := congrArg List.length (removeSlot_slots s ops)
  simp only [List.length_map] at h1
  rw [h1, List.length_erase_of_mem h]
  have : 0 < (ops.map PendingOp.slot).length := List.length_pos_of_mem h
  simp only [List.length_map] at this ⊢
  omega

/-! ## The pool invariant through the operations -/

/-- Returning the request of an outstanding operation keeps the pool in
agreement with the outstanding operations, and is defined. -/
theorem poolok_put (c : io_ctx) (ops : List PendingOp) (s : Nat) (h : PoolOk c ops)
    (hs : s ∈ ops.map PendingOp.slot) :
    ∃ c1, io_ctx_put_req c s = some c1 ∧ PoolOk c1 (removeSlot s ops) ∧
      c1.requests = c.requests := by
  have hlen := removeSlot_length s ops hs
  have hact := h.active_eq
  have hle := h.shape.active_le
  have h0 : 0 ≤ c.capacity - c.active := by omega
  have h1 : (c.capacity - c.active).toNat < c.req_pool.length := by
    rw [h.shape.pool_len]; omega
  have hfl := free_list_put c s h0 h1
  have hnot : s ∉ free_list c := fun hin => h.free_not_pending s hin hs
  refine ⟨{ c with req_pool := c.req_pool.set (c.capacity - c.active).toNat s,
                   active := c.active - 1 }, ?_, ?_, rfl⟩
  · simp [io_ctx_put_req, h0, h1]
  · refine ⟨⟨h.shape.requests_len, ?_, ?_, ?_, ?_, ?_⟩, ?_, ?_, ?_, ?_, ?_, ?_⟩
    · simp only [List.length_set]; exact h.shape.pool_len
    · simp only; omega
    · simp only; omega
    · rw [hfl]
      exact List.nodup_append.mpr ⟨h.shape.free_nodup, List.nodup_singleton s,
        by
          intro a ha hb
          rw [List.mem_singleton] at hb
          subst hb
          exact hnot ha⟩
    · rw [hfl]
      intro x hx
      rcases List.mem_append.mp hx with hx | hx
      · exact h.shape.free_lt x hx
      · rw [List.mem_singleton] at hx
        subst hx
        exact h.pending_lt x hs
    · rw [hfl, removeSlot_slots]
      intro x hx hx2
      rcases List.mem_append.mp hx with hx | hx
      · exact h.free_not_pending x hx (List.mem_of_mem_erase hx2)
      · rw [List.mem_singleton] at hx
        subst hx
        exact (List.Nodup.not_mem_erase h.pending_nodup) hx2
    · rw [removeSlot_slots]
      exact h.pending_nodup.erase s
    · rw [removeSlot_slots]
      intro x hx
      exact h.pending_lt x (List.mem_of_mem_erase hx)
    · rw [hfl, removeSlot_slots]
      intro x hx
      rcases h.cover x hx with hx2 | hx2
      · exact Or.inl (List.mem_append_left _ hx2)
      · by_cases hxs : x = s
        · subst hxs
          exact Or.inl (List.mem_append_right _ (List.mem_singleton.mpr rfl))
        · exact Or.inr ((List.mem_erase_of_ne hxs).mpr hx2)
    · simp only; omega
    · intro p hp
      exact h.stored p (removeSlot_mem s ops p hp)

/-- The operation found for a slot that has an outstanding operation. -/
theorem find_pending (ops : List PendingOp) (s : Nat) (hs : s ∈ ops.map PendingOp.slot) :
    ∃ p, ops.find? (fun p => decide (p.slot = s)) = some p ∧ p ∈ ops ∧ p.slot = s := by
  cases hf : ops.find? (fun p => decide (p.slot = s)) with
  | none =>
    rw [List.find?_eq_none] at hf
    obtain ⟨p, hp, hps⟩ := List.mem_map.mp hs
    have := hf p hp
    simp [hps] at this
  | some p =>
    refine ⟨p, rfl, List.mem_of_find?_eq_some hf, ?_⟩
    have := List.find?_some hf
    simpa using this

/-- Dispatching a batch of events that reports outstanding operations only is
defined, keeps the pool in agreement with the outstanding operations, and
invokes exactly the callbacks called for. -/
theorem poolok_dispatch (evs : List io_event) (st : State) (ops : List PendingOp)
    (h : PoolOk st.ctx ops) (hr : reportOk evs ops) :
    ∃ st1, io_ctx_process_dispatch evs st = some st1 ∧
      PoolOk st1.ctx (reportAll evs ops) ∧
      st1.trace = st.trace ++ expectedFor evs ops := by
  induction evs generalizing st ops with
  | nil => exact ⟨st, rfl, h, by simp [expectedFor]⟩
  | cons e evs ih =>
    obtain ⟨hmem, hrest⟩ := hr
    obtain ⟨p, hfind, hp, hps⟩ := find_pending ops e.data hmem
    obtain ⟨r, hreq, hcb, hdata⟩ := h.stored p hp
    rw [hps] at hreq
    obtain ⟨c1, hput, hok, _⟩ := poolok_put st.ctx ops e.data h hmem
    obtain ⟨st1, i1, i2, i3⟩ := ih
      { ctx := c1, trace := st.trace ++ [Ev.complete_cb r.complete_cb e.res r.data_cb] }
      (removeSlot e.data ops) hok hrest
    refine ⟨st1, ?_, i2, ?_⟩
    · simp only [io_ctx_process_dispatch, hreq, hput]
      exact i1
    · rw [i3]
      simp only [expectedFor, hfind, hcb, hdata, List.append_assoc, List.singleton_append]

theorem preserves_nil (c : io_ctx) : Preserves c c [] := by
  intro ops _ h
  exact ⟨h, rfl⟩

theorem preserves_trans (c c1 c2 : io_ctx) (a b : List Ev) (h1 : Preserves c c1 a)
    (h2 : Preserves c1 c2 b) : Preserves c c2 (a ++ b) := by
  intro ops henv hok
  obtain ⟨e1, e2⟩ := (EnvOkFrom_append ops a b).mp henv
  obtain ⟨p1, q1⟩ := h1 ops e1 hok
  obtain ⟨p2, q2⟩ := h2 _ e2 p1
  refine ⟨by rw [pendingFrom_append]; exact p2, ?_⟩
  rw [callbacksOf_append, expectedFrom_append, q1, q2]

/-- A trace entry that is neither a callback nor a call that changes the
outstanding operations is neutral. -/
theorem preserves_neutral (c : io_ctx) (e : Ev) (h1 : isCallback e = false)
    (h2 : ∀ ops, pendingStep ops e = ops) (h3 : ∀ ops, expectedStep ops e = []) :
    Preserves c c [e] := by
  intro ops _ hok
  refine ⟨?_, ?_⟩
  · show PoolOk c (pendingFrom (pendingStep ops e) [])
    rw [h2]; exact hok
  · simp [callbacksOf, List.filter_cons, h1, expectedFrom, h3]

theorem process_loop_preserves (finished : Nat) (os : List OsResp) (completed : Nat)
    (st : State) (r : Int) (st1 : State) (os1 : List OsResp)
    (h : io_ctx_process_loop finished os completed st = some (r, st1, os1)) :
    ∃ seg, st1.trace = st.trace ++ seg ∧ Preserves st.ctx st1.ctx seg := by
  induction os generalizing completed st with
  | nil =>
    simp only [io_ctx_process_loop] at h
    split at h
    · simp at h
    · simp only [Option.some.injEq, Prod.mk.injEq] at h
      obtain ⟨_, h2, _⟩ := h
      subst h2
      exact ⟨[], by simp, preserves_nil _⟩
  | cons x os ih =>
    simp only [io_ctx_process_loop] at h
    split at h
    · cases x with
      | io_getevents processed events =>
        simp only at h
        split at h
        · rename_i hneg
          simp only [Option.some.injEq, Prod.mk.injEq] at h
          obtain ⟨_, h2, _⟩ := h
          subst h2
          refine ⟨[Ev.io_getevents (fetch_count finished completed) processed events],
            by simp [State.emit], ?_⟩
          exact preserves_neutral _ _ rfl
            (by intro ops; simp [pendingStep, delivered, hneg, reportAll])
            (by intro ops; simp [expectedStep, delivered, hneg, expectedFor])
        · rename_i hnn
          split at h
          · simp at h
          · cases hd : io_ctx_process_dispatch (List.take processed.toNat events)
                (st.emit (Ev.io_getevents (fetch_count finished completed) processed events)) with
            | none => simp [hd] at h
            | some st2 =>
              simp only [hd] at h
              obtain ⟨seg, j1, j2⟩ := ih _ _ h
              have hdel : delivered processed events = List.take processed.toNat events := by
                simp [delivered, hnn]
              obtain ⟨_, _, _, _, _, cbs, d6, _, _, _⟩ := dispatch_spec _ _ _ hd
              refine ⟨Ev.io_getevents (fetch_count finished completed) processed events ::
                (cbs ++ seg), by rw [j1, d6]; simp [State.emit], ?_⟩
              intro ops henv hok
              obtain ⟨hev, henv2⟩ := henv
              have hrep : reportOk (List.take processed.toNat events) ops := by
                simpa [evOk, hdel] using hev
              obtain ⟨st2', k1, k2, k3⟩ := poolok_dispatch _
                (st.emit (Ev.io_getevents (fetch_count finished completed) processed events))
                ops hok hrep
              rw [hd] at k1
              simp only [Option.some.injEq] at k1
              subst k1
              have hcbs : cbs = expectedFor (List.take processed.toNat events) ops := by
                rw [d6] at k3; exact List.append_cancel_left k3
              have hps : pendingStep ops
                  (Ev.io_getevents (fetch_count finished completed) processed events)
                  = reportAll (List.take processed.toNat events) ops := by
                simp [pendingStep, hdel]
              have hes : expectedStep ops
                  (Ev.io_getevents (fetch_count finished completed) processed events)
                  = cbs := by
                simp [expectedStep, hdel, hcbs]
              rw [hps] at henv2
              obtain ⟨n1, _, n3, n4⟩ := callbacks_neutral
                (reportAll (List.take processed.toNat events) ops) cbs
                (by rw [hcbs]; exact expectedFor_callbacks _ _)
              obtain ⟨_, e2⟩ := (EnvOkFrom_append _ cbs seg).mp henv2
              rw [n1] at e2
              obtain ⟨p2, q2⟩ := j2 _ e2 k2
              refine ⟨?_, ?_⟩
              · rw [pendingFrom_cons, hps, pendingFrom_append, n1]
                exact p2
              · have hc : callbacksOf (Ev.io_getevents (fetch_count finished completed)
                    processed events :: (cbs ++ seg)) = cbs ++ callbacksOf seg := by
                  have h2 := callbacksOf_append cbs seg
                  rw [n4] at h2
                  simp only [callbacksOf] at h2 ⊢
                  rw [List.filter_cons]
                  simp only [isCallback, Bool.false_eq_true, if_false]
                  exact h2
                rw [hc]
                show _ = expectedStep ops _ ++ expectedFrom (pendingStep ops _) (cbs ++ seg)
                rw [hes, hps, expectedFrom_append, n3, n1, q2, List.nil_append]
      | _ => simp at h
    · simp only [Option.some.injEq, Prod.mk.injEq] at h
      obtain ⟨_, h2, _⟩ := h
      subst h2
      exact ⟨[], by simp, preserves_nil _⟩

theorem process_preserves (os : List OsResp) (st : State) (r : Int) (st1 : State)
    (os1 : List OsResp) (h : io_ctx_process os st = some (r, st1, os1)) :
    ∃ seg, st1.trace = st.trace ++ seg ∧ Preserves st.ctx st1.ctx seg := by
  cases os with
  | nil => simp [io_ctx_process] at h
  | cons x os =>
    cases x with
    | wait_cb w =>
      have hw : Preserves st.ctx st.ctx [Ev.wait_cb st.ctx.event_fd w] :=
        preserves_neutral _ _ rfl (fun _ => rfl) (fun _ => rfl)
      simp only [io_ctx_process] at h
      split at h
      · simp only [Option.some.injEq, Prod.mk.injEq] at h
        obtain ⟨_, h2, _⟩ := h
        subst h2
        exact ⟨[Ev.wait_cb st.ctx.event_fd w], by simp [State.emit], hw⟩
      · cases os with
        | nil => simp at h
        | cons y os =>
          cases y with
          | read ret errno v =>
            have hrd : Preserves st.ctx st.ctx [Ev.read st.ctx.event_fd ret errno v] :=
              preserves_neutral _ _ rfl (fun _ => rfl) (fun _ => rfl)
            have hwr := preserves_trans _ _ _ _ _ hw hrd
            simp only at h
            split at h
            · simp only [Option.some.injEq, Prod.mk.injEq] at h
              obtain ⟨_, h2, _⟩ := h
              subst h2
              exact ⟨[Ev.wait_cb st.ctx.event_fd w] ++ [Ev.read st.ctx.event_fd ret errno v],
                by simp [State.emit], hwr⟩
            · obtain ⟨seg, j1, j2⟩ := process_loop_preserves _ _ _ _ _ _ _ h
              refine ⟨([Ev.wait_cb st.ctx.event_fd w] ++ [Ev.read st.ctx.event_fd ret errno v])
                ++ seg, by rw [j1]; simp [State.emit], ?_⟩
              exact preserves_trans _ _ _ _ _ hwr j2
          | _ => simp at h
    | _ => simp [io_ctx_process] at h

theorem drains_preserves (os : List OsResp) (st : State) (os2 : List OsResp) (st2 : State)
    (h : Drains os st os2 st2) :
    ∃ seg, st2.trace = st.trace ++ seg ∧ Preserves st.ctx st2.ctx seg := by
  induction h with
  | done os st => exact ⟨[], by simp, preserves_nil _⟩
  | step os os1 os2 st st1 st2 r _ hp _ _ ih =>
    obtain ⟨seg, j1, j2⟩ := process_preserves _ _ _ _ _ hp
    obtain ⟨seg2, i1, i2⟩ := ih
    exact ⟨seg ++ seg2, by rw [i1, j1]; simp, preserves_trans _ _ _ _ _ j2 i2⟩

/-- Taking the request on top of the pool and having the OS accept the
operation keeps the pool in agreement with the outstanding operations, the new
operation included. -/
theorem poolok_accept (mk : io_ctx → Nat → iocb) (complete_cb data_cb : Nat) (st : State)
    (ops : List PendingOp) (slot : Nat) (ret : Int) (h : PoolOk st.ctx ops)
    (hne : st.ctx.active ≠ st.ctx.capacity)
    (hpool : st.ctx.req_pool[(st.ctx.capacity - st.ctx.active - 1).toNat]? = some slot) :
    PoolOk (st_submitted mk complete_cb data_cb st slot ret).ctx
      ({ slot := slot, complete_cb := complete_cb, data_cb := data_cb } :: ops) := by
  have hlt : st.ctx.active < st.ctx.capacity := by
    have := h.shape.active_le
    omega
  obtain ⟨slot2, p1, p2, p3, p4, p5, p6⟩ := pool_top st.ctx h.shape hlt
  rw [hpool] at p1
  simp only [Option.some.injEq] at p1
  subst p1
  have hfl : free_list (st_submitted mk complete_cb data_cb st slot ret).ctx
      = (free_list st.ctx).dropLast := p4
  have hsub : ∀ x ∈ (free_list st.ctx).dropLast, x ∈ free_list st.ctx :=
    fun x hx => List.dropLast_subset _ hx
  have hnp : slot ∉ ops.map PendingOp.slot := h.free_not_pending slot p2
  refine ⟨⟨?_, h.shape.pool_len, ?_, ?_, ?_, ?_⟩, ?_, ?_, ?_, ?_, ?_, ?_⟩
  · simp only [st_submitted, ctx_acquired, List.length_set]; exact h.shape.requests_len
  · simp only [st_submitted, ctx_acquired]; have := h.shape.active_nonneg; omega
  · simp only [st_submitted, ctx_acquired]; omega
  · rw [hfl]
    exact h.shape.free_nodup.sublist (List.dropLast_sublist _)
  · rw [hfl]
    intro x hx
    exact h.shape.free_lt x (hsub x hx)
  · rw [hfl]
    intro x hx hx2
    simp only [List.map_cons, List.mem_cons] at hx2
    rcases hx2 with hx2 | hx2
    · subst hx2; exact p5 hx
    · exact h.free_not_pending x (hsub x hx) hx2
  · simp only [List.map_cons]
    exact List.nodup_cons.mpr ⟨hnp, h.pending_nodup⟩
  · intro x hx
    simp only [List.map_cons, List.mem_cons] at hx
    rcases hx with hx | hx
    · subst hx; exact h.shape.free_lt x p2
    · exact h.pending_lt x hx
  · rw [hfl]
    intro x hx
    simp only [List.map_cons, List.mem_cons]
    rcases h.cover x hx with hx2 | hx2
    · rw [p6] at hx2
      rcases List.mem_append.mp hx2 with hx3 | hx3
      · exact Or.inl hx3
      · exact Or.inr (Or.inl (List.mem_singleton.mp hx3))
    · exact Or.inr (Or.inr hx2)
  · simp only [st_submitted, ctx_acquired, List.length_cons]
    have := h.active_eq
    push_cast
    omega
  · intro p hp
    rcases List.mem_cons.mp hp with hp | hp
    · subst hp
      refine ⟨req_filled mk complete_cb data_cb st.ctx slot, ?_, rfl, rfl⟩
      simp only [st_submitted, ctx_acquired]
      rw [List.getElem?_set_self]
      exact p3
    · obtain ⟨r, hr, hc, hd⟩ := h.stored p hp
      refine ⟨r, ?_, hc, hd⟩
      have hps : slot ≠ p.slot := by
        intro heq
        exact hnp (heq ▸ List.mem_map_of_mem _ hp)
      simp only [st_submitted, ctx_acquired]
      rw [List.getElem?_set_ne hps]
      exact hr

/-- Taking the request on top of the pool and putting it back after the OS
rejected the operation keeps the pool in agreement with the outstanding
operations. -/
theorem poolok_reject (mk : io_ctx → Nat → iocb) (complete_cb data_cb : Nat) (st : State)
    (ops : List PendingOp) (slot : Nat) (ret : Int) (c3 : io_ctx) (h : PoolOk st.ctx ops)
    (hne : st.ctx.active ≠ st.ctx.capacity)
    (hpool : st.ctx.req_pool[(st.ctx.capacity - st.ctx.active - 1).toNat]? = some slot)
    (hput : io_ctx_put_req (st_submitted mk complete_cb data_cb st slot ret).ctx slot = some c3) :
    PoolOk c3 ops := by
  have hlt : st.ctx.active < st.ctx.capacity := by
    have := h.shape.active_le
    omega
  obtain ⟨slot2, p1, p2, p3, p4, p5, p6⟩ := pool_top st.ctx h.shape hlt
  rw [hpool] at p1
  simp only [Option.some.injEq] at p1
  subst p1
  have hnp : slot ∉ ops.map PendingOp.slot := h.free_not_pending slot p2
  obtain ⟨_, _, hc3⟩ := io_ctx_put_req_eq_some _ _ _ hput
  have hset : st.ctx.req_pool.set (st.ctx.capacity - (st.ctx.active + 1)).toNat slot
      = st.ctx.req_pool := by
    apply set_of_getElem?
    rw [← hpool]
    congr 1
    omega
  have hc : c3 = { st.ctx with
      req_cnt := (st.ctx.req_cnt + 1) % 9223372036854775808,
      requests := st.ctx.requests.set slot (req_filled mk complete_cb data_cb st.ctx slot) } := by
    rw [hc3]
    simp only [st_submitted, ctx_acquired, hset, add_sub_cancel_right]
  have hfl : free_list c3 = free_list st.ctx := by rw [hc]; rfl
  refine ⟨⟨?_, ?_, ?_, ?_, ?_, ?_⟩, ?_, h.pending_nodup, ?_, ?_, ?_, ?_⟩
  · rw [hc]; simp only [List.length_set]; exact h.shape.requests_len
  · rw [hc]; exact h.shape.pool_len
  · rw [hc]; exact h.shape.active_nonneg
  · rw [hc]; exact h.shape.active_le
  · rw [hfl]; exact h.shape.free_nodup
  · rw [hfl, hc]; exact h.shape.free_lt
  · rw [hfl]; exact h.free_not_pending
  · rw [hc]; exact h.pending_lt
  · rw [hfl, hc]; exact h.cover
  · rw [hc]; exact h.active_eq
  · intro p hp
    obtain ⟨r, hr, hcb, hd⟩ := h.stored p hp
    refine ⟨r, ?_, hcb, hd⟩
    have hps : slot ≠ p.slot := by
      intro heq
      exact hnp (heq ▸ List.mem_map_of_mem _ hp)
    rw [hc]
    simp only
    rw [List.getElem?_set_ne hps]
    exact hr

theorem submit_preserves (mk : io_ctx → Nat → iocb) (complete_cb data_cb : Nat)
    (os : List OsResp) (st : State) (ret : Int) (st1 : State) (os1 : List OsResp)
    (h : io_ctx_submit mk complete_cb data_cb os st = some (ret, st1, os1)) :
    ∃ seg, st1.trace = st.trace ++ seg ∧ Preserves st.ctx st1.ctx seg := by
  obtain ⟨os2, st2, hd, hres⟩ := submit_spec _ _ _ _ _ _ _ _ h
  obtain ⟨segd, d1, d2⟩ := drains_preserves _ _ _ _ hd
  rcases hres with ⟨_, _, hp⟩ | ⟨hne, slot, ret2, _, _, hpool, _, hcase⟩
  · obtain ⟨segp, q1, q2⟩ := process_preserves _ _ _ _ _ hp
    exact ⟨segd ++ segp, by rw [q1, d1]; simp, preserves_trans _ _ _ _ _ d2 q2⟩
  · rcases hcase with ⟨hpos, _, hst⟩ | ⟨hnp, _, c3, hput, hst⟩
    · subst hst
      refine ⟨segd ++ [Ev.io_submit slot (req_filled mk complete_cb data_cb st2.ctx slot) ret2],
        by simp [st_submitted, d1], preserves_trans _ _ _ _ _ d2 ?_⟩
      intro ops _ hok
      refine ⟨?_, by simp [callbacksOf, List.filter_cons, isCallback, expectedFrom, expectedStep]⟩
      have : pendingFrom ops
          [Ev.io_submit slot (req_filled mk complete_cb data_cb st2.ctx slot) ret2]
          = { slot := slot, complete_cb := complete_cb, data_cb := data_cb } :: ops := by
        simp [pendingFrom, pendingStep, hpos, req_filled]
      rw [this]
      exact poolok_accept mk complete_cb data_cb st2 ops slot ret2 hok hne hpool
    · subst hst
      refine ⟨segd ++ [Ev.io_submit slot (req_filled mk complete_cb data_cb st2.ctx slot) ret2],
        by simp [st_submitted, d1], preserves_trans _ _ _ _ _ d2 ?_⟩
      intro ops _ hok
      refine ⟨?_, by simp [callbacksOf, List.filter_cons, isCallback, expectedFrom, expectedStep]⟩
      have : pendingFrom ops
          [Ev.io_submit slot (req_filled mk complete_cb data_cb st2.ctx slot) ret2] = ops := by
        have : ¬ 0 < ret2 := by omega
        simp [pendingFrom, pendingStep, this]
      rw [this]
      exact poolok_reject mk complete_cb data_cb st2 ops slot ret2 c3 hok hne hpool hput

/-- The two ways a call of `io_ctx_cancel` returns. -/
theorem cancel_cases (key : Int) (os : List OsResp) (st : State) (r : Int) (st1 : State)
    (os1 : List OsResp) (h : io_ctx_cancel key os st = some (r, st1, os1)) :
    ∃ res event, os = OsResp.io_cancel res event :: os1 ∧
      ((res ≠ 0 ∧ r = res ∧
          st1 = { ctx := st.ctx, trace := st.trace ++ [Ev.io_cancel key res event] }) ∨
       (res = 0 ∧ r = 0 ∧ 0 ≤ key ∧ ∃ r0 c, st.ctx.requests[key.toNat]? = some r0 ∧
          io_ctx_put_req st.ctx key.toNat = some c ∧
          st1 = { ctx := c, trace := st.trace ++ [Ev.io_cancel key 0 event,
                    Ev.complete_cb r0.complete_cb event.res r0.data_cb] })) := by
  cases os with
  | nil => simp [io_ctx_cancel] at h
  | cons y os =>
    cases y with
    | io_cancel res event =>
      simp only [io_ctx_cancel, State.emit] at h
      by_cases hres : res = 0
      · simp only [hres, if_true] at h
        by_cases hk : 0 ≤ key
        · simp only [hk, if_true] at h
          cases hr : st.ctx.requests[key.toNat]? with
          | none => simp [hr] at h
          | some r0 =>
            simp only [hr] at h
            cases hp : io_ctx_put_req st.ctx key.toNat with
            | none => simp [hp] at h
            | some c =>
              simp only [hp, Option.some.injEq, Prod.mk.injEq] at h
              obtain ⟨h1, h2, h3⟩ := h
              subst h1 h2 h3 hres
              exact ⟨0, event, rfl, Or.inr ⟨rfl, rfl, hk, r0, c, rfl, rfl, by simp⟩⟩
        · simp [hk] at h
      · simp only [hres, if_false, Option.some.injEq, Prod.mk.injEq] at h
        obtain ⟨h1, h2, h3⟩ := h
        subst h1 h2 h3
        exact ⟨res, event, rfl, Or.inl ⟨hres, rfl, rfl⟩⟩
    | _ => simp [io_ctx_cancel] at h

theorem cancel_preserves (key : Int) (os : List OsResp) (st : State) (ret : Int) (st1 : State)
    (os1 : List OsResp) (h : io_ctx_cancel key os st = some (ret, st1, os1)) :
    ∃ seg, st1.trace = st.trace ++ seg ∧ Preserves st.ctx st1.ctx seg := by
  obtain ⟨res, event, _, hcase⟩ := cancel_cases key os st ret st1 os1 h
  rcases hcase with ⟨hres, _, hst⟩ | ⟨_, _, hk, r0, c, hr, hp, hst⟩
  · subst hst
    refine ⟨[Ev.io_cancel key res event], rfl, ?_⟩
    exact preserves_neutral _ _ rfl
      (by intro ops; simp [pendingStep, hres])
      (by intro ops; simp [expectedStep, hres])
  · subst hst
    refine ⟨[Ev.io_cancel key 0 event, Ev.complete_cb r0.complete_cb event.res r0.data_cb],
      rfl, ?_⟩
    intro ops henv hok
    have hmem : key.toNat ∈ ops.map PendingOp.slot := henv.1.2
    obtain ⟨c1, k1, k2, _⟩ := poolok_put st.ctx ops key.toNat hok hmem
    rw [k1] at hp
    simp only [Option.some.injEq] at hp
    subst hp
    obtain ⟨p, hfind, hpin, hps⟩ := find_pending ops key.toNat hmem
    obtain ⟨r, hreq, hcb, hdata⟩ := hok.stored p hpin
    rw [hps, hr] at hreq
    simp only [Option.some.injEq] at hreq
    subst hreq
    refine ⟨?_, ?_⟩
    · have : pendingFrom ops [Ev.io_cancel key 0 event,
          Ev.complete_cb r0.complete_cb event.res r0.data_cb]
          = removeSlot key.toNat ops := by
        simp [pendingFrom, pendingStep]
      rw [this]; exact k2
    · simp [callbacksOf, List.filter_cons, isCallback, expectedFrom, expectedStep,
        expectedFor, hfind, hcb, hdata]

theorem call_preserves (c : Call) (os : List OsResp) (st : State) (ret : Int) (st1 : State)
    (os1 : List OsResp) (h : c.exec os st = some (ret, st1, os1)) :
    ∃ seg, st1.trace = st.trace ++ seg ∧ Preserves st.ctx st1.ctx seg := by
  cases c with
  | submit op complete_cb data_cb =>
    simp only [Call.exec, exec_eq_submit] at h
    exact submit_preserves _ _ _ _ _ _ _ _ h
  | process => exact process_preserves _ _ _ _ _ h
  | cancel key => exact cancel_preserves _ _ _ _ _ _ h

theorem run_preserves (calls : List Call) (os : List OsResp) (st : State) (st1 : State)
    (os1 : List OsResp) (h : run calls os st = some (st1, os1)) :
    ∃ seg, st1.trace = st.trace ++ seg ∧ Preserves st.ctx st1.ctx seg := by
  induction calls generalizing os st with
  | nil =>
    simp only [run, Option.some.injEq, Prod.mk.injEq] at h
    obtain ⟨h1, _⟩ := h
    subst h1
    exact ⟨[], by simp, preserves_nil _⟩
  | cons c cs ih =>
    simp only [run] at h
    cases hc : c.exec os st with
    | none => simp [hc] at h
    | some x =>
      obtain ⟨r, sta, osa⟩ := x
      simp only [hc] at h
      obtain ⟨seg, j1, j2⟩ := call_preserves _ _ _ _ _ _ hc
      obtain ⟨seg2, i1, i2⟩ := ih _ _ h
      exact ⟨seg ++ seg2, by rw [i1, j1]; simp, preserves_trans _ _ _ _ _ j2 i2⟩

/-! ## Reachable states -/

/-- A context just created agrees with the empty set of outstanding
operations, and its trace holds no callback and no operation. -/
theorem create_good (capacity : Int) (wait_cb : Nat) (os0 : List OsResp) (st0 : State)
    (os1 : List OsResp) (hcap : 0 ≤ capacity)
    (h : io_ctx_create capacity wait_cb os0 = some (0, st0, os1)) :
    PoolOk st0.ctx [] ∧ pending st0.trace = [] ∧ EnvOk st0.trace ∧
    callbacksOf st0.trace = [] ∧ expectedFrom [] st0.trace = [] ∧ acceptedOf st0.trace = [] := by
  cases os0 with
  | nil => simp [io_ctx_create] at h
  | cons x os =>
    cases x with
    | eventfd fd errno =>
      simp only [io_ctx_create] at h
      split at h
      · simp only [Option.some.injEq, Prod.mk.injEq] at h
        obtain ⟨_, h2, _⟩ := h
        subst h2
        refine ⟨⟨⟨rfl, rfl, le_refl _, le_refl _, ?_, ?_⟩, ?_, ?_, ?_, ?_, rfl, ?_⟩,
          rfl, ⟨trivial, trivial⟩, rfl, rfl, rfl⟩
        all_goals simp [free_list, io_ctx_zero]
      · cases os with
        | nil => simp at h
        | cons y os =>
          cases y with
          | io_setup res ctx =>
            simp only at h
            split at h
            · simp only [Option.some.injEq, Prod.mk.injEq] at h
              omega
            · simp only [Option.some.injEq, Prod.mk.injEq] at h
              obtain ⟨_, h2, _⟩ := h
              subst h2
              have hfl : free_list
                  { ctx := ctx, capacity := capacity, event_fd := fd, wait_cb := wait_cb,
                    req_cnt := 0, requests := List.replicate capacity.toNat io_req_zero,
                    req_pool := List.range capacity.toNat, active := 0 }
                  = List.range capacity.toNat := by
                simp [free_list]
              refine ⟨⟨⟨by simp, by simp, le_refl _, hcap, ?_, ?_⟩, ?_, ?_, ?_, ?_, rfl, ?_⟩,
                rfl, ⟨trivial, trivial, trivial⟩, rfl, rfl, rfl⟩
              · rw [hfl]; exact List.nodup_range _
              · rw [hfl]; intro s hs; exact List.mem_range.mp hs
              · simp
              · simp
              · simp
              · rw [hfl]; intro s hs; exact Or.inl (List.mem_range.mpr hs)
              · simp
          | _ => simp at h
    | _ => simp [io_ctx_create] at h

/-- Every state reached from a successful `io_ctx_create` by submit, process
and cancel calls, under the environment assumption, has its pool in agreement
with the outstanding operations, and the callbacks invoked so far are exactly
the callbacks called for. -/
theorem reachable_good (capacity : Int) (wait_cb : Nat) (os0 : List OsResp) (st0 : State)
    (os1 : List OsResp) (calls : List Call) (st : State) (os2 : List OsResp)
    (hcap : 0 ≤ capacity)
    (hcreate : io_ctx_create capacity wait_cb os0 = some (0, st0, os1))
    (hrun : run calls os1 st0 = some (st, os2)) (henv : EnvOk st.trace) :
    PoolOk st.ctx (pending st.trace) ∧ callbacksOf st.trace = expectedFrom [] st.trace := by
  obtain ⟨c1, c2, c3, c4, c5, _⟩ := create_good _ _ _ _ _ hcap hcreate
  obtain ⟨seg, j1, j2⟩ := run_preserves _ _ _ _ _ hrun
  unfold EnvOk at henv
  rw [j1, EnvOkFrom_append] at henv
  have hp0 : pendingFrom [] st0.trace = [] := c2
  rw [hp0] at henv
  obtain ⟨p1, p2⟩ := j2 [] henv.2 c1
  refine ⟨?_, ?_⟩
  · unfold pending
    rw [j1, pendingFrom_append, hp0]
    exact p1
  · rw [j1, callbacksOf_append, expectedFrom_append, hp0, c4, c5, p2]

/-- C1 (pool invariant): in every state reached from a successful
`io_ctx_create(capacity)` by any sequence of submit, `io_ctx_process` and
`io_ctx_cancel` calls, where `io_getevents` only delivers completions of
outstanding operations and `io_ctx_cancel` is only called with the key of an
outstanding operation, `0 ≤ active ≤ capacity`, the available requests
`req_pool[0 .. capacity - active)` are exactly the slots on which no operation
is outstanding, each exactly once, `active` is the number of outstanding
operations, and `active` plus the number of available requests is `capacity`. -/
theorem pool_invariant (capacity : Int) (wait_cb : Nat) (os0 : List OsResp) (st0 : State)
    (os1 : List OsResp) (calls : List Call) (st : State) (os2 : List OsResp)
    (hcap : 0 ≤ capacity)
    (hcreate : io_ctx_create capacity wait_cb os0 = some (0, st0, os1))
    (hrun : run calls os1 st0 = some (st, os2)) (henv : EnvOk st.trace) :
    0 ≤ st.ctx.active ∧ st.ctx.active ≤ st.ctx.capacity ∧
    (free_list st.ctx).Nodup ∧
    (∀ s, s ∈ free_list st.ctx ↔ (s < st.ctx.capacity.toNat ∧ s ∉ outstanding st.trace)) ∧
    st.ctx.active = (outstanding st.trace).length ∧
    st.ctx.active + (free_list st.ctx).length = st.ctx.capacity := by
  obtain ⟨hok, _⟩ := reachable_good _ _ _ _ _ _ _ _ hcap hcreate hrun henv
  refine ⟨hok.shape.active_nonneg, hok.shape.active_le, hok.shape.free_nodup, ?_, ?_, ?_⟩
  · intro s
    constructor
    · intro hs
      exact ⟨hok.shape.free_lt s hs, hok.free_not_pending s hs⟩
    · rintro ⟨h1, h2⟩
      rcases hok.cover s h1 with h3 | h3
      · exact h3
      · exact absurd h3 h2
  · simp only [outstanding, List.length_map]
    exact hok.active_eq
  · have h1 := hok.shape.pool_len
    have h2 := hok.shape.active_nonneg
    have h3 := hok.shape.active_le
    unfold free_list
    rw [List.length_take, h1]
    omega

/-- Witness of `pool_invariant`: the session `demo_session_calls` on a context
of capacity 2. -/
theorem pool_invariant_witness :
    (0 : Int) ≤ 2 ∧
    io_ctx_create 2 1 (demo_create_script ++ demo_session_script)
      = some (0, demo_fresh, demo_session_script) ∧
    run demo_session_calls demo_session_script demo_fresh = some (demo_session_end, []) ∧
    EnvOk demo_session_end.trace ∧
    (0 ≤ demo_session_end.ctx.active ∧
      demo_session_end.ctx.active ≤ demo_session_end.ctx.capacity ∧
      (free_list demo_session_end.ctx).Nodup ∧
      (∀ s, s ∈ free_list demo_session_end.ctx ↔
        (s < demo_session_end.ctx.capacity.toNat ∧ s ∉ outstanding demo_session_end.trace)) ∧
      demo_session_end.ctx.active = (outstanding demo_session_end.trace).length ∧
      demo_session_end.ctx.active + (free_list demo_session_end.ctx).length
        = demo_session_end.ctx.capacity) :=
  ⟨by decide, by decide, by decide, by decide,
   pool_invariant 2 1 (demo_create_script ++ demo_session_script) demo_fresh
     demo_session_script demo_session_calls demo_session_end [] (by decide) (by decide)
     (by decide) (by decide)⟩

/-! ## Exactly-once accounting of callbacks -/

theorem countP_find_eraseP (f : PendingOp → Bool) (q : PendingOp → Bool)
    (ops : List PendingOp) (p : PendingOp) (h : ops.find? q = some p) :
    ops.countP f = (if f p then 1 else 0) + (ops.eraseP q).countP f := by
  induction ops with
  | nil => simp at h
  | cons a ops ih =>
    by_cases hq : q a = true
    · simp only [List.find?_cons, hq, Option.some.injEq] at h
      subst h
      rw [List.eraseP_cons_of_pos hq, List.countP_cons]
      omega
    · have hq2 : q a = false := by simpa using hq
      simp only [List.find?_cons, hq2] at h
      rw [List.eraseP_cons_of_neg hq, List.countP_cons, List.countP_cons, ih h]
      omega

theorem expectedFor_count (cb d : Nat) (evs : List io_event) (ops : List PendingOp)
    (h : reportOk evs ops) :
    (expectedFor evs ops).countP (isCallbackOf cb d) + (reportAll evs ops).countP (isOpOf cb d)
      = ops.countP (isOpOf cb d) := by
  induction evs generalizing ops with
  | nil => simp [expectedFor, reportAll]
  | cons e evs ih =>
    obtain ⟨hmem, hrest⟩ := h
    obtain ⟨p, hfind, _, _⟩ := find_pending ops e.data hmem
    have hc := countP_find_eraseP (isOpOf cb d) _ ops p hfind
    have hi := ih _ hrest
    simp only [expectedFor, hfind, reportAll, List.countP_cons]
    unfold removeSlot at hi ⊢
    rw [hc, ← hi]
    have : isCallbackOf cb d (Ev.complete_cb p.complete_cb e.res p.data_cb) = isOpOf cb d p := rfl
    rw [this]
    omega

/-- Accounting along a trace: the callbacks called for, plus the operations
still outstanding, are the operations outstanding at the start plus the
operations accepted since. -/
theorem expectedFrom_count (cb d : Nat) (ops : List PendingOp) (tr : List Ev)
    (h : EnvOkFrom ops tr) :
    (expectedFrom ops tr).countP (isCallbackOf cb d) + (pendingFrom ops tr).countP (isOpOf cb d)
      = ops.countP (isOpOf cb d) + (acceptedOf tr).countP (isOpOf cb d) := by
  induction tr generalizing ops with
  | nil => simp [expectedFrom, pendingFrom, acceptedOf]
  | cons e tr ih =>
    obtain ⟨hev, hrest⟩ := h
    have hi := ih _ hrest
    rw [pendingFrom_cons]
    simp only [expectedFrom, List.countP_append]
    cases e with
    | io_submit slot req ret =>
      simp only [expectedStep, acceptedOf, pendingStep] at hi ⊢
      split
      · rename_i hpos
        simp only [hpos, if_true, List.countP_cons] at hi ⊢
        simp only [List.countP_nil] 
        omega
      · rename_i hpos
        simp only [hpos, if_false] at hi ⊢
        simp only [List.countP_nil]
        omega
    | io_getevents nr ret events =>
      have hc := expectedFor_count cb d (delivered ret events) ops hev
      simp only [expectedStep, acceptedOf, pendingStep] at hi ⊢
      omega
    | io_cancel slot ret event =>
      simp only [expectedStep, acceptedOf, pendingStep] at hi ⊢
      by_cases hret : ret = 0
      · have hc := expectedFor_count cb d [{ data := slot.toNat, res := event.res }] ops
          ⟨hev.2, trivial⟩
        simp only [reportAll] at hc
        simp only [hret, if_true] at hi ⊢
        omega
      · simp only [hret, if_false, List.countP_nil] at hi ⊢
        omega
    | _ =>
      simp only [expectedStep, acceptedOf, pendingStep, List.countP_nil] at hi ⊢
      omega

/-- C2 (exactly-once callback): in every state reached from a successful
`io_ctx_create` by submit, `io_ctx_process` and `io_ctx_cancel` calls, where
the OS reports an accepted operation as finished at most once (as one event of
`io_getevents` or as one confirmed `io_cancel`) and only while it is
outstanding, the callback invocations made so far are exactly, and in order,
one per report: the callback and callback data stored for the reported
operation at submission, with the result of the report.  In numbers: for every
callback `cb` and data `d`, the invocations of `cb` with `d` plus the
operations submitted with `(cb, d)` that are still outstanding (not reported,
callback not invoked) are the operations accepted with `(cb, d)`. -/
theorem callbacks_exactly_once (capacity : Int) (wait_cb : Nat) (os0 : List OsResp)
    (st0 : State) (os1 : List OsResp) (calls : List Call) (st : State) (os2 : List OsResp)
    (hcap : 0 ≤ capacity)
    (hcreate : io_ctx_create capacity wait_cb os0 = some (0, st0, os1))
    (hrun : run calls os1 st0 = some (st, os2)) (henv : EnvOk st.trace) :
    callbacksOf st.trace = expectedFrom [] st.trace ∧
    ∀ cb d, (callbacksOf st.trace).countP (isCallbackOf cb d)
        + (pending st.trace).countP (isOpOf cb d)
      = (acceptedOf st.trace).countP (isOpOf cb d) := by
  obtain ⟨_, hcb⟩ := reachable_good _ _ _ _ _ _ _ _ hcap hcreate hrun henv
  refine ⟨hcb, ?_⟩
  intro cb d
  have := expectedFrom_count cb d [] st.trace henv
  rw [hcb]
  simpa [pending] using this

/-- Witness of `callbacks_exactly_once`: the session `demo_session_calls`. -/
theorem callbacks_exactly_once_witness :
    (0 : Int) ≤ 2 ∧
    io_ctx_create 2 1 (demo_create_script ++ demo_session_script)
      = some (0, demo_fresh, demo_session_script) ∧
    run demo_session_calls demo_session_script demo_fresh = some (demo_session_end, []) ∧
    EnvOk demo_session_end.trace ∧
    (callbacksOf demo_session_end.trace = expectedFrom [] demo_session_end.trace ∧
     ∀ cb d, (callbacksOf demo_session_end.trace).countP (isCallbackOf cb d)
        + (pending demo_session_end.trace).countP (isOpOf cb d)
      = (acceptedOf demo_session_end.trace).countP (isOpOf cb d)) :=
  ⟨by decide, by decide, by decide, by decide,
   callbacks_exactly_once 2 1 (demo_create_script ++ demo_session_script) demo_fresh
     demo_session_script demo_session_calls demo_session_end [] (by decide) (by decide)
     (by decide) (by decide)⟩

/-! ## Draining makes no submission -/

theorem callbacks_not_submit (cbs : List Ev) (h : callbacksOf cbs = cbs) :
    ∀ e ∈ cbs, isSubmit e = false := by
  intro e he
  rw [← h] at he
  simp only [callbacksOf, List.mem_filter] at he
  have h2 := he.2
  cases e <;> first | rfl | (simp [isCallback] at h2)

theorem process_loop_no_submit (finished : Nat) (os : List OsResp) (completed : Nat)
    (st : State) (r : Int) (st1 : State) (os1 : List OsResp)
    (h : io_ctx_process_loop finished os completed st = some (r, st1, os1)) :
    ∃ seg, st1.trace = st.trace ++ seg ∧ ∀ e ∈ seg, isSubmit e = false := by
  induction os generalizing completed st with
  | nil =>
    simp only [io_ctx_process_loop] at h
    split at h
    · simp at h
    · simp only [Option.some.injEq, Prod.mk.injEq] at h
      obtain ⟨_, h2, _⟩ := h
      subst h2
      exact ⟨[], by simp, by simp⟩
  | cons x os ih =>
    simp only [io_ctx_process_loop] at h
    split at h
    · cases x with
      | io_getevents processed events =>
        simp only at h
        split at h
        · simp only [Option.some.injEq, Prod.mk.injEq] at h
          obtain ⟨_, h2, _⟩ := h
          subst h2
          exact ⟨[Ev.io_getevents (fetch_count finished completed) processed events],
            by simp [State.emit], by simp [isSubmit]⟩
        · split at h
          · simp at h
          · cases hd : io_ctx_process_dispatch (List.take processed.toNat events)
                (st.emit (Ev.io_getevents (fetch_count finished completed) processed events)) with
            | none => simp [hd] at h
            | some st2 =>
              simp only [hd] at h
              obtain ⟨seg, j1, j2⟩ := ih _ _ h
              obtain ⟨_, _, _, _, _, cbs, d6, _, d8, _⟩ := dispatch_spec _ _ _ hd
              refine ⟨Ev.io_getevents (fetch_count finished completed) processed events ::
                (cbs ++ seg), by rw [j1, d6]; simp [State.emit], ?_⟩
              intro e he
              rcases List.mem_cons.mp he with he | he
              · subst he; rfl
              · rcases List.mem_append.mp he with he | he
                · exact callbacks_not_submit cbs d8 e he
                · exact j2 e he
      | _ => simp at h
    · simp only [Option.some.injEq, Prod.mk.injEq] at h
      obtain ⟨_, h2, _⟩ := h
      subst h2
      exact ⟨[], by simp, by simp⟩

theorem process_no_submit (os : List OsResp) (st : State) (r : Int) (st1 : State)
    (os1 : List OsResp) (h : io_ctx_process os st = some (r, st1, os1)) :
    ∃ seg, st1.trace = st.trace ++ seg ∧ seg ≠ [] ∧ ∀ e ∈ seg, isSubmit e = false := by
  cases os with
  | nil => simp [io_ctx_process] at h
  | cons x os =>
    cases x with
    | wait_cb w =>
      simp only [io_ctx_process] at h
      split at h
      · simp only [Option.some.injEq, Prod.mk.injEq] at h
        obtain ⟨_, h2, _⟩ := h
        subst h2
        exact ⟨[Ev.wait_cb st.ctx.event_fd w], by simp [State.emit], by simp, by simp [isSubmit]⟩
      · cases os with
        | nil => simp at h
        | cons y os =>
          cases y with
          | read ret errno v =>
            simp only at h
            split at h
            · simp only [Option.some.injEq, Prod.mk.injEq] at h
              obtain ⟨_, h2, _⟩ := h
              subst h2
              exact ⟨[Ev.wait_cb st.ctx.event_fd w, Ev.read st.ctx.event_fd ret errno v],
                by simp [State.emit], by simp, by simp [isSubmit]⟩
            · obtain ⟨seg, j1, j2⟩ := process_loop_no_submit _ _ _ _ _ _ _ h
              refine ⟨Ev.wait_cb st.ctx.event_fd w :: Ev.read st.ctx.event_fd ret errno v :: seg,
                by rw [j1]; simp [State.emit], by simp, ?_⟩
              intro e he
              rcases List.mem_cons.mp he with he | he
              · subst he; rfl
              · rcases List.mem_cons.mp he with he | he
                · subst he; rfl
                · exact j2 e he
          | _ => simp at h
    | _ => simp [io_ctx_process] at h

theorem drains_no_submit (os : List OsResp) (st : State) (os2 : List OsResp) (st2 : State)
    (h : Drains os st os2 st2) :
    ∃ seg, st2.trace = st.trace ++ seg ∧ ∀ e ∈ seg, isSubmit e = false := by
  induction h with
  | done os st => exact ⟨[], by simp, by simp⟩
  | step os os1 os2 st st1 st2 r _ hp _ _ ih =>
    obtain ⟨seg, j1, _, j2⟩ := process_no_submit _ _ _ _ _ hp
    obtain ⟨seg2, i1, i2⟩ := ih
    refine ⟨seg ++ seg2, by rw [i1, j1]; simp, ?_⟩
    intro e he
    rcases List.mem_append.mp he with he | he
    · exact j2 e he
    · exact i2 e he

theorem acceptedOf_no_submit (seg : List Ev) (h : ∀ e ∈ seg, isSubmit e = false) :
    acceptedOf seg = [] := by
  induction seg with
  | nil => rfl
  | cons e seg ih =>
    have he := h e (List.mem_cons_self _ _)
    have := ih (fun x hx => h x (List.mem_cons_of_mem _ hx))
    cases e <;> first | (simp only [acceptedOf]; exact this) | (simp [isSubmit] at he)

/-- A batch of reports: every callback called for belongs to an operation that
was outstanding, and each report takes one operation out. -/
theorem expectedFor_of (evs : List io_event) (ops : List PendingOp) (h : reportOk evs ops) :
    (reportAll evs ops).length + (expectedFor evs ops).length = ops.length ∧
    (∀ e ∈ expectedFor evs ops, ∃ p ∈ ops, ∃ res,
      e = Ev.complete_cb p.complete_cb res p.data_cb) ∧
    (∀ p ∈ reportAll evs ops, p ∈ ops) := by
  induction evs generalizing ops with
  | nil => simp [reportAll, expectedFor]
  | cons ev evs ih =>
    obtain ⟨hmem, hrest⟩ := h
    obtain ⟨p, hfind, hp, _⟩ := find_pending ops ev.data hmem
    obtain ⟨i1, i2, i3⟩ := ih _ hrest
    have hl := removeSlot_length ev.data ops hmem
    refine ⟨?_, ?_, ?_⟩
    · simp only [reportAll, expectedFor, hfind, List.length_cons]
      omega
    · intro e he
      simp only [expectedFor, hfind] at he
      rcases List.mem_cons.mp he with he | he
      · exact ⟨p, hp, ev.res, he⟩
      · obtain ⟨q, hq, res, hres⟩ := i2 e he
        exact ⟨q, removeSlot_mem _ _ _ hq, res, hres⟩
    · intro q hq
      exact removeSlot_mem _ _ _ (i3 q hq)

/-- Along a trace without submissions: every callback called for belongs to an
operation outstanding at the start, and the outstanding operations shrink by
the number of callbacks called for. -/
theorem expectedFrom_of (ops : List PendingOp) (seg : List Ev) (henv : EnvOkFrom ops seg)
    (hns : ∀ e ∈ seg, isSubmit e = false) :
    (pendingFrom ops seg).length + (expectedFrom ops seg).length = ops.length ∧
    (∀ e ∈ expectedFrom ops seg, ∃ p ∈ ops, ∃ res,
      e = Ev.complete_cb p.complete_cb res p.data_cb) ∧
    (∀ p ∈ pendingFrom ops seg, p ∈ ops) := by
  induction seg generalizing ops with
  | nil => simp [pendingFrom, expectedFrom]
  | cons e seg ih =>
    obtain ⟨hev, hrest⟩ := henv
    have he := hns e (List.mem_cons_self _ _)
    obtain ⟨i1, i2, i3⟩ := ih _ hrest (fun x hx => hns x (List.mem_cons_of_mem _ hx))
    rw [pendingFrom_cons]
    simp only [expectedFrom, List.length_append, List.mem_append]
    cases e with
    | io_submit slot req ret => simp [isSubmit] at he
    | io_getevents nr ret events =>
      obtain ⟨k1, k2, k3⟩ := expectedFor_of (delivered ret events) ops hev
      simp only [pendingStep, expectedStep] at i1 i2 i3 ⊢
      refine ⟨by omega, ?_, fun p hp => k3 p (i3 p hp)⟩
      intro x hx
      rcases hx with hx | hx
      · exact k2 x hx
      · obtain ⟨q, hq, res, hres⟩ := i2 x hx
        exact ⟨q, k3 q hq, res, hres⟩
    | io_cancel slot ret event =>
      simp only [pendingStep, expectedStep] at i1 i2 i3 ⊢
      by_cases hret : ret = 0
      · obtain ⟨k1, k2, k3⟩ := expectedFor_of [{ data := slot.toNat, res := event.res }] ops
          ⟨hev.2, trivial⟩
        simp only [reportAll] at k1 k3
        simp only [hret, if_true] at i1 i2 i3 ⊢
        refine ⟨by omega, ?_, fun p hp => k3 p (i3 p hp)⟩
        intro x hx
        rcases hx with hx | hx
        · exact k2 x hx
        · obtain ⟨q, hq, res, hres⟩ := i2 x hx
          exact ⟨q, k3 q hq, res, hres⟩
      · simp only [hret, if_false, List.length_nil, List.not_mem_nil, false_or] at i1 i2 i3 ⊢
        exact ⟨by omega, i2, i3⟩
    | _ =>
      simp only [pendingStep, expectedStep, List.length_nil, List.not_mem_nil, false_or]
        at i1 i2 i3 ⊢
      exact ⟨by omega, i2, i3⟩

/-! ## The capacity-2 scenario -/

theorem create_success (capacity : Int) (wait_cb : Nat) (fd : Int) (errno : Nat) (res : Int)
    (ctx : Nat) (st0 : State)
    (h : io_ctx_create capacity wait_cb [OsResp.eventfd fd errno, OsResp.io_setup res ctx]
      = some (0, st0, [])) :
    st0.ctx.capacity = capacity ∧ st0.ctx.active = 0 := by
  simp only [io_ctx_create] at h
  split at h
  · simp at h
  · split at h
    · simp only [Option.some.injEq, Prod.mk.injEq] at h
      omega
    · simp only [Option.some.injEq, Prod.mk.injEq] at h
      obtain ⟨_, h2, _⟩ := h
      subst h2
      exact ⟨rfl, rfl⟩

/-- An accepted submission on a pool that is not empty, in a state whose pool
agrees with the outstanding operations of its trace. -/
theorem submit_accepted_good (op : SubmitOp) (complete_cb data_cb : Nat) (ret : Int)
    (os : List OsResp) (st : State) (hok : PoolOk st.ctx (pending st.trace))
    (hlt : st.ctx.active < st.ctx.capacity) (hret : 0 < ret) :
    ∃ (slot : Nat) (st1 : State),
      op.exec complete_cb data_cb (OsResp.io_submit ret :: os) st = some ((slot : Int), st1, os) ∧
      pending st1.trace
        = { slot := slot, complete_cb := complete_cb, data_cb := data_cb } :: pending st.trace ∧
      st1.ctx.active = st.ctx.active + 1 ∧ st1.ctx.capacity = st.ctx.capacity ∧
      PoolOk st1.ctx (pending st1.trace) := by
  obtain ⟨slot, h1, h2, h3⟩ :=
    submit_accepted op.descriptor complete_cb data_cb ret os st hok.shape hlt hret
  have hp : pending (st_submitted op.descriptor complete_cb data_cb st slot ret).trace
      = { slot := slot, complete_cb := complete_cb, data_cb := data_cb } :: pending st.trace := by
    simp [st_submitted, pending, pendingFrom, List.foldl_append, pendingStep, hret, req_filled]
  refine ⟨slot, st_submitted op.descriptor complete_cb data_cb st slot ret, ?_, hp, rfl, rfl, ?_⟩
  · rw [exec_eq_submit, h3]
    rfl
  · rw [hp]
    exact poolok_accept op.descriptor complete_cb data_cb st _ slot ret hok (by omega) h1

/-- C6, counterexample: capacity 2, writes A (callback 11, data 21) and B
(callback 12, data 22) accepted, so `active == 2`; the third write C, with one
finished operation (A) signalled, succeeds with key 1, and in the final state
the callback of B has not been invoked: B is still outstanding. -/
theorem third_write_leaves_one_pending :
    io_ctx_create 2 1 demo_create_script = some (0, demo_fresh, []) ∧
    run demo_calls_AB [OsResp.io_submit 1, OsResp.io_submit 1] demo_fresh
      = some (demo_full, []) ∧
    demo_full.ctx.active = 2 ∧
    (SubmitOp.write 5 300 10 1024).exec 13 23 demo_third_script demo_full
      = some (1, demo_third, []) ∧
    EnvOk demo_third.trace ∧
    pending demo_third.trace
      = [{ slot := 1, complete_cb := 13, data_cb := 23 },
         { slot := 0, complete_cb := 12, data_cb := 22 }] ∧
    callbacksOf demo_third.trace = [Ev.complete_cb 11 10 21] ∧
    (callbacksOf demo_third.trace).countP (isCallbackOf 12 22) = 0 := by
  decide

/-- C6, amended: capacity 2, two accepted submissions A and B (so
`active == 2`); every successful submission of a third operation C (the call
ends with `io_submit` accepting C) has first made a chain of `io_ctx_process`
calls in which the callback of at least one of A/B was invoked, before the
request of C was taken from the pool; in the final state C is outstanding on
the returned key. -/
theorem third_write_drains_first (wait_cb : Nat) (fd : Int) (errno : Nat) (res : Int)
    (ctx : Nat) (opA opB opC : SubmitOp) (cbA dA cbB dB cbC dC : Nat) (rA rB : Int)
    (st0 stB : State) (osC : List OsResp) (keyC : Int) (stC : State) (osEnd : List OsResp)
    (slot : Nat) (rq : io_req) (rC : Int)
    (hrA : 0 < rA) (hrB : 0 < rB)
    (hcreate : io_ctx_create 2 wait_cb [OsResp.eventfd fd errno, OsResp.io_setup res ctx]
      = some (0, st0, []))
    (hAB : run [Call.submit opA cbA dA, Call.submit opB cbB dB]
      [OsResp.io_submit rA, OsResp.io_submit rB] st0 = some (stB, []))
    (hC : opC.exec cbC dC osC stB = some (keyC, stC, osEnd))
    (hlast : stC.trace.getLast? = some (Ev.io_submit slot rq rC)) (hrC : 0 < rC)
    (henv : EnvOk stC.trace) :
    stB.ctx.active = 2 ∧
    ∃ os2 st2 segd, Drains osC stB os2 st2 ∧ st2.trace = stB.trace ++ segd ∧
      (∃ r, Ev.complete_cb cbA r dA ∈ segd ∨ Ev.complete_cb cbB r dB ∈ segd) ∧
      st2.ctx.active < st2.ctx.capacity ∧
      st2.ctx.req_pool[(st2.ctx.capacity - st2.ctx.active - 1).toNat]? = some slot ∧
      keyC = (slot : Int) ∧
      stC = st_submitted opC.descriptor cbC dC st2 slot rC ∧
      { slot := slot, complete_cb := cbC, data_cb := dC } ∈ pending stC.trace := by
  -- the state after A and B
  obtain ⟨hcap0, hact0⟩ := create_success _ _ _ _ _ _ _ hcreate
  obtain ⟨g1, g2, g3, _⟩ := create_good 2 wait_cb _ st0 [] (by decide) hcreate
  have hok0 : PoolOk st0.ctx (pending st0.trace) := by rw [g2]; exact g1
  obtain ⟨sA, stA, eA, pA, aA, cA, okA⟩ := submit_accepted_good opA cbA dA rA
    [OsResp.io_submit rB] st0 hok0 (by omega) hrA
  obtain ⟨sB, stB2, eB, pB, aB, cB, okB⟩ := submit_accepted_good opB cbB dB rB
    [] stA okA (by omega) hrB
  simp only [run, Call.exec, eA, eB, Option.some.injEq, Prod.mk.injEq, and_true] at hAB
  subst hAB
  have hactB : stB2.ctx.active = 2 := by omega
  have hcapB : stB2.ctx.capacity = 2 := by omega
  have hpB : pending stB2.trace = [{ slot := sB, complete_cb := cbB, data_cb := dB },
      { slot := sA, complete_cb := cbA, data_cb := dA }] := by
    rw [pB, pA, g2]
  refine ⟨hactB, ?_⟩
  -- the third submission
  rw [exec_eq_submit] at hC
  obtain ⟨os2, st2, hd, hcase⟩ := submit_spec _ _ _ _ _ _ _ _ hC
  obtain ⟨segd, d1, d2⟩ := drains_preserves _ _ _ _ hd
  obtain ⟨segd2, d3, d4⟩ := drains_no_submit _ _ _ _ hd
  have hseg : segd2 = segd := by
    rw [d1] at d3; exact (List.append_cancel_left d3).symm
  rw [hseg] at d4
  obtain ⟨f1, _, _, _⟩ := drains_frame _ _ _ _ hd
  have hcap2 : st2.ctx.capacity = 2 := by rw [f1]; exact hcapB
  rcases hcase with ⟨_, _, hp⟩ | ⟨hne, slot2, ret2, _, _, hpool, _, hacc⟩
  · exfalso
    obtain ⟨segp, q1, q2, q3⟩ := process_no_submit _ _ _ _ _ hp
    rw [q1, List.getLast?_append] at hlast
    cases hl : segp.getLast? with
    | none => exact q2 (List.getLast?_eq_none_iff.mp hl)
    | some e =>
      rw [hl] at hlast
      have hlast2 : some e = some (Ev.io_submit slot rq rC) := hlast
      simp only [Option.some.injEq] at hlast2
      have := q3 e (List.mem_of_getLast?_eq_some hl)
      rw [hlast2] at this
      simp [isSubmit] at this
  · have hslot : slot2 = slot ∧ ret2 = rC := by
      rcases hacc with ⟨_, _, hst⟩ | ⟨_, _, c3, _, hst⟩
      all_goals
        rw [hst] at hlast
        simp only [st_submitted, List.getLast?_concat, Option.some.injEq, Ev.io_submit.injEq]
          at hlast
        exact ⟨hlast.1, hlast.2.2⟩
    obtain ⟨hs1, hs2⟩ := hslot
    subst hs1 hs2
    rcases hacc with ⟨_, hkey, hst⟩ | ⟨hnp, _, _⟩
    · subst hst
      have htr : (st_submitted opC.descriptor cbC dC st2 slot2 ret2).trace
          = stB2.trace ++ (segd ++ [Ev.io_submit slot2
              (req_filled opC.descriptor cbC dC st2.ctx slot2) ret2]) := by
        simp [st_submitted, d1]
      unfold EnvOk at henv
      rw [htr, EnvOkFrom_append, EnvOkFrom_append] at henv
      obtain ⟨_, hes, _⟩ := henv
      obtain ⟨ok2, hcbs⟩ := d2 _ hes okB
      obtain ⟨x1, x2, _⟩ := expectedFrom_of _ segd hes d4
      have hact2 := ok2.active_eq
      have hle2 := ok2.shape.active_le
      have hlen : (pending stB2.trace).length = 2 := by rw [hpB]; rfl
      have hne0 : expectedFrom (pendingFrom [] stB2.trace) segd ≠ [] := by
        intro hnil
        rw [hnil] at x1
        simp only [List.length_nil, Nat.add_zero] at x1
        have : (pendingFrom [] stB2.trace).length = 2 := hlen
        omega
      obtain ⟨e, he⟩ := List.exists_mem_of_ne_nil _ hne0
      obtain ⟨p, hp, r, hr⟩ := x2 e he
      have hin : e ∈ segd := by
        rw [← hcbs] at he
        simp only [callbacksOf, List.mem_filter] at he
        exact he.1
      have hp2 : p ∈ pending stB2.trace := hp
      rw [hpB] at hp2
      refine ⟨os2, st2, segd, hd, d1, ⟨r, ?_⟩, by omega, hpool, hkey, rfl, ?_⟩
      · simp only [List.mem_cons, List.mem_singleton, List.not_mem_nil, or_false] at hp2
        rcases hp2 with hp2 | hp2
        · right; rw [hr, hp2] at hin; exact hin
        · left; rw [hr, hp2] at hin; exact hin
      · unfold pending
        rw [htr, pendingFrom_append, pendingFrom_append]
        simp [pendingFrom, pendingStep, hrC, req_filled]
    · omega

/-- Witness of `third_write_drains_first`: writes A, B and C on a context of
capacity 2, with one finished operation signalled before C is accepted. -/
theorem third_write_drains_first_witness :
    (0 : Int) < 1 ∧
    io_ctx_create 2 1 [OsResp.eventfd 3 0, OsResp.io_setup 0 1] = some (0, demo_fresh, []) ∧
    run [Call.submit (SubmitOp.write 5 100 10 0) 11 21,
         Call.submit (SubmitOp.write 5 200 10 512) 12 22]
      [OsResp.io_submit 1, OsResp.io_submit 1] demo_fresh = some (demo_full, []) ∧
    (SubmitOp.write 5 300 10 1024).exec 13 23 demo_third_script demo_full
      = some (1, demo_third, []) ∧
    demo_third.trace.getLast? = some (Ev.io_submit 1 demo_req_C 1) ∧
    EnvOk demo_third.trace ∧
    (demo_full.ctx.active = 2 ∧
      ∃ os2 st2 segd, Drains demo_third_script demo_full os2 st2 ∧
        st2.trace = demo_full.trace ++ segd ∧
        (∃ r, Ev.complete_cb 11 r 21 ∈ segd ∨ Ev.complete_cb 12 r 22 ∈ segd) ∧
        st2.ctx.active < st2.ctx.capacity ∧
        st2.ctx.req_pool[(st2.ctx.capacity - st2.ctx.active - 1).toNat]? = some 1 ∧
        (1 : Int) = ((1 : Nat) : Int) ∧
        demo_third = st_submitted (SubmitOp.write 5 300 10 1024).descriptor 13 23 st2 1 1 ∧
        { slot := 1, complete_cb := 13, data_cb := 23 } ∈ pending demo_third.trace) :=
  ⟨by decide, by decide, by decide, by decide, by decide, by decide,
   third_write_drains_first 1 3 0 0 1 (SubmitOp.write 5 100 10 0) (SubmitOp.write 5 200 10 512)
     (SubmitOp.write 5 300 10 1024) 11 21 12 22 13 23 1 1 demo_fresh demo_full
     demo_third_script 1 demo_third [] 1 demo_req_C 1
     (by decide) (by decide) (by decide) (by decide) (by decide) (by decide) (by decide)
     (by decide)⟩

/-! ## Reported operations are not reported again -/

theorem reportAll_slots (evs : List io_event) (ops : List PendingOp) (h : reportOk evs ops)
    (hnd : (ops.map PendingOp.slot).Nodup) :
    ((reportAll evs ops).map PendingOp.slot).Nodup ∧
    (∀ e ∈ evs, e.data ∈ ops.map PendingOp.slot) ∧
    (∀ e ∈ evs, e.data ∉ (reportAll evs ops).map PendingOp.slot) ∧
    (∀ s ∈ (reportAll evs ops).map PendingOp.slot, s ∈ ops.map PendingOp.slot) := by
  induction evs generalizing ops with
  | nil => simp [reportAll, hnd]
  | cons ev evs ih =>
    obtain ⟨hmem, hrest⟩ := h
    have hnd2 : ((removeSlot ev.data ops).map PendingOp.slot).Nodup := by
      rw [removeSlot_slots]; exact hnd.erase _
    have hsub : ∀ s ∈ (removeSlot ev.data ops).map PendingOp.slot, s ∈ ops.map PendingOp.slot := by
      intro s hs
      rw [removeSlot_slots] at hs
      exact List.mem_of_mem_erase hs
    obtain ⟨i1, i2, i3, i4⟩ := ih _ hrest hnd2
    refine ⟨i1, ?_, ?_, fun s hs => hsub s (i4 s hs)⟩
    · intro e he
      rcases List.mem_cons.mp he with he | he
      · subst he; exact hmem
      · exact hsub _ (i2 e he)
    · intro e he
      rcases List.mem_cons.mp he with he | he
      · subst he
        intro hin
        have := i4 _ hin
        rw [removeSlot_slots] at this
        exact (List.Nodup.not_mem_erase hnd) this
      · exact i3 e he

/-- Along a trace without submissions, under the environment assumption: the
delivered events are for operations outstanding at the start and are no longer
outstanding at the end. -/
theorem fetched_slots (ops : List PendingOp) (seg : List Ev) (henv : EnvOkFrom ops seg)
    (hns : ∀ e ∈ seg, isSubmit e = false) (hnd : (ops.map PendingOp.slot).Nodup) :
    ((pendingFrom ops seg).map PendingOp.slot).Nodup ∧
    (∀ e ∈ fetchedOf seg, e.data ∈ ops.map PendingOp.slot) ∧
    (∀ e ∈ fetchedOf seg, e.data ∉ (pendingFrom ops seg).map PendingOp.slot) ∧
    (∀ s ∈ (pendingFrom ops seg).map PendingOp.slot, s ∈ ops.map PendingOp.slot) := by
  induction seg generalizing ops with
  | nil => simp [pendingFrom, fetchedOf, hnd]
  | cons e seg ih =>
    obtain ⟨hev, hrest⟩ := henv
    have he := hns e (List.mem_cons_self _ _)
    have hns2 : ∀ x ∈ seg, isSubmit x = false := fun x hx => hns x (List.mem_cons_of_mem _ hx)
    rw [pendingFrom_cons]
    cases e with
    | io_submit slot req ret => simp [isSubmit] at he
    | io_getevents nr ret events =>
      obtain ⟨k1, k2, k3, k4⟩ := reportAll_slots (delivered ret events) ops hev hnd
      obtain ⟨i1, i2, i3, i4⟩ := ih (reportAll (delivered ret events) ops) hrest hns2 k1
      simp only [pendingStep, fetchedOf, List.mem_append]
      refine ⟨i1, ?_, ?_, fun s hs => k4 s (i4 s hs)⟩
      · intro x hx
        rcases hx with hx | hx
        · exact k2 x hx
        · exact k4 _ (i2 x hx)
      · intro x hx
        rcases hx with hx | hx
        · exact fun hin => k3 x hx (i4 _ hin)
        · exact i3 x hx
    | io_cancel slot ret event =>
      have hnd2 : ((pendingStep ops (Ev.io_cancel slot ret event)).map PendingOp.slot).Nodup := by
        simp only [pendingStep]
        split
        · rw [removeSlot_slots]; exact hnd.erase _
        · exact hnd
      have hsub : ∀ s ∈ (pendingStep ops (Ev.io_cancel slot ret event)).map PendingOp.slot,
          s ∈ ops.map PendingOp.slot := by
        intro s hs
        simp only [pendingStep] at hs
        split at hs
        · rw [removeSlot_slots] at hs; exact List.mem_of_mem_erase hs
        · exact hs
      obtain ⟨i1, i2, i3, i4⟩ := ih _ hrest hns2 hnd2
      simp only [fetchedOf]
      exact ⟨i1, fun x hx => hsub _ (i2 x hx), i3, fun s hs => hsub s (i4 s hs)⟩
    | _ =>
      obtain ⟨i1, i2, i3, i4⟩ := ih ops hrest hns2 hnd
      exact ⟨i1, i2, i3, i4⟩

/-- C9: when `io_getevents` returns a negative value after `k` operations were
dispatched in this call of `io_ctx_process` (`k` callbacks invoked), the call
returns `k` if `k > 0` and the negative code if `k == 0`; the `k` dispatched
operations had their callbacks invoked with the results of their events, and
their slots were returned to the pool (`active` decreased by `k`).  A
subsequent call of `io_ctx_process` dispatches only the events it fetches
itself, and when the context agreed with its outstanding operations and the
environment only reports outstanding operations, the dispatched operations are
no longer outstanding and none of the events of the subsequent call is for a
slot dispatched in the failed call.  (`req_pool` has at most `INT_MAX`
entries.) -/
theorem process_partial_on_fetch_failure (os : List OsResp) (st : State) (r : Int)
    (st1 : State) (os1 : List OsResp) (nr code : Int) (evs : List io_event)
    (hpool : st.ctx.req_pool.length ≤ 2147483647)
    (h : io_ctx_process os st = some (r, st1, os1))
    (hlast : st1.trace.getLast? = some (Ev.io_getevents nr code evs)) (hcode : code < 0) :
    ∃ seg, st1.trace = st.trace ++ seg ∧
      r = (if 0 < (callbacksOf seg).length then ((callbacksOf seg).length : Int) else code) ∧
      (callbacksOf seg).map some = (fetchedOf seg).map (callbackFor st.ctx.requests) ∧
      free_list st1.ctx = free_list st.ctx ++ (fetchedOf seg).map io_event.data ∧
      st1.ctx.active = st.ctx.active - (callbacksOf seg).length ∧
      ∀ (r2 : Int) (st2 : State) (os2 : List OsResp),
        io_ctx_process os1 st1 = some (r2, st2, os2) →
        ∃ seg2, st2.trace = st1.trace ++ seg2 ∧
          (callbacksOf seg2).map some = (fetchedOf seg2).map (callbackFor st1.ctx.requests) ∧
          (PoolOk st.ctx (pending st.trace) → EnvOk st2.trace →
            (∀ e ∈ fetchedOf seg, e.data ∉ outstanding st1.trace) ∧
            (∀ e ∈ fetchedOf seg2, e.data ∉ (fetchedOf seg).map io_event.data)) := by
  obtain ⟨seg, j1, j2, j3, j5, j6, j7, j8⟩ :=
    process_failed_fetch _ _ _ _ _ _ _ _ h hlast hcode
  obtain ⟨sega, a1, _, a3⟩ := process_no_submit _ _ _ _ _ h
  have hsa : sega = seg := by rw [j1] at a1; exact (List.append_cancel_left a1).symm
  rw [hsa] at a3
  have hcl : (callbacksOf seg).length = (fetchedOf seg).length := by
    have := congrArg List.length j7
    simpa using this
  have hlenF : (fetchedOf seg).length ≤ 2147483647 := by
    by_cases hF : fetchedOf seg = []
    · simp [hF]
    · have := (j5 hF).2
      omega
  have hmod : (fetchedOf seg).length % UINT64_MOD = (fetchedOf seg).length :=
    Nat.mod_eq_of_lt (by unfold UINT64_MOD; omega)
  have hto : toInt32 (((fetchedOf seg).length : Nat) : Int) = (fetchedOf seg).length :=
    toInt32_of_lt _ (by omega) (by omega)
  rw [hmod, hto] at j8
  refine ⟨seg, j1, ?_, j7, j6, ?_, ?_⟩
  · rw [hcl, j8]
  · rw [hcl]; exact j3
  · intro r2 st2 os2 h2
    obtain ⟨seg2, k1, _, _, _, _, _, k7, _⟩ := process_spec _ _ _ _ _ h2
    obtain ⟨segb, b1, _, b3⟩ := process_no_submit _ _ _ _ _ h2
    have hsb : segb = seg2 := by rw [k1] at b1; exact (List.append_cancel_left b1).symm
    rw [hsb] at b3
    refine ⟨seg2, k1, k7, ?_⟩
    intro hok henv
    unfold EnvOk at henv
    rw [k1, j1, EnvOkFrom_append, EnvOkFrom_append] at henv
    obtain ⟨⟨_, e1⟩, e2⟩ := henv
    obtain ⟨n1, _, f3, _⟩ := fetched_slots _ seg e1 a3 hok.pending_nodup
    rw [pendingFrom_append] at e2
    obtain ⟨_, g2, _, _⟩ := fetched_slots _ seg2 e2 b3 n1
    have hp1 : pending st1.trace = pendingFrom (pendingFrom [] st.trace) seg := by
      unfold pending; rw [j1, pendingFrom_append]
    refine ⟨?_, ?_⟩
    · intro e he
      unfold outstanding
      rw [hp1]
      exact f3 e he
    · intro e he hin
      obtain ⟨e0, he0, heq⟩ := List.mem_map.mp hin
      have := g2 e he
      rw [← heq] at this
      exact f3 e0 he0 this

/-- Witness of `process_partial_on_fetch_failure`: on `demo_full` one event
(A) is dispatched, the second fetch fails with -4 and the call returns 1; the
retry dispatches B only. -/
theorem process_partial_on_fetch_failure_witness :
    demo_full.ctx.req_pool.length ≤ 2147483647 ∧
    io_ctx_process (demo_partial_script ++ demo_retry_script) demo_full
      = some (1, demo_partial, demo_retry_script) ∧
    demo_partial.trace.getLast? = some (Ev.io_getevents 1 (-4) []) ∧ (-4 : Int) < 0 ∧
    io_ctx_process demo_retry_script demo_partial = some (1, demo_retried, []) ∧
    PoolOk demo_full.ctx (pending demo_full.trace) ∧
    EnvOk demo_retried.trace ∧
    ∃ seg, demo_partial.trace = demo_full.trace ++ seg ∧
      (1 : Int) = (if 0 < (callbacksOf seg).length then ((callbacksOf seg).length : Int)
                   else -4) ∧
      (callbacksOf seg).map some = (fetchedOf seg).map (callbackFor demo_full.ctx.requests) ∧
      free_list demo_partial.ctx = free_list demo_full.ctx ++ (fetchedOf seg).map io_event.data ∧
      demo_partial.ctx.active = demo_full.ctx.active - (callbacksOf seg).length ∧
      ∃ seg2, demo_retried.trace = demo_partial.trace ++ seg2 ∧
        (callbacksOf seg2).map some
          = (fetchedOf seg2).map (callbackFor demo_partial.ctx.requests) ∧
        (∀ e ∈ fetchedOf seg, e.data ∉ outstanding demo_partial.trace) ∧
        (∀ e ∈ fetchedOf seg2, e.data ∉ (fetchedOf seg).map io_event.data) :=
  ⟨by decide, by decide, by decide, by decide, by decide,
   ⟨⟨by decide, by decide, by decide, by decide, by decide, by decide⟩,
    by decide, by decide, by decide, by decide, by decide, by decide⟩,
   by decide,
   match process_partial_on_fetch_failure (demo_partial_script ++ demo_retry_script)
       demo_full 1 demo_partial demo_retry_script 1 (-4) []
       (by decide) (by decide) (by decide) (by decide) with
   | ⟨seg, a1, a2, a3, a4, a5, a6⟩ =>
     match a6 1 demo_retried [] (by decide) with
     | ⟨seg2, b1, b2, b3⟩ =>
       ⟨seg, a1, a2, a3, a4, a5, seg2, b1, b2,
        b3 ⟨⟨by decide, by decide, by decide, by decide, by decide, by decide⟩,
            by decide, by decide, by decide, by decide, by decide, by decide⟩ (by decide)⟩⟩

/-- C4: for each of the six submit operations, on a well-shaped context whose
pool is not empty (the state in which the slot is acquired).  (1) For every
outcome of `io_submit` in which the operation is not accepted, that is a
negative error number `ret` (`io_submit` of one descriptor returns 1 or a
negative error number), the submit call returns, the value returned is the
negative code `ret`, `active`, the pool and the available requests are what
they were before the slot was acquired, the slot taken is available again, the
only new trace entry is the `io_submit` call, so no callback is invoked, and no
operation has become outstanding.  (2) With `io_submit` returning a non-zero
value, a return value `≥ 0` is returned only when `io_submit` accepted the
operation, and it is the key of a slot that is now active: the slot was
available, is not available any more, is the slot of an outstanding operation,
and `active` has grown by one. -/
theorem submit_not_accepted (op : SubmitOp) (complete_cb data_cb : Nat) (os : List OsResp)
    (st : State) (hs : PoolShape st.ctx) (hlt : st.ctx.active < st.ctx.capacity) :
    (∀ ret : Int, ret < 0 →
      ∃ (slot : Nat) (st1 : State),
        op.exec complete_cb data_cb (OsResp.io_submit ret :: os) st = some (ret, st1, os) ∧
        st1.ctx.active = st.ctx.active ∧ st1.ctx.req_pool = st.ctx.req_pool ∧
        free_list st1.ctx = free_list st.ctx ∧ slot ∈ free_list st1.ctx ∧
        st1.ctx.capacity = st.ctx.capacity ∧
        (∃ r, st1.trace = st.trace ++ [Ev.io_submit slot r ret]) ∧
        callbacksOf st1.trace = callbacksOf st.trace ∧
        pending st1.trace = pending st.trace) ∧
    (∀ (ret r : Int) (st1 : State) (os1 : List OsResp), ret ≠ 0 →
      op.exec complete_cb data_cb (OsResp.io_submit ret :: os) st = some (r, st1, os1) →
      0 ≤ r →
      0 < ret ∧ ∃ slot : Nat, r = (slot : Int) ∧ slot ∈ free_list st.ctx ∧
        slot ∉ free_list st1.ctx ∧ slot ∈ outstanding st1.trace ∧
        st1.ctx.active = st.ctx.active + 1) := by
  have hrej : ∀ ret : Int, ret < 0 →
      ∃ (slot : Nat) (st1 : State),
        op.exec complete_cb data_cb (OsResp.io_submit ret :: os) st = some (ret, st1, os) ∧
        st1.ctx.active = st.ctx.active ∧ st1.ctx.req_pool = st.ctx.req_pool ∧
        free_list st1.ctx = free_list st.ctx ∧ slot ∈ free_list st1.ctx ∧
        st1.ctx.capacity = st.ctx.capacity ∧
        (∃ r, st1.trace = st.trace ++ [Ev.io_submit slot r ret]) ∧
        callbacksOf st1.trace = callbacksOf st.trace ∧
        pending st1.trace = pending st.trace := by
    intro ret hret
    obtain ⟨slot, st1, h1, h2, h3, h4, h5, h6, r, h7⟩ :=
      submit_rejected op.descriptor complete_cb data_cb ret os st hs hlt (by omega)
    have hnp : ¬ 0 < ret := by omega
    refine ⟨slot, st1, by rw [exec_eq_submit]; exact h1, h2, h3, h4, h5, h6, ⟨r, h7⟩, ?_, ?_⟩
    · rw [h7]
      simp [callbacksOf, List.filter_append, isCallback]
    · rw [h7]
      simp [pending, pendingFrom, List.foldl_append, pendingStep, hnp]
  refine ⟨hrej, ?_⟩
  intro ret r st1 os1 hne h hr
  by_cases hpos : 0 < ret
  · refine ⟨hpos, ?_⟩
    obtain ⟨slot, e1, e2, e3⟩ :=
      submit_accepted op.descriptor complete_cb data_cb ret os st hs hlt hpos
    obtain ⟨slot2, st2, f1, f2, _, _, f5, f6, f7, _⟩ :=
      submit_accepted_facts op.descriptor complete_cb data_cb ret os st hs hlt hpos
    rw [e1] at f2
    simp only [Option.some.injEq] at f2
    subst f2
    rw [exec_eq_submit] at h
    have hst : st1 = st2 := by
      rw [f1] at h
      simp only [Option.some.injEq, Prod.mk.injEq] at h
      exact h.2.1.symm
    have hr2 : r = (slot : Int) := by
      rw [f1] at h
      simp only [Option.some.injEq, Prod.mk.injEq] at h
      exact h.1.symm
    have htr : st1.trace = st.trace ++ [Ev.io_submit slot
        (req_filled op.descriptor complete_cb data_cb st.ctx slot) ret] := by
      rw [e3] at h
      simp only [Option.some.injEq, Prod.mk.injEq] at h
      rw [← h.2.1]
      rfl
    refine ⟨slot, hr2, f6, ?_, ?_, ?_⟩
    · rw [hst]; exact f7
    · rw [htr]
      simp [outstanding, pending, pendingFrom, List.foldl_append, pendingStep, hpos]
    · rw [hst]; exact f5
  · have hneg : ret < 0 := by omega
    obtain ⟨slot, st2, e1, _⟩ := hrej ret hneg
    rw [e1] at h
    simp only [Option.some.injEq, Prod.mk.injEq] at h
    omega

/-- Witness of `submit_not_accepted`: on the fresh context of capacity 2 a
write is rejected with `-EAGAIN`: the call returns -11, both slots are
available again and nothing is outstanding. -/
theorem submit_not_accepted_witness :
    PoolShape demo_fresh.ctx ∧ demo_fresh.ctx.active < demo_fresh.ctx.capacity ∧
    (-11 : Int) < 0 ∧
    ∃ (slot : Nat) (st1 : State),
      (SubmitOp.write 5 100 10 0).exec 11 21 (OsResp.io_submit (-11) :: []) demo_fresh
        = some (-11, st1, []) ∧
      st1.ctx.active = demo_fresh.ctx.active ∧ st1.ctx.req_pool = demo_fresh.ctx.req_pool ∧
      free_list st1.ctx = free_list demo_fresh.ctx ∧ slot ∈ free_list st1.ctx ∧
      st1.ctx.capacity = demo_fresh.ctx.capacity ∧
      (∃ r, st1.trace = demo_fresh.trace ++ [Ev.io_submit slot r (-11)]) ∧
      callbacksOf st1.trace = callbacksOf demo_fresh.trace ∧
      pending st1.trace = pending demo_fresh.trace :=
  ⟨⟨by decide, by decide, by decide, by decide, by decide, by decide⟩, by decide, by decide,
   (submit_not_accepted (SubmitOp.write 5 100 10 0) 11 21 [] demo_fresh
     ⟨by decide, by decide, by decide, by decide, by decide, by decide⟩ (by decide)).1 (-11)
     (by decide)⟩

/-! ## Cancellation -/

/-- C11: for every context that agrees with its outstanding operations and
every key of an outstanding operation `p`, when the OS confirms the
cancellation (`io_cancel` returns 0), `io_ctx_cancel` returns 0; it invokes
exactly one callback, the one stored in the slot (which is the callback of `p`),
with the result reported by the OS and the `data_cb` of the slot; `active`
decreases by exactly one, the slot is appended to the available requests (it is
on top of the pool), the slot storage is untouched, and the context agrees with
the remaining outstanding operations. -/
theorem cancel_confirmed (key : Int) (event : io_event) (os : List OsResp) (st : State)
    (ops : List PendingOp) (p : PendingOp) (hok : PoolOk st.ctx ops) (hp : p ∈ ops)
    (hkey : key = (p.slot : Int)) :
    ∃ st1, io_ctx_cancel key (OsResp.io_cancel 0 event :: os) st = some (0, st1, os) ∧
      st1.trace = st.trace ++
        [Ev.io_cancel p.slot 0 event, Ev.complete_cb p.complete_cb event.res p.data_cb] ∧
      (∃ r, st.ctx.requests[p.slot]? = some r ∧
        r.complete_cb = p.complete_cb ∧ r.data_cb = p.data_cb) ∧
      st1.ctx.active = st.ctx.active - 1 ∧
      free_list st1.ctx = free_list st.ctx ++ [p.slot] ∧
      (free_list st1.ctx).getLast? = some p.slot ∧
      st1.ctx.requests = st.ctx.requests ∧
      PoolOk st1.ctx (removeSlot p.slot ops) := by
  subst hkey
  have hmem : p.slot ∈ ops.map PendingOp.slot := List.mem_map_of_mem _ hp
  obtain ⟨r, hreq, hcb, hdata⟩ := hok.stored p hp
  obtain ⟨c1, hput, hok1, hrq⟩ := poolok_put st.ctx ops p.slot hok hmem
  obtain ⟨h0, h1, hc1⟩ := io_ctx_put_req_eq_some _ _ _ hput
  have hfl := free_list_put st.ctx p.slot h0 h1
  rw [← hc1] at hfl
  refine ⟨{ ctx := c1, trace := st.trace ++
      [Ev.io_cancel p.slot 0 event, Ev.complete_cb p.complete_cb event.res p.data_cb] },
    ?_, rfl, ⟨r, hreq, hcb, hdata⟩, ?_, hfl, ?_, hrq, hok1⟩
  · simp only [io_ctx_cancel, Int.toNat_ofNat, Int.ofNat_zero_le, if_true, hreq,
      State.emit, List.append_assoc, List.singleton_append, hcb, hdata]
    rw [hput]
  · rw [hc1]
  · show (free_list c1).getLast? = some p.slot
    rw [hfl, List.getLast?_concat]

/-- Witness of `cancel_confirmed`: cancelling B (slot 0, callback 12, data 22)
on `demo_full`. -/
theorem cancel_confirmed_witness :
    PoolOk demo_full.ctx (pending demo_full.trace) ∧
    ({ slot := 0, complete_cb := 12, data_cb := 22 } : PendingOp) ∈ pending demo_full.trace ∧
    (0 : Int) = ((0 : Nat) : Int) ∧
    ∃ st1, io_ctx_cancel 0 (OsResp.io_cancel 0 { data := 0, res := -125 } :: []) demo_full
        = some (0, st1, []) ∧
      st1.trace = demo_full.trace ++
        [Ev.io_cancel 0 0 { data := 0, res := -125 }, Ev.complete_cb 12 (-125) 22] ∧
      (∃ r, demo_full.ctx.requests[0]? = some r ∧ r.complete_cb = 12 ∧ r.data_cb = 22) ∧
      st1.ctx.active = demo_full.ctx.active - 1 ∧
      free_list st1.ctx = free_list demo_full.ctx ++ [0] ∧
      (free_list st1.ctx).getLast? = some 0 ∧
      st1.ctx.requests = demo_full.ctx.requests ∧
      PoolOk st1.ctx (removeSlot 0 (pending demo_full.trace)) :=
  ⟨⟨⟨by decide, by decide, by decide, by decide, by decide, by decide⟩,
    by decide, by decide, by decide, by decide, by decide, by decide⟩,
   by decide, by decide,
   cancel_confirmed 0 { data := 0, res := -125 } [] demo_full (pending demo_full.trace)
     { slot := 0, complete_cb := 12, data_cb := 22 }
     ⟨⟨by decide, by decide, by decide, by decide, by decide, by decide⟩,
      by decide, by decide, by decide, by decide, by decide, by decide⟩
     (by decide) (by decide)⟩

/-- C12: for every context and every key (inside the slot storage or not),
if the OS cannot cancel the operation, that is `io_cancel` returns a non-zero
value, which for `io_cancel` is a negative error number `res`, then
`io_ctx_cancel` returns, the value returned is the negative code `res`, no
callback is invoked (the trace grows by the `io_cancel` entry alone), and the
whole context is unchanged: `active`, the pool, the sequence counter and every
slot with its callback and data; the outstanding operations are the same, so
the slot remains active. -/
theorem cancel_refused (key res : Int) (event : io_event) (os : List OsResp) (st : State)
    (hres : res < 0) :
    ∃ (r : Int) (st1 : State),
      io_ctx_cancel key (OsResp.io_cancel res event :: os) st = some (r, st1, os) ∧
      r = res ∧ r < 0 ∧
      st1.ctx = st.ctx ∧
      st1.trace = st.trace ++ [Ev.io_cancel key res event] ∧
      callbacksOf st1.trace = callbacksOf st.trace ∧
      pending st1.trace = pending st.trace ∧
      outstanding st1.trace = outstanding st.trace ∧
      free_list st1.ctx = free_list st.ctx := by
  have hne : res ≠ 0 := by omega
  refine ⟨res, { ctx := st.ctx, trace := st.trace ++ [Ev.io_cancel key res event] },
    ?_, rfl, hres, rfl, rfl, ?_, ?_, ?_, rfl⟩
  · simp only [io_ctx_cancel, hne, if_false, State.emit]
  · simp [callbacksOf, List.filter_append, isCallback]
  · simp [pending, pendingFrom, List.foldl_append, pendingStep, hne]
  · simp [outstanding, pending, pendingFrom, List.foldl_append, pendingStep, hne]

/-- Witness of `cancel_refused`: on `demo_full`, `io_cancel` returns -11 for
key 0, and -22 for the key 7, which is outside the slot storage. -/
theorem cancel_refused_witness :
    ((-11 : Int) < 0 ∧ ∃ (r : Int) (st1 : State),
      io_ctx_cancel 0 (OsResp.io_cancel (-11) { data := 0, res := 0 } :: []) demo_full
        = some (r, st1, []) ∧
      r = -11 ∧ r < 0 ∧ st1.ctx = demo_full.ctx ∧
      st1.trace = demo_full.trace ++ [Ev.io_cancel 0 (-11) { data := 0, res := 0 }] ∧
      callbacksOf st1.trace = callbacksOf demo_full.trace ∧
      pending st1.trace = pending demo_full.trace ∧
      outstanding st1.trace = outstanding demo_full.trace ∧
      free_list st1.ctx = free_list demo_full.ctx) ∧
    io_ctx_cancel 7 [OsResp.io_cancel (-22) { data := 0, res := 0 }] demo_full
      = some (-22, { ctx := demo_full.ctx,
                     trace := demo_full.trace
                       ++ [Ev.io_cancel 7 (-22) { data := 0, res := 0 }] }, []) :=
  ⟨⟨by decide,
    cancel_refused 0 (-11) { data := 0, res := 0 } [] demo_full (by decide)⟩,
   by decide⟩

/-! ## Teardown -/

/-- C14: for every context with `active == 0`, `io_ctx_destroy` makes no
`io_ctx_process` call: no scripted response is consumed, the trace grows by the
release sequence alone (`io_destroy`, the two `free`, `close`), so `wait_cb` is
not called and no callback is invoked, and the call returns. -/
theorem destroy_idle (os : List OsResp) (st : State) (h : st.ctx.active = 0) :
    io_ctx_destroy os st =
      some ({ ctx := st.ctx,
              trace := st.trace ++ [Ev.io_destroy st.ctx.ctx, Ev.free_requests,
                Ev.free_req_pool, Ev.close st.ctx.event_fd] }, os) := by
  simp [io_ctx_destroy, io_ctx_destroy_wait, h]

/-- Witness of `destroy_idle`: the drained context `demo_drained`. -/
theorem destroy_idle_witness :
    demo_drained.ctx.active = 0 ∧
    io_ctx_destroy demo_drain_script demo_drained =
      some ({ ctx := demo_drained.ctx,
              trace := demo_drained.trace ++ [Ev.io_destroy demo_drained.ctx.ctx,
                Ev.free_requests, Ev.free_req_pool, Ev.close demo_drained.ctx.event_fd] },
            demo_drain_script) :=
  ⟨by decide, destroy_idle demo_drain_script demo_drained (by decide)⟩

theorem destroy_wait_spec (fuel : Nat) (os : List OsResp) (st : State) (st1 : State)
    (os1 : List OsResp) (h : io_ctx_destroy_wait fuel os st = some (st1, os1)) :
    ∃ os2 st2, Teardown os st os2 st2 ∧
      ((st2.ctx.active = 0 ∧ st1 = st2 ∧ os1 = os2) ∨
       (st2.ctx.active ≠ 0 ∧ ∃ r, r < 0 ∧ io_ctx_process os2 st2 = some (r, st1, os1))) := by
  induction fuel generalizing os st with
  | zero => simp [io_ctx_destroy_wait] at h
  | succ fuel ih =>
    simp only [io_ctx_destroy_wait] at h
    split at h
    · rename_i hact
      cases hp : io_ctx_process os st with
      | none => simp [hp] at h
      | some x =>
        obtain ⟨r, sta, osa⟩ := x
        simp only [hp] at h
        split at h
        · rename_i hr
          obtain ⟨os2, st2, hd, hres⟩ := ih _ _ h
          exact ⟨os2, st2, Teardown.step os osa os2 st sta st2 r hact hp (by omega) hd, hres⟩
        · rename_i hr
          simp only [Option.some.injEq, Prod.mk.injEq] at h
          obtain ⟨h1, h2⟩ := h
          subst h1 h2
          exact ⟨os, st, Teardown.done os st, Or.inr ⟨hact, r, by omega, hp⟩⟩
    · rename_i hact
      simp only [Option.some.injEq, Prod.mk.injEq] at h
      obtain ⟨h1, h2⟩ := h
      subst h1 h2
      exact ⟨os, st, Teardown.done os st, Or.inl ⟨by simpa using hact, rfl, rfl⟩⟩

theorem teardown_preserves (os : List OsResp) (st : State) (os2 : List OsResp) (st2 : State)
    (h : Teardown os st os2 st2) :
    ∃ seg, st2.trace = st.trace ++ seg ∧ Preserves st.ctx st2.ctx seg := by
  induction h with
  | done os st => exact ⟨[], by simp, preserves_nil _⟩
  | step os os1 os2 st st1 st2 r _ hp _ _ ih =>
    obtain ⟨seg, j1, j2⟩ := process_preserves _ _ _ _ _ hp
    obtain ⟨seg2, i1, i2⟩ := ih
    exact ⟨seg ++ seg2, by rw [i1, j1]; simp, preserves_trans _ _ _ _ _ j2 i2⟩

/-- C13, counterexample: on `demo_full` (two operations outstanding) the read
of the eventfd fails, `io_ctx_process` returns -9, the loop of
`io_ctx_destroy` ends and the resources are released while `active == 2` and
both operations are still outstanding. -/
theorem destroy_releases_with_outstanding :
    io_ctx_process demo_read_fail_script demo_full =
      some (-9, { ctx := demo_full.ctx,
                  trace := demo_full.trace ++ [Ev.wait_cb 3 0, Ev.read 3 (-1) 9 0] }, []) ∧
    io_ctx_destroy demo_read_fail_script demo_full = some (demo_torn, []) ∧
    demo_torn.trace = demo_full.trace ++
      [Ev.wait_cb 3 0, Ev.read 3 (-1) 9 0,
       Ev.io_destroy 1, Ev.free_requests, Ev.free_req_pool, Ev.close 3] ∧
    demo_torn.ctx.active = 2 ∧
    outstanding demo_torn.trace = [0, 1] := by
  decide

/-- C13, amended: `io_ctx_destroy` calls `io_ctx_process` repeatedly, each call
made while `active != 0` and after calls that returned non-negative values;
when it proceeds to the release sequence, either `active == 0` (and then, for
a context that agreed with its outstanding operations, under the environment
assumption, no operation is outstanding), or the last `io_ctx_process` call,
made with `active != 0`, returned a negative value. -/
theorem destroy_drains_then_releases (os : List OsResp) (st : State) (st1 : State)
    (os1 : List OsResp) (h : io_ctx_destroy os st = some (st1, os1)) :
    ∃ os2 st2, Teardown os st os2 st2 ∧
      ((st2.ctx.active = 0 ∧ st1 = st_released st2 ∧ os1 = os2 ∧
          (PoolOk st.ctx (pending st.trace) → EnvOk st1.trace → outstanding st1.trace = [])) ∨
       (st2.ctx.active ≠ 0 ∧ ∃ r st3, r < 0 ∧
          io_ctx_process os2 st2 = some (r, st3, os1) ∧ st1 = st_released st3)) := by
  unfold io_ctx_destroy at h
  cases hw : io_ctx_destroy_wait (os.length + 1) os st with
  | none => simp [hw] at h
  | some x =>
    obtain ⟨sta, osa⟩ := x
    simp only [hw, Option.some.injEq, Prod.mk.injEq] at h
    obtain ⟨h1, h2⟩ := h
    subst h1 h2
    obtain ⟨os2, st2, hd, hres⟩ := destroy_wait_spec _ _ _ _ _ hw
    refine ⟨os2, st2, hd, ?_⟩
    rcases hres with ⟨hz, hst, hos⟩ | ⟨hnz, r, hr, hp⟩
    · subst hst hos
      refine Or.inl ⟨hz, rfl, rfl, ?_⟩
      intro hok henv
      obtain ⟨seg, j1, j2⟩ := teardown_preserves _ _ _ _ hd
      unfold EnvOk at henv
      have htr : sta.trace ++ [Ev.io_destroy sta.ctx.ctx, Ev.free_requests, Ev.free_req_pool,
          Ev.close sta.ctx.event_fd] = st.trace ++ (seg ++ [Ev.io_destroy sta.ctx.ctx,
            Ev.free_requests, Ev.free_req_pool, Ev.close sta.ctx.event_fd]) := by
        rw [j1]; simp
      simp only at henv
      rw [htr, EnvOkFrom_append, EnvOkFrom_append] at henv
      obtain ⟨_, hes, _⟩ := henv
      obtain ⟨ok2, _⟩ := j2 _ hes hok
      have hlen := ok2.active_eq
      rw [hz] at hlen
      have hnil : pendingFrom (pending st.trace) seg = [] := by
        apply List.length_eq_zero.mp
        exact_mod_cast hlen.symm
      show (pending (sta.trace ++ [Ev.io_destroy sta.ctx.ctx, Ev.free_requests,
        Ev.free_req_pool, Ev.close sta.ctx.event_fd])).map PendingOp.slot = []
      unfold pending
      rw [htr, pendingFrom_append, pendingFrom_append]
      have : pendingFrom [] st.trace = pending st.trace := rfl
      rw [this, hnil]
      rfl
    · exact Or.inr ⟨hnz, r, _, hr, hp, rfl⟩

/-- Witness of `destroy_drains_then_releases`: both operations of `demo_full`
finish in one drain and the context is released with `active == 0`. -/
theorem destroy_drains_then_releases_witness :
    io_ctx_destroy demo_drain_script demo_full = some (demo_destroyed, []) ∧
    PoolOk demo_full.ctx (pending demo_full.trace) ∧ EnvOk demo_destroyed.trace ∧
    demo_destroyed.ctx.active = 0 ∧ outstanding demo_destroyed.trace = [] ∧
    ∃ os2 st2, Teardown demo_drain_script demo_full os2 st2 ∧
      ((st2.ctx.active = 0 ∧ demo_destroyed = st_released st2 ∧ [] = os2 ∧
          (PoolOk demo_full.ctx (pending demo_full.trace) → EnvOk demo_destroyed.trace →
            outstanding demo_destroyed.trace = [])) ∨
       (st2.ctx.active ≠ 0 ∧ ∃ r st3, r < 0 ∧
          io_ctx_process os2 st2 = some (r, st3, []) ∧ demo_destroyed = st_released st3)) :=
  ⟨by decide,
   ⟨⟨by decide, by decide, by decide, by decide, by decide, by decide⟩,
    by decide, by decide, by decide, by decide, by decide, by decide⟩,
   by decide, by decide, by decide,
   destroy_drains_then_releases demo_drain_script demo_full demo_destroyed [] (by decide)⟩

/-! ## Descriptors -/

/-- The descriptors of `io_ctx_write`, `io_ctx_read`, `io_ctx_fsync` and
`io_ctx_fdsync` are bound to the eventfd of the context and identify the slot. -/
theorem plain_descriptors_bound (c : io_ctx) (slot : Nat) (fd : Int) (data count : Nat)
    (offset : Int) :
    ((iocb_write fd data count offset c slot).flags = some 1 ∧
      (iocb_write fd data count offset c slot).resfd = some c.event_fd ∧
      (iocb_write fd data count offset c slot).data = slot) ∧
    ((iocb_read fd data count offset c slot).flags = some 1 ∧
      (iocb_read fd data count offset c slot).resfd = some c.event_fd ∧
      (iocb_read fd data count offset c slot).data = slot) ∧
    ((iocb_fsync fd c slot).flags = some 1 ∧ (iocb_fsync fd c slot).resfd = some c.event_fd ∧
      (iocb_fsync fd c slot).data = slot) ∧
    ((iocb_fdsync fd c slot).flags = some 1 ∧ (iocb_fdsync fd c slot).resfd = some c.event_fd ∧
      (iocb_fdsync fd c slot).data = slot) :=
  ⟨⟨rfl, rfl, rfl⟩, ⟨rfl, rfl, rfl⟩, ⟨rfl, rfl, rfl⟩, ⟨rfl, rfl, rfl⟩⟩

/-- C15, the code at the failing input: the descriptors built by
`io_ctx_writev` and `io_ctx_readv` identify the slot and carry the caller's
`vec`, `nr` and `offset`, but their union holds the vector member only: the
initialiser `.u.c = { .flags = 1, .resfd = event_fd }` is overridden by the
`.u.v = ...` that follows it, so the descriptor has no event-notification flag
and no `resfd`.  On the fresh context of capacity 2, the descriptor handed to
`io_submit` by `io_ctx_writev` is such a descriptor. -/
theorem vectored_descriptors_not_bound :
    (∀ (c : io_ctx) (slot : Nat) (fd : Int) (iov : Nat) (iovcnt offset : Int),
      ((iocb_writev fd iov iovcnt offset c slot).data = slot ∧
        (iocb_writev fd iov iovcnt offset c slot).vector
          = some { vec := iov, nr := iovcnt, offset := offset } ∧
        (iocb_writev fd iov iovcnt offset c slot).flags = none ∧
        (iocb_writev fd iov iovcnt offset c slot).resfd = none) ∧
      ((iocb_readv fd iov iovcnt offset c slot).data = slot ∧
        (iocb_readv fd iov iovcnt offset c slot).vector
          = some { vec := iov, nr := iovcnt, offset := offset } ∧
        (iocb_readv fd iov iovcnt offset c slot).flags = none ∧
        (iocb_readv fd iov iovcnt offset c slot).resfd = none)) ∧
    io_ctx_writev 5 700 2 64 11 21 [OsResp.io_submit 1] demo_fresh
      = some (1, demo_writev, []) ∧
    demo_writev.trace.getLast? =
      some (Ev.io_submit 1
        { iocb := { data := 1, key := 1, aio_lio_opcode := io_iocb_cmd.IO_CMD_PWRITEV,
                    aio_reqprio := 0, aio_fildes := 5,
                    u := iocb_u.v { vec := 700, nr := 2, offset := 64 } },
          complete_cb := 11, data_cb := 21 } 1) ∧
    demo_fresh.ctx.event_fd = 3 := by
  refine ⟨fun c slot fd iov iovcnt offset => ⟨⟨rfl, rfl, rfl, rfl⟩, ⟨rfl, rfl, rfl, rfl⟩⟩, ?_, ?_, ?_⟩
  · decide
  · decide
  · decide

/-- C16, the code at the failing input: `io_ctx_fdsync` is the same function
as `io_ctx_fsync`: same state transition, same descriptor in every field, the
opcode included, which is `IO_CMD_FSYNC` and not the distinct `IO_CMD_FDSYNC`.
On the fresh context of capacity 2 the descriptor handed to `io_submit` by
`io_ctx_fdsync` has the opcode `IO_CMD_FSYNC`. -/
theorem fdsync_uses_fsync_opcode :
    (∀ (fd : Int) (complete_cb data_cb : Nat) (os : List OsResp) (st : State),
      io_ctx_fdsync fd complete_cb data_cb os st = io_ctx_fsync fd complete_cb data_cb os st) ∧
    (∀ (fd : Int) (c : io_ctx) (slot : Nat),
      iocb_fdsync fd c slot = iocb_fsync fd c slot ∧
      (iocb_fdsync fd c slot).aio_lio_opcode = io_iocb_cmd.IO_CMD_FSYNC) ∧
    io_iocb_cmd.IO_CMD_FSYNC ≠ io_iocb_cmd.IO_CMD_FDSYNC ∧
    io_ctx_fdsync 5 11 21 [OsResp.io_submit 1] demo_fresh = some (1, demo_fdsync, []) ∧
    demo_fdsync.trace.getLast? =
      some (Ev.io_submit 1
        { iocb := { data := 1, key := 1, aio_lio_opcode := io_iocb_cmd.IO_CMD_FSYNC,
                    aio_reqprio := 0, aio_fildes := 5,
                    u := iocb_u.c { buf := 0, nbytes := 0, offset := 0, flags := 1, resfd := 3 } },
          complete_cb := 11, data_cb := 21 } 1) := by
  refine ⟨fun _ _ _ _ _ => rfl, fun _ _ _ => ⟨rfl, rfl⟩, by decide, by decide, by decide⟩

/-! ## Batched retrieval -/

theorem reportOk_append (a b : List io_event) (ops : List PendingOp) :
    reportOk (a ++ b) ops ↔ reportOk a ops ∧ reportOk b (reportAll a ops) := by
  induction a generalizing ops with
  | nil => simp [reportOk, reportAll]
  | cons e a ih =>
    show (e.data ∈ ops.map PendingOp.slot ∧ reportOk (a ++ b) (removeSlot e.data ops)) ↔
      (e.data ∈ ops.map PendingOp.slot ∧ reportOk a (removeSlot e.data ops)) ∧
        reportOk b (reportAll a (removeSlot e.data ops))
    rw [ih, and_assoc]

theorem reportAll_append (a b : List io_event) (ops : List PendingOp) :
    reportAll (a ++ b) ops = reportAll b (reportAll a ops) := by
  induction a generalizing ops with
  | nil => rfl
  | cons e a ih => exact ih _

theorem batchRequests_callbacks (f c : Nat) (cbs seg : List Ev)
    (h : ∀ e ∈ cbs, isCallback e = true) :
    batchRequests f c (cbs ++ seg) ↔ batchRequests f c seg := by
  induction cbs with
  | nil => simp
  | cons e cbs ih =>
    have he := h e (List.mem_cons_self _ _)
    have := ih (fun x hx => h x (List.mem_cons_of_mem _ hx))
    cases e with
    | complete_cb cb res d => exact this
    | _ => simp [isCallback] at he

theorem fetch_count_eq (f c : Nat) (hc : c < f) (hf : f ≤ 2147483647) :
    fetch_count f c = ((min (f - c) MAX_EVENT_CNT : Nat) : Int) := by
  unfold fetch_count MAX_EVENT_CNT
  have h1 : toInt32 ((f - c : Nat) : Int) = ((f - c : Nat) : Int) :=
    toInt32_of_lt _ (by omega) (by omega)
  simp only [h1]
  split <;> omega

/-- The fetch loop on a script of successful batches that fit the finished
count: it consumes all the batches and returns the finished count. -/
theorem process_loop_batches (f : Nat) (batches : List (List io_event)) (rest : List OsResp)
    (c : Nat) (st : State) (ops : List PendingOp) (hf : f ≤ 2147483647)
    (hok : PoolOk st.ctx ops) (hfit : BatchesFit f c batches)
    (hrep : reportOk batches.flatten ops) :
    ∃ st1 seg, io_ctx_process_loop f (batch_script batches ++ rest) c st
        = some ((f : Int), st1, rest) ∧
      st1.trace = st.trace ++ seg ∧ batchRequests f c seg ∧
      fetchedOf seg = batches.flatten ∧
      st1.ctx.active = st.ctx.active - batches.flatten.length ∧
      c + batches.flatten.length = f ∧
      PoolOk st1.ctx (reportAll batches.flatten ops) := by
  induction batches generalizing c st ops with
  | nil =>
    have hc : c = f := hfit
    subst hc
    have hto : toInt32 ((c : Nat) : Int) = c := toInt32_of_lt _ (by omega) (by omega)
    refine ⟨st, [], ?_, by simp, trivial, rfl, by simp, by simp, hok⟩
    cases rest with
    | nil => simp [batch_script, io_ctx_process_loop, hto]
    | cons x rest => simp [batch_script, io_ctx_process_loop, hto]
  | cons b bs ih =>
    obtain ⟨hlt, hlen, hfit2⟩ := hfit
    simp only [List.flatten_cons] at hrep ⊢
    obtain ⟨hrb, hrbs⟩ := (reportOk_append b bs.flatten ops).mp hrep
    obtain ⟨st2, hd, hok2, htr2⟩ := poolok_dispatch b
      (st.emit (Ev.io_getevents (fetch_count f c) (b.length : Int) b)) ops hok hrb
    obtain ⟨_, hact2, _, _, _, _⟩ := dispatch_spec _ _ _ hd
    obtain ⟨st1, seg, i1, i2, i3, i4, i5, i6, i7⟩ := ih (c + b.length) st2
      (reportAll b ops) hok2 hfit2 hrbs
    have hb32 : b.length ≤ 32 := by
      have : min (f - c) MAX_EVENT_CNT ≤ 32 := Nat.min_le_right _ _
      omega
    have hbf : b.length ≤ f - c := le_trans hlen (Nat.min_le_left _ _)
    have hmod : (c + b.length) % UINT64_MOD = c + b.length := by
      apply Nat.mod_eq_of_lt
      unfold UINT64_MOD
      omega
    have hcb : ∀ e ∈ expectedFor b ops, isCallback e = true := expectedFor_callbacks b ops
    obtain ⟨_, _, _, n4⟩ := callbacks_neutral ops _ hcb
    refine ⟨st1, Ev.io_getevents (fetch_count f c) (b.length : Int) b
        :: (expectedFor b ops ++ seg), ?_, ?_, ?_, ?_, ?_, ?_, ?_⟩
    · have hn1 : ¬ ((b.length : Int) < 0) := by omega
      have hn2 : ¬ (MAX_EVENT_CNT < b.length ∨ b.length < b.length) := by
        unfold MAX_EVENT_CNT; omega
      simp only [batch_script, List.map_cons, List.cons_append, io_ctx_process_loop, hlt,
        if_true, hn1, if_false, Int.toNat_ofNat, hn2, List.take_length, hd, hmod]
      exact i1
    · rw [i2, htr2]
      simp [State.emit]
    · refine ⟨hlt, fetch_count_eq f c hlt hf, ?_⟩
      rw [Int.toNat_ofNat]
      exact (batchRequests_callbacks f _ _ seg hcb).mpr i3
    · have hfc : fetchedOf (expectedFor b ops) = [] := by
        have h2 : ∀ l : List Ev, (∀ e ∈ l, isCallback e = true) → fetchedOf l = [] := by
          intro l
          induction l with
          | nil => intro _; rfl
          | cons e l ihl =>
            intro hl
            have he := hl e (List.mem_cons_self _ _)
            have := ihl (fun x hx => hl x (List.mem_cons_of_mem _ hx))
            cases e with
            | complete_cb cb res d => simpa [fetchedOf] using this
            | _ => simp [isCallback] at he
        exact h2 _ hcb
      have hdel : delivered (b.length : Int) b = b := by
        simp [delivered]
      simp only [fetchedOf, fetchedOf_append, hfc, hdel, i4, List.nil_append]
    · rw [i5, hact2]
      simp only [State.emit, List.length_append]
      push_cast
      ring
    · simp only [List.length_append]
      omega
    · rw [reportAll_append]
      exact i7

/-- C17 (batched retrieval): on a context that agrees with its outstanding
operations, when `wait_cb` and the read of the eventfd succeed with the
finished count `f` (`0 ≤ f ≤ capacity`) and every `io_getevents` call succeeds
with a batch of at most the requested size (possibly fewer events, possibly
none), for outstanding operations, with batches adding up to `f`, then
`io_ctx_process` consumes all the batches and returns exactly `f`; each
`io_getevents` call is made while `completed < f` and requests exactly
`min (f - completed) 32` events; the events dispatched are those of the
batches, in order, and `active` decreases by `f`. -/
theorem process_batched (st : State) (ops : List PendingOp) (w rd : Int) (errno f : Nat)
    (batches : List (List io_event)) (rest : List OsResp)
    (hok : PoolOk st.ctx ops) (hcap : st.ctx.capacity ≤ 2147483647)
    (hw : 0 ≤ w) (hrd : 0 ≤ rd) (hf : (f : Int) ≤ st.ctx.capacity)
    (hfit : BatchesFit f 0 batches) (hrep : reportOk batches.flatten ops) :
    ∃ st1 seg,
      io_ctx_process (OsResp.wait_cb w :: OsResp.read rd errno f :: (batch_script batches ++ rest))
        st = some ((f : Int), st1, rest) ∧
      st1.trace = st.trace ++
        Ev.wait_cb st.ctx.event_fd w :: Ev.read st.ctx.event_fd rd errno f :: seg ∧
      batchRequests f 0 seg ∧
      fetchedOf seg = batches.flatten ∧
      batches.flatten.length = f ∧
      st1.ctx.active = st.ctx.active - f := by
  have hf31 : f ≤ 2147483647 := by omega
  have hmod : f % UINT64_MOD = f := by
    apply Nat.mod_eq_of_lt
    unfold UINT64_MOD
    omega
  obtain ⟨st1, seg, i1, i2, i3, i4, i5, i6, _⟩ := process_loop_batches f batches rest 0
    ((st.emit (Ev.wait_cb st.ctx.event_fd w)).emit (Ev.read st.ctx.event_fd rd errno f))
    ops hf31 hok hfit hrep
  have hlen : batches.flatten.length = f := by omega
  refine ⟨st1, seg, ?_, ?_, i3, i4, hlen, ?_⟩
  · have hw2 : ¬ w < 0 := by omega
    have hrd2 : ¬ rd < 0 := by omega
    simp only [io_ctx_process, hw2, if_false, hrd2, hmod]
    exact i1
  · rw [i2]
    simp [State.emit]
  · rw [i5, hlen]
    rfl

/-- Witness of `process_batched`: both operations of `demo_full` have
finished (`f = 2`) and are delivered in two batches of one event, the first
one shorter than the two events requested. -/
theorem process_batched_witness :
    PoolOk demo_full.ctx (pending demo_full.trace) ∧ demo_full.ctx.capacity ≤ 2147483647 ∧
    (0 : Int) ≤ 0 ∧ (0 : Int) ≤ 8 ∧ ((2 : Nat) : Int) ≤ demo_full.ctx.capacity ∧
    BatchesFit 2 0 demo_two_batches ∧ reportOk demo_two_batches.flatten (pending demo_full.trace) ∧
    ∃ st1 seg,
      io_ctx_process (OsResp.wait_cb 0 :: OsResp.read 8 0 2 :: (batch_script demo_two_batches ++ []))
        demo_full = some (((2 : Nat) : Int), st1, []) ∧
      st1.trace = demo_full.trace ++
        Ev.wait_cb demo_full.ctx.event_fd 0 :: Ev.read demo_full.ctx.event_fd 8 0 2 :: seg ∧
      batchRequests 2 0 seg ∧
      fetchedOf seg = demo_two_batches.flatten ∧
      demo_two_batches.flatten.length = 2 ∧
      st1.ctx.active = demo_full.ctx.active - (2 : Nat) :=
  ⟨⟨⟨by decide, by decide, by decide, by decide, by decide, by decide⟩,
    by decide, by decide, by decide, by decide, by decide, by decide⟩,
   by decide, by decide, by decide, by decide, by decide, by decide,
   process_batched demo_full (pending demo_full.trace) 0 8 0 2 demo_two_batches []
     ⟨⟨by decide, by decide, by decide, by decide, by decide, by decide⟩,
      by decide, by decide, by decide, by decide, by decide, by decide⟩
     (by decide) (by decide) (by decide) (by decide) (by decide) (by decide)⟩

/-! ## Reuse of the slot freed last -/

theorem top_submit_accepted (mk : io_ctx → Nat → iocb) (complete_cb data_cb : Nat)
    (ret : Int) (os : List OsResp) (st : State) (k : Nat) (h : TopIs st.ctx k)
    (hret : 0 < ret) :
    io_ctx_submit mk complete_cb data_cb (OsResp.io_submit ret :: os) st
      = some ((k : Int), st_submitted mk complete_cb data_cb st k ret, os) := by
  obtain ⟨hne, hidx, hpool, hlt⟩ := h
  have hget : st.ctx.requests[k]? = some (st.ctx.requests[k]) := List.getElem?_eq_getElem hlt
  simp only [io_ctx_submit, io_ctx_get_req, List.length_cons,
    get_req_wait_available _ _ _ hne, lt_self_iff_false, if_false, hidx, if_true, hpool, hget,
    gt_iff_lt, hret]
  rfl

theorem top_submit_rejected (mk : io_ctx → Nat → iocb) (complete_cb data_cb : Nat)
    (ret : Int) (os : List OsResp) (st : State) (k : Nat) (h : TopIs st.ctx k)
    (hret : ret ≤ 0) :
    ∃ st1, io_ctx_submit mk complete_cb data_cb (OsResp.io_submit ret :: os) st
        = some (ret, st1, os) ∧ TopIs st1.ctx k ∧
      st1.ctx.active = st.ctx.active ∧ st1.ctx.req_pool = st.ctx.req_pool ∧
      st1.ctx.capacity = st.ctx.capacity ∧
      st1.ctx.req_cnt = (st.ctx.req_cnt + 1) % 9223372036854775808 ∧
      st1.ctx.requests.length = st.ctx.requests.length := by
  obtain ⟨hne, hidx, hpool, hlt⟩ := h
  have hget : st.ctx.requests[k]? = some (st.ctx.requests[k]) := List.getElem?_eq_getElem hlt
  have hin : (st.ctx.capacity - st.ctx.active - 1).toNat < st.ctx.req_pool.length := by
    by_contra hcon
    rw [List.getElem?_eq_none (by omega)] at hpool
    simp at hpool
  have hput : 0 ≤ st.ctx.capacity - (st.ctx.active + 1) ∧
      (st.ctx.capacity - (st.ctx.active + 1)).toNat < st.ctx.req_pool.length := by
    have e : st.ctx.capacity - (st.ctx.active + 1) = st.ctx.capacity - st.ctx.active - 1 := by
      ring
    rw [e]
    exact ⟨hidx, hin⟩
  have hset : st.ctx.req_pool.set (st.ctx.capacity - (st.ctx.active + 1)).toNat k
      = st.ctx.req_pool := by
    apply set_of_getElem?
    rw [← hpool]
    congr 1
    omega
  have hnr : ¬ ret > 0 := by omega
  refine ⟨State.mk { st.ctx with
        req_cnt := (st.ctx.req_cnt + 1) % 9223372036854775808,
        requests := st.ctx.requests.set k
          { iocb := mk { st.ctx with
                active := st.ctx.active + 1,
                req_cnt := (st.ctx.req_cnt + 1) % 9223372036854775808 } k,
            complete_cb := complete_cb, data_cb := data_cb } }
      (st.trace ++ [Ev.io_submit k
          { iocb := mk { st.ctx with
                active := st.ctx.active + 1,
                req_cnt := (st.ctx.req_cnt + 1) % 9223372036854775808 } k,
            complete_cb := complete_cb, data_cb := data_cb } ret]),
    ?_, ⟨hne, hidx, hpool, ?_⟩, rfl, rfl, rfl, rfl, List.length_set _ _ _⟩
  · simp only [io_ctx_submit, io_ctx_get_req, List.length_cons,
      get_req_wait_available _ _ _ hne, lt_self_iff_false, if_false, hidx, if_true, hpool, hget,
      hnr, io_ctx_put_req, hput, and_self, hset, add_sub_cancel_right]
  · simp only [List.length_set]
    exact hlt

/-- After a confirmed cancellation the cancelled slot is on top of the pool. -/
theorem cancel_top (key : Int) (event : io_event) (os : List OsResp) (st : State) (r : Int)
    (st1 : State) (os1 : List OsResp)
    (h : io_ctx_cancel key (OsResp.io_cancel 0 event :: os) st = some (r, st1, os1)) :
    r = 0 ∧ os1 = os ∧ 0 ≤ key ∧ TopIs st1.ctx key.toNat := by
  obtain ⟨res, ev2, hos, hcase⟩ := cancel_cases key _ st r st1 os1 h
  simp only [List.cons.injEq, OsResp.io_cancel.injEq] at hos
  obtain ⟨⟨hres, _⟩, hos2⟩ := hos
  rcases hcase with ⟨hne, _⟩ | ⟨_, hr0, hk, r0, c, hr, hp, hst⟩
  · exact absurd hres.symm hne
  · obtain ⟨h0, hlen, hc⟩ := io_ctx_put_req_eq_some _ _ _ hp
    have hlt : key.toNat < st.ctx.requests.length := by
      by_contra hcon
      rw [List.getElem?_eq_none (by omega)] at hr
      simp at hr
    refine ⟨hr0, hos2.symm, hk, ?_⟩
    subst hst hc
    refine ⟨?_, ?_, ?_, hlt⟩
    · simp only; omega
    · simp only; omega
    · simp only
      have e : (st.ctx.capacity - (st.ctx.active - 1) - 1).toNat
          = (st.ctx.capacity - st.ctx.active).toNat := by
        congr 1; ring
      rw [e, List.getElem?_set_self hlen]

theorem take_getLast (l : List Nat) (n : Nat) (h0 : 0 < n) (hn : n ≤ l.length) :
    (l.take n).getLast? = l[n - 1]? := by
  induction l generalizing n with
  | nil => simp at hn; omega
  | cons a l ih =>
    cases n with
    | zero => omega
    | succ n =>
      cases n with
      | zero => simp
      | succ m =>
        simp only [List.length_cons, Nat.add_le_add_iff_right] at hn
        have := ih (m + 1) (by omega) hn
        simp only [List.take_succ_cons, Nat.add_sub_cancel] at this ⊢
        rw [List.getLast?_cons]
        cases hl : (List.take (m + 1) l).getLast? with
        | none =>
          rw [List.getLast?_eq_none_iff] at hl
          have hlen := congrArg List.length hl
          simp only [List.length_take, List.length_nil] at hlen
          omega
        | some x =>
          rw [hl] at this
          simp only [Option.getD_some, List.getElem?_cons_succ]
          exact this

/-- After a call of `io_ctx_process` that dispatched at least one event, the
slot of the event dispatched last is on top of the pool. -/
theorem process_top (os : List OsResp) (st : State) (r : Int) (st1 : State)
    (os1 : List OsResp) (h : io_ctx_process os st = some (r, st1, os1)) (e : io_event)
    (he : (fetchedOf (st1.trace.drop st.trace.length)).getLast? = some e) :
    TopIs st1.ctx e.data := by
  obtain ⟨seg, j1, j2, j3, j4, j5, j6, j7, _⟩ := process_spec os st r st1 os1 h
  rw [j1, List.drop_left] at he
  have hmem : e ∈ fetchedOf seg := List.mem_of_getLast?_eq_some he
  have hne : fetchedOf seg ≠ [] := List.ne_nil_of_mem hmem
  have hpos : 0 < (fetchedOf seg).length := List.length_pos.mpr hne
  obtain ⟨b1, b2⟩ := j5 hne
  have hcap : st1.ctx.capacity = st.ctx.capacity := by rw [j2]
  have hreq : st1.ctx.requests = st.ctx.requests := by rw [j2]
  have hlast : (free_list st1.ctx).getLast? = some e.data := by
    rw [j6, List.getLast?_append, List.getLast?_map, he]
    rfl
  have hn : (st1.ctx.capacity - st1.ctx.active).toNat
      = (st.ctx.capacity - st.ctx.active).toNat + (fetchedOf seg).length := by
    rw [hcap, j3]; omega
  unfold free_list at hlast
  rw [take_getLast _ _ (by omega) (by rw [hn, j4]; exact b2)] at hlast
  refine ⟨?_, ?_, ?_, ?_⟩
  · rw [hcap, j3]; omega
  · rw [hcap, j3]; omega
  · rw [← hlast]
    congr 1
    omega
  · rw [hreq]
    have hm : callbackFor st.ctx.requests e ∈ (callbacksOf seg).map some := by
      rw [j7]; exact List.mem_map_of_mem _ hmem
    obtain ⟨c, _, hc⟩ := List.mem_map.mp hm
    unfold callbackFor at hc
    by_contra hcon
    rw [List.getElem?_eq_none (by omega)] at hc
    simp at hc

/-- Submissions the OS rejects leave the top of the pool in place. -/
theorem rejects_keep_top (rejects : List Attempt) (rest : List OsResp) (st : State) (k : Nat)
    (hrej : ∀ a ∈ rejects, a.ret ≤ 0) (h : TopIs st.ctx k) :
    ∃ st1, run (attempt_calls rejects) (attempt_script rejects ++ rest) st = some (st1, rest) ∧
      TopIs st1.ctx k := by
  induction rejects generalizing st with
  | nil => exact ⟨st, rfl, h⟩
  | cons a rejects ih =>
    obtain ⟨st1, h1, h2, _⟩ := top_submit_rejected a.op.descriptor a.complete_cb a.data_cb a.ret
      (attempt_script rejects ++ rest) st k h (hrej a (List.mem_cons_self _ _))
    obtain ⟨st2, h3, h4⟩ := ih st1 (fun b hb => hrej b (List.mem_cons_of_mem _ hb)) h2
    refine ⟨st2, ?_, h4⟩
    simp only [attempt_calls, attempt_script, List.map_cons, List.cons_append, run, Call.exec,
      exec_eq_submit] at h1 h3 ⊢
    rw [h1]
    exact h3

/-- C18: slot reuse is immediate and last-in-first-out.  When a slot `k` has
just been freed, either by a call of `io_ctx_cancel` with key `k` that the OS
confirmed (`io_cancel` returned 0), or as the slot of the event dispatched
last by a call of `io_ctx_process`, then the next accepted submission (any of
the six operations, `io_submit` returning a positive value) returns the key
`k`; submission attempts the OS rejects in between do not change this. -/
theorem freed_slot_reused (rejects : List Attempt) (op : SubmitOp) (complete_cb data_cb : Nat)
    (ret : Int) (rest : List OsResp) (hrej : ∀ a ∈ rejects, a.ret ≤ 0) (hret : 0 < ret) :
    (∀ (key : Int) (event : io_event) (st : State) (r : Int) (st1 : State) (os1 : List OsResp),
      io_ctx_cancel key (OsResp.io_cancel 0 event
          :: (attempt_script rejects ++ OsResp.io_submit ret :: rest)) st = some (r, st1, os1) →
      r = 0 ∧ ∃ st2 st3,
        run (attempt_calls rejects) os1 st1 = some (st2, OsResp.io_submit ret :: rest) ∧
        op.exec complete_cb data_cb (OsResp.io_submit ret :: rest) st2
          = some (key, st3, rest)) ∧
    (∀ (os : List OsResp) (st : State) (r : Int) (st1 : State) (e : io_event),
      io_ctx_process os st
        = some (r, st1, attempt_script rejects ++ OsResp.io_submit ret :: rest) →
      (fetchedOf (st1.trace.drop st.trace.length)).getLast? = some e →
      ∃ st2 st3,
        run (attempt_calls rejects) (attempt_script rejects ++ OsResp.io_submit ret :: rest) st1
          = some (st2, OsResp.io_submit ret :: rest) ∧
        op.exec complete_cb data_cb (OsResp.io_submit ret :: rest) st2
          = some ((e.data : Int), st3, rest)) := by
  constructor
  · intro key event st r st1 os1 h
    obtain ⟨h1, h2, h3, h4⟩ := cancel_top key event _ st r st1 os1 h
    obtain ⟨st2, h5, h6⟩ := rejects_keep_top rejects (OsResp.io_submit ret :: rest) st1 _ hrej h4
    refine ⟨h1, st2, st_submitted op.descriptor complete_cb data_cb st2 key.toNat ret, ?_, ?_⟩
    · rw [h2]; exact h5
    · rw [exec_eq_submit, top_submit_accepted _ _ _ _ _ _ _ h6 hret, Int.toNat_of_nonneg h3]
  · intro os st r st1 e h he
    have h4 := process_top os st r st1 _ h e he
    obtain ⟨st2, h5, h6⟩ := rejects_keep_top rejects (OsResp.io_submit ret :: rest) st1 _ hrej h4
    refine ⟨st2, st_submitted op.descriptor complete_cb data_cb st2 e.data ret, h5, ?_⟩
    rw [exec_eq_submit, top_submit_accepted _ _ _ _ _ _ _ h6 hret]

/-- Witness of `freed_slot_reused`: on the full context of capacity 2, B
(key 0) is cancelled, one fsync is rejected, and the next write gets key 0;
after a drain whose last event is for slot 0, the same holds. -/
theorem freed_slot_reused_witness :
    (∀ a ∈ demo_rejects, a.ret ≤ 0) ∧ (0 : Int) < 1 ∧
    (∃ st2 st3,
      io_ctx_cancel 0 (OsResp.io_cancel 0 { data := 0, res := -125 }
          :: (attempt_script demo_rejects ++ OsResp.io_submit 1 :: [])) demo_full
        = some (0, demo_cancelled, attempt_script demo_rejects ++ OsResp.io_submit 1 :: []) ∧
      run (attempt_calls demo_rejects) (attempt_script demo_rejects ++ OsResp.io_submit 1 :: [])
          demo_cancelled = some (st2, OsResp.io_submit 1 :: []) ∧
      (SubmitOp.write 5 300 10 1024).exec 13 23 (OsResp.io_submit 1 :: []) st2
        = some (0, st3, [])) ∧
    (∃ st2 st3,
      run (attempt_calls demo_rejects) (attempt_script demo_rejects ++ OsResp.io_submit 1 :: [])
          demo_drained = some (st2, OsResp.io_submit 1 :: []) ∧
      (SubmitOp.write 5 300 10 1024).exec 13 23 (OsResp.io_submit 1 :: []) st2
        = some (((0 : Nat) : Int), st3, [])) := by
  have hrej : ∀ a ∈ demo_rejects, a.ret ≤ 0 := by decide
  have h := freed_slot_reused demo_rejects (SubmitOp.write 5 300 10 1024) 13 23 1 [] hrej
    (by decide)
  refine ⟨hrej, by decide, ?_, ?_⟩
  · have hc : io_ctx_cancel 0 (OsResp.io_cancel 0 { data := 0, res := -125 }
          :: (attempt_script demo_rejects ++ OsResp.io_submit 1 :: [])) demo_full
        = some (0, demo_cancelled, attempt_script demo_rejects ++ OsResp.io_submit 1 :: []) := by
      decide
    obtain ⟨_, st2, st3, h2, h3⟩ := h.1 0 _ demo_full 0 demo_cancelled _ hc
    exact ⟨st2, st3, hc, h2, h3⟩
  · have hp : io_ctx_process (demo_drain_script
          ++ (attempt_script demo_rejects ++ OsResp.io_submit 1 :: [])) demo_full
        = some (2, demo_drained, attempt_script demo_rejects ++ OsResp.io_submit 1 :: []) := by
      decide
    exact h.2 _ demo_full 2 demo_drained { data := 0, res := 10 } hp (by decide)

/-! ## The sequence counter -/

/-- Submissions the OS rejects advance the sequence counter, one step each,
and leave the top of the pool in place. -/
theorem rejects_advance (rejects : List Attempt) (rest : List OsResp) (st : State) (k : Nat)
    (hrej : ∀ a ∈ rejects, a.ret ≤ 0) (h : TopIs st.ctx k)
    (h0 : 0 ≤ st.ctx.req_cnt) (h1 : st.ctx.req_cnt < 9223372036854775808) :
    ∃ st1, run (attempt_calls rejects) (attempt_script rejects ++ rest) st = some (st1, rest) ∧
      TopIs st1.ctx k ∧
      st1.ctx.req_cnt = (st.ctx.req_cnt + (rejects.length : Int)) % 9223372036854775808 := by
  induction rejects generalizing st with
  | nil =>
    refine ⟨st, rfl, h, ?_⟩
    simp only [List.length_nil, Nat.cast_zero, add_zero]
    omega
  | cons a rejects ih =>
    obtain ⟨st1, e1, e2, _, _, _, e3, _⟩ := top_submit_rejected a.op.descriptor a.complete_cb
      a.data_cb a.ret (attempt_script rejects ++ rest) st k h (hrej a (List.mem_cons_self _ _))
    obtain ⟨st2, e4, e5, e6⟩ := ih st1 (fun b hb => hrej b (List.mem_cons_of_mem _ hb)) e2
      (by omega) (by omega)
    refine ⟨st2, ?_, e5, ?_⟩
    · simp only [attempt_calls, attempt_script, List.map_cons, List.cons_append, run, Call.exec,
        exec_eq_submit] at e1 e4 ⊢
      rw [e1]
      exact e4
    · rw [e6, e3]
      simp only [List.length_cons, Nat.cast_add, Nat.cast_one]
      omega

/-- The frame of `io_ctx_cancel`: only the pool and `active` can change. -/
theorem cancel_frame (key : Int) (os : List OsResp) (st : State) (r : Int) (st1 : State)
    (os1 : List OsResp) (h : io_ctx_cancel key os st = some (r, st1, os1)) :
    st1.ctx = { st.ctx with req_pool := st1.ctx.req_pool, active := st1.ctx.active } := by
  obtain ⟨res, event, _, hcase⟩ := cancel_cases key os st r st1 os1 h
  rcases hcase with ⟨_, _, hst⟩ | ⟨_, _, _, r0, c, _, hp, hst⟩
  · subst hst
    rfl
  · obtain ⟨_, _, hc⟩ := io_ctx_put_req_eq_some _ _ _ hp
    subst hst hc
    rfl

/-- The descriptor of each of the six operations is tagged with the low 32
bits of the sequence counter. -/
theorem descriptor_key (op : SubmitOp) (c : io_ctx) (slot : Nat) :
    (op.descriptor c slot).key = iocb_key c.req_cnt := by
  cases op <;> rfl

theorem iocb_key_cast (n : Int) : ((iocb_key n : Nat) : Int) = n % 4294967296 := by
  unfold iocb_key
  exact Int.toNat_of_nonneg (Int.emod_nonneg _ (by decide))

/-- C19, counterexample to "the descriptor's key tag is the new counter
value": on the fresh context of capacity 2, after 4294967295 writes the OS
rejected the sequence counter is 4294967295; the next write, which is accepted,
advances the counter to 4294967296, and the descriptor handed to `io_submit`
carries the key 0 (the field `key` of `struct iocb` is a 32-bit `unsigned`). -/
theorem key_tag_not_counter :
    ∃ (st0 st1 : State) (req : io_req),
      run (attempt_calls (List.replicate 4294967295 demo_reject))
          (attempt_script (List.replicate 4294967295 demo_reject) ++ [OsResp.io_submit 1])
          demo_fresh = some (st0, [OsResp.io_submit 1]) ∧
      st0.ctx.req_cnt = 4294967295 ∧
      (SubmitOp.write 5 100 10 0).exec 11 21 [OsResp.io_submit 1] st0
        = some (((1 : Nat) : Int), st1, []) ∧
      st1.trace.getLast? = some (Ev.io_submit 1 req 1) ∧
      st1.ctx.req_cnt = 4294967296 ∧ req.iocb.key = 0 ∧
      (req.iocb.key : Int) ≠ st1.ctx.req_cnt := by
  have hrej : ∀ a ∈ List.replicate 4294967295 demo_reject, a.ret ≤ 0 := by
    intro a ha
    rw [List.eq_of_mem_replicate ha]
    decide
  have htop : TopIs demo_fresh.ctx 1 := ⟨by decide, by decide, by decide, by decide⟩
  obtain ⟨st0, e1, e2, e3⟩ := rejects_advance (List.replicate 4294967295 demo_reject)
    [OsResp.io_submit 1] demo_fresh 1 hrej htop (by decide) (by decide)
  rw [List.length_replicate] at e3
  have e4 : st0.ctx.req_cnt = 4294967295 := by
    rw [e3]
    decide
  have e5 := top_submit_accepted (SubmitOp.write 5 100 10 0).descriptor 11 21 1 [] st0 1 e2
    (by decide)
  have hk : iocb_key ((st0.ctx.req_cnt + 1) % 9223372036854775808) = 0 := by
    rw [e4]
    decide
  refine ⟨st0, st_submitted (SubmitOp.write 5 100 10 0).descriptor 11 21 st0 1 1,
    req_filled (SubmitOp.write 5 100 10 0).descriptor 11 21 st0.ctx 1,
    e1, e4, ?_, ?_, ?_, hk, ?_⟩
  · rw [exec_eq_submit]
    exact e5
  · simp [st_submitted]
  · show (st0.ctx.req_cnt + 1) % 9223372036854775808 = 4294967296
    rw [e4]
    decide
  · show ((iocb_key ((st0.ctx.req_cnt + 1) % 9223372036854775808) : Nat) : Int)
      ≠ (st0.ctx.req_cnt + 1) % 9223372036854775808
    rw [hk, e4]
    decide

/-- C19, amended: the sequence counter.  (1) A slot acquisition
(`io_ctx_get_req` returning 0) sets `req_cnt` to `(old req_cnt + 1) mod 2^63`,
which lies in `[0, 2^63)`; it is `old + 1` when the old value is in
`[0, 2^63 - 1)`, and 0 when the old value is `2^63 - 1`.  (2) A call of
`io_ctx_get_req` that fails leaves `req_cnt` unchanged.  (3) A submit call that
returns either returned the negative result of a failed drain, with `req_cnt`
unchanged, or made one `io_submit` call, and then `req_cnt` has advanced
whatever `io_submit` returned (also when it rejected the operation); the key
tag of the descriptor handed to `io_submit` is the new counter value reduced
modulo `2^32`, hence the new counter value itself only while that is below
`2^32`.  (4) `io_ctx_process` and (5) `io_ctx_cancel` leave `req_cnt`
unchanged. -/
theorem sequence_counter (os : List OsResp) (st : State) :
    (∀ (slot : Nat) (st1 : State) (os1 : List OsResp),
      io_ctx_get_req os st = some (0, slot, st1, os1) →
      st1.ctx.req_cnt = (st.ctx.req_cnt + 1) % 9223372036854775808 ∧
      0 ≤ st1.ctx.req_cnt ∧ st1.ctx.req_cnt < 9223372036854775808 ∧
      (0 ≤ st.ctx.req_cnt → st.ctx.req_cnt < 9223372036854775807 →
        st1.ctx.req_cnt = st.ctx.req_cnt + 1) ∧
      (st.ctx.req_cnt = 9223372036854775807 → st1.ctx.req_cnt = 0)) ∧
    (∀ (res : Int) (slot : Nat) (st1 : State) (os1 : List OsResp),
      io_ctx_get_req os st = some (res, slot, st1, os1) → res < 0 →
      st1.ctx.req_cnt = st.ctx.req_cnt) ∧
    (∀ (op : SubmitOp) (complete_cb data_cb : Nat) (r : Int) (st1 : State) (os1 : List OsResp),
      op.exec complete_cb data_cb os st = some (r, st1, os1) →
      (r < 0 ∧ st1.ctx.req_cnt = st.ctx.req_cnt ∧
        ∃ os2 st2, Drains os st os2 st2 ∧ st2.ctx.active = st2.ctx.capacity ∧
          io_ctx_process os2 st2 = some (r, st1, os1)) ∨
      (∃ (slot : Nat) (req : io_req) (ret : Int),
        st1.trace.getLast? = some (Ev.io_submit slot req ret) ∧
        (if 0 < ret then r = (slot : Int) else r = ret) ∧
        st1.ctx.req_cnt = (st.ctx.req_cnt + 1) % 9223372036854775808 ∧
        req.iocb.key = iocb_key st1.ctx.req_cnt ∧
        (req.iocb.key : Int) = st1.ctx.req_cnt % 4294967296 ∧
        (st1.ctx.req_cnt < 4294967296 → (req.iocb.key : Int) = st1.ctx.req_cnt))) ∧
    (∀ (r : Int) (st1 : State) (os1 : List OsResp),
      io_ctx_process os st = some (r, st1, os1) → st1.ctx.req_cnt = st.ctx.req_cnt) ∧
    (∀ (key r : Int) (st1 : State) (os1 : List OsResp),
      io_ctx_cancel key os st = some (r, st1, os1) → st1.ctx.req_cnt = st.ctx.req_cnt) := by
  have hproc : ∀ (os : List OsResp) (st : State) (r : Int) (st1 : State) (os1 : List OsResp),
      io_ctx_process os st = some (r, st1, os1) → st1.ctx.req_cnt = st.ctx.req_cnt := by
    intro os st r st1 os1 h
    obtain ⟨seg, _, j2, _⟩ := process_spec os st r st1 os1 h
    rw [j2]
  have hdr : ∀ (os2 : List OsResp) (st2 : State), Drains os st os2 st2 →
      st2.ctx.req_cnt = st.ctx.req_cnt := by
    intro os2 st2 hd
    rw [(drains_frame os st os2 st2 hd).1]
  refine ⟨?_, ?_, ?_, hproc os st, ?_⟩
  · intro slot st1 os1 h
    obtain ⟨os2, st2, hd, hcase⟩ := get_req_spec os st 0 slot st1 os1 h
    have hc := hdr os2 st2 hd
    rcases hcase with ⟨hneg, _⟩ | ⟨_, _, _, _, _, hst⟩
    · omega
    · have e : st1.ctx.req_cnt = (st.ctx.req_cnt + 1) % 9223372036854775808 := by
        rw [hst, ← hc]
      rw [e]
      refine ⟨rfl, ?_, ?_, ?_, ?_⟩ <;> omega
  · intro res slot st1 os1 h hneg
    obtain ⟨os2, st2, hd, hcase⟩ := get_req_spec os st res slot st1 os1 h
    have hc := hdr os2 st2 hd
    rcases hcase with ⟨_, _, hp⟩ | ⟨h0, _⟩
    · rw [hproc os2 st2 res st1 os1 hp, hc]
    · omega
  · intro op complete_cb data_cb r st1 os1 h
    rw [exec_eq_submit] at h
    obtain ⟨os2, st2, hd, hcase⟩ := submit_spec _ _ _ _ _ _ _ _ h
    have hc := hdr os2 st2 hd
    rcases hcase with ⟨hneg, hfull, hp⟩ | ⟨hne, slot, ret2, hos, hidx, hpool, hlt, hacc⟩
    · left
      exact ⟨hneg, by rw [hproc os2 st2 r st1 os1 hp, hc], os2, st2, hd, hfull, hp⟩
    · right
      have hkey : (req_filled op.descriptor complete_cb data_cb st2.ctx slot).iocb.key
          = iocb_key ((st.ctx.req_cnt + 1) % 9223372036854775808) := by
        rw [← hc]
        exact descriptor_key op (ctx_acquired st2.ctx) slot
      have hcast := iocb_key_cast ((st.ctx.req_cnt + 1) % 9223372036854775808)
      have hcnt : st1.ctx.req_cnt = (st.ctx.req_cnt + 1) % 9223372036854775808 := by
        rcases hacc with ⟨_, _, hst⟩ | ⟨_, _, c3, hput, hst⟩
        · rw [hst, ← hc]; rfl
        · obtain ⟨_, _, e3⟩ := io_ctx_put_req_eq_some _ _ _ hput
          rw [hst, e3, ← hc]; rfl
      have htr : st1.trace.getLast? = some (Ev.io_submit slot
          (req_filled op.descriptor complete_cb data_cb st2.ctx slot) ret2) := by
        rcases hacc with ⟨_, _, hst⟩ | ⟨_, _, c3, hput, hst⟩
        · rw [hst]; simp [st_submitted]
        · rw [hst]; simp [st_submitted]
      refine ⟨slot, _, ret2, htr, ?_, hcnt, ?_, ?_, ?_⟩
      · rcases hacc with ⟨h0, hr, _⟩ | ⟨h0, hr, _⟩
        · simp [h0, hr]
        · have : ¬ 0 < ret2 := by omega
          simp [this, hr]
      · rw [hkey, hcnt]
      · rw [hkey, hcnt, hcast]
      · intro hsmall
        rw [hkey, hcast]
        rw [hcnt] at hsmall ⊢
        omega
  · intro key r st1 os1 h
    rw [cancel_frame key os st r st1 os1 h]

/-- Witness of `sequence_counter`: a write the OS rejects on the fresh context
advances the counter from 0 to 1, and draining the full context leaves the
counter as it is. -/
theorem sequence_counter_witness :
    (∃ st1, (SubmitOp.write 5 100 10 0).exec 11 21 [OsResp.io_submit (-11)] demo_fresh
        = some (-11, st1, []) ∧ st1.ctx.req_cnt = 1) ∧
    demo_drained.ctx.req_cnt = demo_full.ctx.req_cnt := by
  constructor
  · obtain ⟨st1, e1, _⟩ := top_submit_rejected (SubmitOp.write 5 100 10 0).descriptor 11 21
      (-11) [] demo_fresh 1 ⟨by decide, by decide, by decide, by decide⟩ (by decide)
    rw [← exec_eq_submit] at e1
    refine ⟨st1, e1, ?_⟩
    rcases (sequence_counter [OsResp.io_submit (-11)] demo_fresh).2.2.1 _ 11 21 (-11) st1 [] e1
      with ⟨_, _, os2, st2, hd, hfull, _⟩ | ⟨_, _, _, _, _, hcnt, _⟩
    · cases hd with
      | done => exact absurd hfull (by decide)
      | step os1 _ _ _ st1b _ r hfull2 _ _ _ => exact absurd hfull2 (by decide)
    · rw [hcnt]; decide
  · exact (sequence_counter demo_drain_script demo_full).2.2.2.1 2 demo_drained [] (by decide)

/-! ## Keys of outstanding operations -/

/-- The sequence of calls `run_rets` runs is the one `run` runs. -/
theorem run_rets_run (calls : List Call) (os : List OsResp) (st : State) (rets : List Int)
    (st1 : State) (os1 : List OsResp) (h : run_rets calls os st = some (rets, st1, os1)) :
    run calls os st = some (st1, os1) ∧ rets.length = calls.length := by
  induction calls generalizing os st rets with
  | nil =>
    simp only [run_rets, Option.some.injEq, Prod.mk.injEq] at h
    obtain ⟨h1, h2, h3⟩ := h
    subst h1 h2 h3
    exact ⟨rfl, rfl⟩
  | cons c cs ih =>
    simp only [run_rets] at h
    cases hc : c.exec os st with
    | none => simp [hc] at h
    | some x =>
      obtain ⟨r, st2, os2⟩ := x
      simp only [hc] at h
      cases hr : run_rets cs os2 st2 with
      | none => simp [hr] at h
      | some y =>
        obtain ⟨rs, st3, os3⟩ := y
        simp only [hr, Option.some.injEq, Prod.mk.injEq] at h
        obtain ⟨h1, h2, h3⟩ := h
        subst h1 h2 h3
        obtain ⟨i1, i2⟩ := ih _ _ _ hr
        simp only [run, hc, i1, List.length_cons, i2, and_self]

/-- Submissions on a pool in its initial order with `j` requests taken: the
accepted ones get the keys `capacity - 1 - j`, `capacity - 2 - j`, ... -/
theorem fresh_keys_from (attempts : List Attempt) (rest : List OsResp) (st : State) (j : Nat)
    (hpool : st.ctx.req_pool = List.range st.ctx.capacity.toNat) (hact : st.ctx.active = j)
    (hreq : st.ctx.capacity.toNat ≤ st.ctx.requests.length)
    (hroom : NoDrain st.ctx.capacity j attempts) :
    ∃ rets st1, run_rets (attempt_calls attempts) (attempt_script attempts ++ rest) st
        = some (rets, st1, rest) ∧
      accepted_keys attempts rets = (List.range (accepted_count attempts)).map
        (fun i => st.ctx.capacity - 1 - ((j + i : Nat) : Int)) := by
  induction attempts generalizing st j with
  | nil => exact ⟨[], st, rfl, rfl⟩
  | cons a attempts ih =>
    obtain ⟨hj, hroom2⟩ := hroom
    have htop : TopIs st.ctx (st.ctx.capacity - 1 - j).toNat := by
      refine ⟨by omega, by omega, ?_, by omega⟩
      rw [hpool, hact, List.getElem?_range (by omega)]
      congr 1
      omega
    by_cases hret : 0 < a.ret
    · have e1 := top_submit_accepted a.op.descriptor a.complete_cb a.data_cb a.ret
        (attempt_script attempts ++ rest) st _ htop hret
      simp only [hret, if_true] at hroom2
      obtain ⟨rets, st2, e2, e3⟩ := ih
        (st_submitted a.op.descriptor a.complete_cb a.data_cb st
          (st.ctx.capacity - 1 - j).toNat a.ret) (j + 1)
        hpool (by show st.ctx.active + 1 = ((j + 1 : Nat) : Int); rw [hact]; push_cast; rfl)
        (by show st.ctx.capacity.toNat ≤ (st.ctx.requests.set _ _).length
            rw [List.length_set]; exact hreq)
        hroom2
      refine ⟨(((st.ctx.capacity - 1 - j).toNat : Nat) : Int) :: rets, st2, ?_, ?_⟩
      · simp only [attempt_calls, attempt_script, List.map_cons, List.cons_append, run_rets,
          Call.exec, exec_eq_submit] at e1 e2 ⊢
        rw [e1]
        simp only [e2]
      · simp only [accepted_keys, accepted_count, hret, if_true]
        rw [e3, List.range_succ_eq_map, List.map_cons, List.map_map]
        congr 1
        · rw [Int.toNat_of_nonneg (by omega)]
          simp
        · apply List.map_congr_left
          intro i _
          show st.ctx.capacity - 1 - ((j + 1 + i : Nat) : Int)
            = st.ctx.capacity - 1 - ((j + (i + 1) : Nat) : Int)
          push_cast
          ring
    · have hle : a.ret ≤ 0 := by omega
      obtain ⟨st1, e1, _, f1, f2, f3, _, f4⟩ := top_submit_rejected a.op.descriptor
        a.complete_cb a.data_cb a.ret (attempt_script attempts ++ rest) st _ htop hle
      simp only [hret, if_false] at hroom2
      obtain ⟨rets, st2, e2, e3⟩ := ih st1 j (by rw [f2, f3]; exact hpool) (by rw [f1, hact])
        (by rw [f3, f4]; exact hreq) (by rw [f3]; exact hroom2)
      refine ⟨a.ret :: rets, st2, ?_, ?_⟩
      · simp only [attempt_calls, attempt_script, List.map_cons, List.cons_append, run_rets,
          Call.exec, exec_eq_submit] at e1 e2 ⊢
        rw [e1]
        simp only [e2]
      · simp only [accepted_keys, accepted_count, hret, if_false]
        rw [e3, f3]

/-- A sequence of at most `capacity - j` attempts, all accepted, never meets an
empty pool. -/
theorem accepted_no_drain (capacity : Int) (attempts : List Attempt) (j : Nat)
    (hacc : ∀ a ∈ attempts, 0 < a.ret) (hlen : ((j + attempts.length : Nat) : Int) ≤ capacity) :
    NoDrain capacity j attempts ∧ accepted_count attempts = attempts.length := by
  induction attempts generalizing j with
  | nil => exact ⟨trivial, rfl⟩
  | cons a attempts ih =>
    have ha := hacc a (List.mem_cons_self _ _)
    simp only [List.length_cons] at hlen
    obtain ⟨i1, i2⟩ := ih (j + 1) (fun b hb => hacc b (List.mem_cons_of_mem _ hb))
      (by push_cast at hlen ⊢; omega)
    refine ⟨⟨by push_cast at hlen; omega, ?_⟩, ?_⟩
    · simp only [ha, if_true]
      exact i1
    · simp only [accepted_count, ha, if_true, i2, List.length_cons]

theorem accepted_keys_all (attempts : List Attempt) (rets : List Int)
    (hacc : ∀ a ∈ attempts, 0 < a.ret) (hlen : rets.length = attempts.length) :
    accepted_keys attempts rets = rets := by
  induction attempts generalizing rets with
  | nil =>
    cases rets with
    | nil => rfl
    | cons r rs => simp at hlen
  | cons a attempts ih =>
    cases rets with
    | nil => simp at hlen
    | cons r rs =>
      simp only [List.length_cons, Nat.add_right_cancel_iff] at hlen
      simp only [accepted_keys, hacc a (List.mem_cons_self _ _), if_true,
        ih rs (fun b hb => hacc b (List.mem_cons_of_mem _ hb)) hlen]

/-- C20: keys of outstanding operations are distinct.  (1) On a context just
created with capacity `capacity` (eventfd and `io_setup` succeeded), a sequence
of submission attempts with no drain and no cancel in between (every attempt
is made while the pool is not empty) returns to its accepted attempts, in
order, the keys `capacity - 1`, `capacity - 2`, ..., one per accepted attempt;
in particular `n ≤ capacity` attempts that are all accepted return exactly
`capacity - 1, ..., capacity - n`.  (2) In every state reached from a
successful `io_ctx_create` by submit, `io_ctx_process` and `io_ctx_cancel`
calls, under the environment assumption (`io_getevents` and a confirmed
`io_cancel` report outstanding operations only), the keys of the operations
outstanding at that time are pairwise distinct. -/
theorem outstanding_keys_distinct (capacity : Int) (wait_cb : Nat) (hcap : 0 ≤ capacity) :
    (∀ (fd : Int) (errno : Nat) (res : Int) (ctx : Nat) (attempts : List Attempt)
        (rest : List OsResp), 0 ≤ fd → 0 ≤ res →
      (NoDrain capacity 0 attempts →
        ∃ st0 rets st,
          io_ctx_create capacity wait_cb (OsResp.eventfd fd errno :: OsResp.io_setup res ctx
              :: (attempt_script attempts ++ rest))
            = some (0, st0, attempt_script attempts ++ rest) ∧
          run_rets (attempt_calls attempts) (attempt_script attempts ++ rest) st0
            = some (rets, st, rest) ∧
          accepted_keys attempts rets = (List.range (accepted_count attempts)).map
            (fun (i : Nat) => capacity - 1 - (i : Int))) ∧
      ((∀ a ∈ attempts, 0 < a.ret) → (attempts.length : Int) ≤ capacity →
        ∃ st0 st,
          io_ctx_create capacity wait_cb (OsResp.eventfd fd errno :: OsResp.io_setup res ctx
              :: (attempt_script attempts ++ rest))
            = some (0, st0, attempt_script attempts ++ rest) ∧
          run_rets (attempt_calls attempts) (attempt_script attempts ++ rest) st0
            = some ((List.range attempts.length).map (fun (i : Nat) => capacity - 1 - (i : Int)),
                st, rest))) ∧
    (∀ (os0 : List OsResp) (st0 : State) (os1 : List OsResp) (calls : List Call) (st : State)
        (os2 : List OsResp),
      io_ctx_create capacity wait_cb os0 = some (0, st0, os1) →
      run calls os1 st0 = some (st, os2) → EnvOk st.trace →
      (outstanding st.trace).Nodup) := by
  have hgen : ∀ (fd : Int) (errno : Nat) (res : Int) (ctx : Nat) (attempts : List Attempt)
      (rest : List OsResp), 0 ≤ fd → 0 ≤ res → NoDrain capacity 0 attempts →
      ∃ st0 rets st,
        io_ctx_create capacity wait_cb (OsResp.eventfd fd errno :: OsResp.io_setup res ctx
            :: (attempt_script attempts ++ rest))
          = some (0, st0, attempt_script attempts ++ rest) ∧
        run_rets (attempt_calls attempts) (attempt_script attempts ++ rest) st0
          = some (rets, st, rest) ∧
        accepted_keys attempts rets = (List.range (accepted_count attempts)).map
          (fun (i : Nat) => capacity - 1 - (i : Int)) := by
    intro fd errno res ctx attempts rest hfd hres hroom
    have hfd2 : ¬ fd < 0 := by omega
    have hres2 : ¬ res < 0 := by omega
    obtain ⟨rets, st, e1, e2⟩ := fresh_keys_from attempts rest
      { ctx := { ctx := ctx, capacity := capacity, event_fd := fd, wait_cb := wait_cb,
                 req_cnt := 0, requests := List.replicate capacity.toNat io_req_zero,
                 req_pool := List.range capacity.toNat, active := 0 },
        trace := [Ev.eventfd fd, Ev.io_setup capacity res] } 0 rfl rfl
      (by simp only [List.length_replicate]; exact Nat.le_refl _) hroom
    refine ⟨_, rets, st, ?_, e1, ?_⟩
    · simp only [io_ctx_create, hfd2, hres2, if_false]
    · rw [e2]
      apply List.map_congr_left
      intro i _
      simp
  refine ⟨fun fd errno res ctx attempts rest hfd hres =>
    ⟨hgen fd errno res ctx attempts rest hfd hres, ?_⟩, ?_⟩
  · intro hacc hlen
    obtain ⟨hroom, hcount⟩ := accepted_no_drain capacity attempts 0 hacc
      (by simp only [Nat.zero_add]; exact hlen)
    obtain ⟨st0, rets, st, e1, e2, e3⟩ := hgen fd errno res ctx attempts rest hfd hres hroom
    have hl := (run_rets_run _ _ _ _ _ _ e2).2
    simp only [attempt_calls, List.length_map] at hl
    rw [accepted_keys_all attempts rets hacc hl, hcount] at e3
    rw [e3] at e2
    exact ⟨st0, st, e1, e2⟩
  · intro os0 st0 os1 calls st os2 hcreate hrun henv
    exact (reachable_good _ _ _ _ _ _ _ _ hcap hcreate hrun henv).1.pending_nodup

/-- Witness of `outstanding_keys_distinct`: on a fresh context of capacity 2 a
write is accepted, an fsync is rejected and a second write is accepted; the
three calls return 1, -9 and 0, so the accepted ones got the keys 1 and 0, and
the two outstanding operations have different keys. -/
theorem outstanding_keys_distinct_witness :
    (0 : Int) ≤ 2 ∧ NoDrain 2 0 demo_attempts ∧
    (∃ st0 rets st,
      io_ctx_create 2 1 (OsResp.eventfd 3 0 :: OsResp.io_setup 0 1
          :: (attempt_script demo_attempts ++ [])) = some (0, st0, attempt_script demo_attempts ++ []) ∧
      run_rets (attempt_calls demo_attempts) (attempt_script demo_attempts ++ []) st0
        = some (rets, st, []) ∧
      accepted_keys demo_attempts rets = [1, 0]) ∧
    Option.map Prod.fst (run_rets (attempt_calls demo_attempts) (attempt_script demo_attempts)
      demo_fresh) = some [1, -9, 0] ∧
    (outstanding demo_full.trace).Nodup := by
  have h := outstanding_keys_distinct 2 1 (by decide)
  refine ⟨by decide, by decide, ?_, by decide, ?_⟩
  · obtain ⟨st0, rets, st, e1, e2, e3⟩ :=
      (h.1 3 0 0 1 demo_attempts [] (by decide) (by decide)).1 (by decide)
    refine ⟨st0, rets, st, e1, e2, ?_⟩
    rw [e3]
    decide
  · exact h.2 (demo_create_script ++ [OsResp.io_submit 1, OsResp.io_submit 1]) demo_fresh
      [OsResp.io_submit 1, OsResp.io_submit 1] demo_calls_AB demo_full [] (by decide) (by decide)
      (by decide)

/-! ## Backpressure: the wait loop goes on until a request is available -/

/-- One iteration of the wait loop of `io_ctx_get_req`: on an empty pool, after
a drain that did not fail, the function continues from the state the drain
left. -/
theorem get_req_unroll (os : List OsResp) (st : State) (r : Int) (st1 : State)
    (os1 : List OsResp) (hfull : st.ctx.active = st.ctx.capacity)
    (hp : io_ctx_process os st = some (r, st1, os1)) (hr : 0 ≤ r) :
    io_ctx_get_req os st = io_ctx_get_req os1 st1 := by
  have hnr : ¬ r < 0 := by omega
  have hlen := process_consumes _ _ _ _ _ hp
  have h1 : io_ctx_get_req_wait (os.length + 1) os st
      = io_ctx_get_req_wait (os1.length + 1) os1 st1 := by
    simp only [io_ctx_get_req_wait, hfull, if_true, hp, hnr, if_false]
    exact io_ctx_get_req_wait_fuel os.length (os1.length + 1) os1 st1 hlen (by omega)
  simp only [io_ctx_get_req, h1]

theorem submit_unroll (mk : io_ctx → Nat → iocb) (complete_cb data_cb : Nat)
    (os : List OsResp) (st : State) (r : Int) (st1 : State)
    (os1 : List OsResp) (hfull : st.ctx.active = st.ctx.capacity)
    (hp : io_ctx_process os st = some (r, st1, os1)) (hr : 0 ≤ r) :
    io_ctx_submit mk complete_cb data_cb os st = io_ctx_submit mk complete_cb data_cb os1 st1 := by
  simp only [io_ctx_submit, get_req_unroll os st r st1 os1 hfull hp hr]

/-- A submit call on an empty pool whose first drain fails returns the result
of that drain, in the state the drain left. -/
theorem submit_drain_failed (mk : io_ctx → Nat → iocb) (complete_cb data_cb : Nat)
    (os : List OsResp) (st : State) (r : Int) (st1 : State)
    (os1 : List OsResp) (hfull : st.ctx.active = st.ctx.capacity)
    (hp : io_ctx_process os st = some (r, st1, os1)) (hr : r < 0) :
    io_ctx_submit mk complete_cb data_cb os st = some (r, st1, os1) := by
  simp only [io_ctx_submit, io_ctx_get_req, io_ctx_get_req_wait, hfull, if_true, hp, hr]

/-- A submit call made before a chain of drains is the submit call made after
it. -/
theorem submit_after_drains (mk : io_ctx → Nat → iocb) (complete_cb data_cb : Nat)
    (os : List OsResp) (st : State) (os2 : List OsResp) (st2 : State)
    (hd : Drains os st os2 st2) :
    io_ctx_submit mk complete_cb data_cb os st = io_ctx_submit mk complete_cb data_cb os2 st2 := by
  induction hd with
  | done os st => rfl
  | step os os1 os2 st st1 st2 r hfull hp hr _ ih =>
    rw [submit_unroll mk complete_cb data_cb os st r st1 os1 hfull hp hr, ih]

/-- C5 (backpressure): a submit call, of any of the six operations, on a
context with `active == capacity`.  (1) The wait loop goes on: when
`io_ctx_process` returns a non-negative value, the call continues as the same
submit call made in the state that drain left, whether or not the pool is
still empty there.  (2) Hence after any chain of drains, each made on an empty
pool and each returning a non-negative value, that leaves a request `slot` on
top of the pool, the call returns: the slot index when `io_submit` accepts,
with the slot acquired in the state after the drains, and the result of
`io_submit` with `active` and the pool restored otherwise.  (3) When, after
such a chain, a drain made on the still empty pool returns a negative value,
the call returns that value in the state that drain left.  (4) Every call that
returns is of one of these two kinds: a negative value is returned only when
an `io_ctx_process` call returned it, and then no request was acquired
(`active` has not grown, the sequence counter and the slots are untouched), or
when `io_submit` did; never because the pool was empty. -/
theorem submit_backpressure (op : SubmitOp) (complete_cb data_cb : Nat)
    (os : List OsResp) (st : State) (hfull : st.ctx.active = st.ctx.capacity) :
    (∀ (r : Int) (st1 : State) (os1 : List OsResp),
      io_ctx_process os st = some (r, st1, os1) → 0 ≤ r →
      op.exec complete_cb data_cb os st = op.exec complete_cb data_cb os1 st1) ∧
    (∀ (os2 : List OsResp) (st2 : State) (slot : Nat) (ret2 : Int) (rest : List OsResp),
      Drains os st os2 st2 → TopIs st2.ctx slot → os2 = OsResp.io_submit ret2 :: rest →
      (0 < ret2 → op.exec complete_cb data_cb os st
        = some ((slot : Int), st_submitted op.descriptor complete_cb data_cb st2 slot ret2,
            rest)) ∧
      (ret2 ≤ 0 → ∃ st1, op.exec complete_cb data_cb os st = some (ret2, st1, rest) ∧
        st1.ctx.active = st2.ctx.active ∧ st1.ctx.req_pool = st2.ctx.req_pool)) ∧
    (∀ (os2 : List OsResp) (st2 : State) (r : Int) (st1 : State) (os1 : List OsResp),
      Drains os st os2 st2 → st2.ctx.active = st2.ctx.capacity →
      io_ctx_process os2 st2 = some (r, st1, os1) → r < 0 →
      op.exec complete_cb data_cb os st = some (r, st1, os1)) ∧
    (∀ (ret : Int) (st1 : State) (os1 : List OsResp),
      op.exec complete_cb data_cb os st = some (ret, st1, os1) →
      ∃ os2 st2, Drains os st os2 st2 ∧
        ((ret < 0 ∧ st2.ctx.active = st2.ctx.capacity ∧
            io_ctx_process os2 st2 = some (ret, st1, os1) ∧
            st1.ctx.active ≤ st.ctx.active ∧ st1.ctx.req_cnt = st.ctx.req_cnt ∧
            st1.ctx.requests = st.ctx.requests) ∨
         (st2.ctx.active < st2.ctx.capacity ∧
            ∃ (slot : Nat) (ret2 : Int), os2 = OsResp.io_submit ret2 :: os1 ∧
              st2.ctx.req_pool[(st2.ctx.capacity - st2.ctx.active - 1).toNat]? = some slot ∧
              ((0 < ret2 ∧ ret = (slot : Int) ∧ st1.ctx.active = st2.ctx.active + 1) ∨
               (ret2 ≤ 0 ∧ ret = ret2 ∧ st1.ctx.active = st2.ctx.active))))) := by
  refine ⟨?_, ?_, ?_, ?_⟩
  · intro r st1 os1 hp hr
    rw [exec_eq_submit, exec_eq_submit]
    exact submit_unroll _ _ _ os st r st1 os1 hfull hp hr
  · intro os2 st2 slot ret2 rest hd htop hos
    rw [exec_eq_submit, submit_after_drains _ _ _ os st os2 st2 hd, hos]
    constructor
    · intro hpos
      exact top_submit_accepted _ _ _ _ _ _ _ htop hpos
    · intro hle
      obtain ⟨st1, e1, _, e2, e3, _⟩ := top_submit_rejected op.descriptor complete_cb data_cb
        ret2 rest st2 slot htop hle
      exact ⟨st1, e1, e2, e3⟩
  · intro os2 st2 r st1 os1 hd hfull2 hp hr
    rw [exec_eq_submit, submit_after_drains _ _ _ os st os2 st2 hd]
    exact submit_drain_failed _ _ _ os2 st2 r st1 os1 hfull2 hp hr
  · intro ret st1 os1 h
    rw [exec_eq_submit] at h
    obtain ⟨os2, st2, hd, hres⟩ := submit_spec _ _ _ _ _ _ _ _ h
    obtain ⟨f1, f2, f3, _⟩ := drains_frame _ _ _ _ hd
    refine ⟨os2, st2, hd, ?_⟩
    rcases hres with ⟨hneg, hf, hp⟩ | ⟨hne, slot, ret2, hos, hidx, hpool, hlt, hcase⟩
    · left
      obtain ⟨seg, j1, j2, j3, _⟩ := process_spec _ _ _ _ _ hp
      refine ⟨hneg, hf, hp, by omega, ?_, ?_⟩
      · rw [j2, f1]
      · rw [j2, f1]
    · right
      have hcap : st2.ctx.capacity = st.ctx.capacity := by rw [f1]
      refine ⟨by omega, slot, ret2, hos, hpool, ?_⟩
      rcases hcase with ⟨hpos, hr, hst⟩ | ⟨hnp, hr, c3, hput, hst⟩
      · left
        subst hst
        exact ⟨hpos, hr, rfl⟩
      · right
        obtain ⟨_, _, hc3⟩ := io_ctx_put_req_eq_some _ _ _ hput
        subst hst hc3
        refine ⟨hnp, hr, ?_⟩
        simp [st_submitted, ctx_acquired]

/-- Witness of `submit_backpressure`: the third write on the full context
`demo_full` with `demo_two_drain_script`.  The first drain returns 0 and leaves
the pool empty, the second dispatches A and frees slot 1, and the write is then
accepted with key 1; the call made at the start is the call made after the
first drain. -/
theorem submit_backpressure_witness :
    demo_full.ctx.active = demo_full.ctx.capacity ∧
    io_ctx_process demo_two_drain_script demo_full
      = some (0, demo_waited, demo_two_drain_script.drop 1) ∧
    demo_waited.ctx.active = demo_waited.ctx.capacity ∧
    io_ctx_process (demo_two_drain_script.drop 1) demo_waited
      = some (1, demo_one_freed, [OsResp.io_submit 1]) ∧
    (SubmitOp.write 5 300 10 1024).exec 13 23 demo_two_drain_script demo_full
      = (SubmitOp.write 5 300 10 1024).exec 13 23 (demo_two_drain_script.drop 1) demo_waited ∧
    (SubmitOp.write 5 300 10 1024).exec 13 23 demo_two_drain_script demo_full
      = some (((1 : Nat) : Int),
          st_submitted (SubmitOp.write 5 300 10 1024).descriptor 13 23 demo_one_freed 1 1, []) ∧
    (st_submitted (SubmitOp.write 5 300 10 1024).descriptor 13 23 demo_one_freed 1 1).ctx.active
      = 2 ∧
    callbacksOf ((st_submitted (SubmitOp.write 5 300 10 1024).descriptor 13 23
        demo_one_freed 1 1).trace.drop demo_full.trace.length)
      = [Ev.complete_cb 11 10 21] := by
  have hfull : demo_full.ctx.active = demo_full.ctx.capacity := by decide
  have h := submit_backpressure (SubmitOp.write 5 300 10 1024) 13 23 demo_two_drain_script
    demo_full hfull
  have hp1 : io_ctx_process demo_two_drain_script demo_full
      = some (0, demo_waited, demo_two_drain_script.drop 1) := by decide
  have hfull2 : demo_waited.ctx.active = demo_waited.ctx.capacity := by decide
  have hp2 : io_ctx_process (demo_two_drain_script.drop 1) demo_waited
      = some (1, demo_one_freed, [OsResp.io_submit 1]) := by decide
  have hd : Drains demo_two_drain_script demo_full [OsResp.io_submit 1] demo_one_freed :=
    Drains.step _ _ _ _ _ _ 0 hfull hp1 (by decide)
      (Drains.step _ _ _ _ _ _ 1 hfull2 hp2 (by decide) (Drains.done _ _))
  exact ⟨hfull, hp1, hfull2, hp2, h.1 0 demo_waited _ hp1 (by decide),
    (h.2.1 [OsResp.io_submit 1] demo_one_freed 1 1 [] hd
      ⟨by decide, by decide, by decide, by decide⟩ rfl).1 (by decide),
    by decide, by decide⟩

end Aio
